import Mathlib

/-!
# MinResExt (lib/inv_mre.cpp) and setGaugeParam (tests/su3_test.cpp)

A shallow embedding of the minimal-residual-extrapolation routine
`MinResExt::operator()`, and what its stages compute in exact arithmetic.

* Arrays (`G`, `alpha`, `beta`, the pointer vectors `p`, `q`) are total functions
  on `ℕ`; only the indices below `N` are ever read or written.  The fields
  behind `p[i]`, `q[i]`, `x`, `b` are taken to be pairwise distinct objects.
* Every `for` loop of the source is a `forRange`/`forDown` over a loop body that
  is written statement by statement after the source.
* `double` is a linearly ordered field `R`, `Complex` a field `K`; the library
  calls the routine makes (`blas::*`, `sqrt`, `abs`, `conj`, the conversion from
  `double` to `Complex`) are the fields of a `Blas` record.  `exactBlas` is their
  exact-arithmetic meaning on an inner product space.
* The source divides IEEE numbers and carries on with infinities and NaNs after
  a division by zero.  Exact arithmetic has no such values: the embedding
  computes with the field division of `K` and raises the ghost flag
  `nonFinite` at each division whose divisor is zero.  Once the flag is up the
  numeric fields of the state no longer stand for the values of the source.
* `matCalls` and `swaps` are ghost counters (applications of the operator,
  row swaps performed).
* The theorems about values are stated for `exactBlas` over an inner product
  space on the real or the complex numbers; the concrete runs are in `ℂ²`.
* `setGaugeParam` of `tests/su3_test.cpp` is embedded next to the routine: the
  preprocessor symbol `MULTI_GPU` is a Boolean argument, `int` products wrap to
  32 bits and the division by two truncates.
-/

namespace quda

/-- Memory domain of a field (`QudaFieldLocation`). -/
inductive QudaFieldLocation where
  | QUDA_CPU_FIELD_LOCATION
  | QUDA_CUDA_FIELD_LOCATION
  | QUDA_INVALID_FIELD_LOCATION
deriving DecidableEq, Repr

/-- A field vector as the routine sees it: where it lives and what it holds. -/
structure ColorSpinorField (V : Type) where
  location : QudaFieldLocation
  data : V

/-- Modelled from the spec: the vector-algebra primitive set (`blas::zero`, `norm2`, `ax`,
`caxpy`, `cDotProduct`, `reDotProduct`: zero-fill, squared norm, in-place scale,
`y += a x`, conjugate inner product, its real part) together with the scalar
library calls of the routine (`sqrt` on `double`, `abs` and `conj` on `Complex`,
the conversion `double → Complex`).  None of them is defined in the source
files at hand. -/
structure Blas (R K V : Type) where
  sqrt : R → R
  abs : K → R
  conj : K → K
  ofReal : R → K
  zero : V → V
  norm2 : V → R
  ax : R → V → V
  caxpy : K → V → V → V
  cDotProduct : V → V → K
  reDotProduct : V → V → R

/-- The variables of one call of `MinResExt::operator()`: the four operands, the
call-scoped arrays, the diagnostic `rsd` and the ghost fields. -/
structure MREState (R K V : Type) where
  x : V
  b : V
  p : ℕ → V
  q : ℕ → V
  G : ℕ → ℕ → K
  alpha : ℕ → K
  beta : ℕ → K
  rsd : R
  matCalls : ℕ
  swaps : ℕ
  nonFinite : Bool

/-- The loop `for (i = lo; n times; i++) body`, counting up from `lo`. -/
def forLoop {σ : Type} (body : ℕ → σ → σ) : ℕ → ℕ → σ → σ
  | _, 0, s => s
  | lo, n + 1, s => forLoop body (lo + 1) n (body lo s)

/-- The loop `for (int i = lo; i < hi; i++) body`. -/
def forRange {σ : Type} (lo hi : ℕ) (body : ℕ → σ → σ) (s : σ) : σ :=
  forLoop body lo (hi - lo) s

/-- The loop `for (int i = n-1; i >= 0; i--) body`. -/
def forDown {σ : Type} (body : ℕ → σ → σ) : ℕ → σ → σ
  | 0, s => s
  | n + 1, s => forDown body n (body n s)

/-- The assignment `G[r][c] = v`. -/
def set2 {K : Type} (G : ℕ → ℕ → K) (r c : ℕ) (v : K) : ℕ → ℕ → K :=
  Function.update G r (Function.update (G r) c v)

section Embedding

variable {R K V : Type} [LinearOrderedField R] [Field K] [DecidableEq K]

/-- Lines 51-54, body of the inner loop: `xp = cDotProduct(p[i], p[j]);
caxpy(-xp, p[i], p[j])`. -/
def orthoInner (E : Blas R K V) (i j : ℕ) (p : ℕ → V) : ℕ → V :=
  let xp := E.cDotProduct (p i) (p j)
  Function.update p j (E.caxpy (-xp) (p i) (p j))

/-- Lines 48-55, body of the orthonormalisation loop: `p2 = norm2(p[i]);
ax(1/sqrt(p2), p[i])`, then the inner loop over `j = i+1 .. N-1`.  The divisor
of this step is `sqrt(p2)`. -/
def orthoStep (E : Blas R K V) (N i : ℕ) (s : MREState R K V) : MREState R K V :=
  let p2 := E.norm2 (s.p i)
  let p1 := Function.update s.p i (E.ax (1 / E.sqrt p2) (s.p i))
  { s with
    p := forRange (i + 1) N (orthoInner E i) p1
    nonFinite := s.nonFinite || decide (E.sqrt p2 = 0) }

/-- Lines 47-55: orthonormalise the vector basis. -/
def orthonormalise (E : Blas R K V) (N : ℕ) (s : MREState R K V) : MREState R K V :=
  forRange 0 N (orthoStep E N) s

/-- Lines 58-62, loop body: `beta[i] = cDotProduct(p[i], b); mat(q[i], p[i]);
G[i][i] = reDotProduct(q[i], p[i])`. -/
def buildStep (E : Blas R K V) (mat : V → V) (i : ℕ) (s : MREState R K V) :
    MREState R K V :=
  let beta := Function.update s.beta i (E.cDotProduct (s.p i) s.b)
  let q := Function.update s.q i (mat (s.p i))
  { s with
    beta := beta
    q := q
    matCalls := s.matCalls + 1
    G := set2 s.G i i (E.ofReal (E.reDotProduct (q i) (s.p i))) }

/-- Lines 57-62: apply the operator and construct the right-hand side and the
diagonal. -/
def buildRhs (E : Blas R K V) (mat : V → V) (N : ℕ) (s : MREState R K V) :
    MREState R K V :=
  forRange 0 N (buildStep E mat) s

/-- Lines 67-68: `G[j][k] = cDotProduct(p[j], q[k]); G[k][j] = conj(G[j][k])`. -/
def constructInner (E : Blas R K V) (p q : ℕ → V) (j k : ℕ) (G : ℕ → ℕ → K) :
    ℕ → ℕ → K :=
  let G1 := set2 G j k (E.cDotProduct (p j) (q k))
  set2 G1 k j (E.conj (G1 j k))

/-- Lines 64-70: construct the matrix (the off-diagonal entries). -/
def constructMatrix (E : Blas R K V) (N : ℕ) (s : MREState R K V) : MREState R K V :=
  { s with
    G := forRange 0 N
      (fun j G => forRange (j + 1) N (constructInner E s.p s.q j) G) s.G }

/-- Lines 76-77: `k = i; for (j = i+1; j < N; j++) if (abs(G[j][j]) > abs(G[k][k]))
k = j`. -/
def pivotRow (E : Blas R K V) (N i : ℕ) (G : ℕ → ℕ → K) : ℕ :=
  forRange (i + 1) N (fun j k => if E.abs (G j j) > E.abs (G k k) then j else k) i

/-- The call `std::swap(G[k][j], G[i][j])`. -/
def swapEntry (k i j : ℕ) (G : ℕ → ℕ → K) : ℕ → ℕ → K :=
  let t := G k j
  set2 (set2 G k j (G i j)) i j t

/-- Lines 76-81: partial pivoting, the scan of the diagonal and the swap of rows
`k` and `i` of `G` together with `beta[k]` and `beta[i]`. -/
def pivotStep (E : Blas R K V) (N i : ℕ) (s : MREState R K V) : MREState R K V :=
  let k := pivotRow E N i s.G
  if k ≠ i then
    { s with
      beta := Function.update (Function.update s.beta k (s.beta i)) i (s.beta k)
      G := forRange 0 N (swapEntry k i) s.G
      swaps := s.swaps + 1 }
  else s

/-- Lines 84-88, loop body: `xp = G[j][i]/G[i][i]; beta[j] -= xp * beta[i];
for (k = 0; k < N; k++) G[j][k] -= xp * G[i][k]`.  The divisor is `G[i][i]`. -/
def elimRow (N i j : ℕ) (s : MREState R K V) : MREState R K V :=
  let xp := s.G j i / s.G i i
  { s with
    beta := Function.update s.beta j (s.beta j - xp * s.beta i)
    G := forRange 0 N (fun k G => set2 G j k (G j k - xp * G i k)) s.G
    nonFinite := s.nonFinite || decide (s.G i i = 0) }

/-- Lines 73-89, body of the elimination loop: pivoting, then the elimination of
column `i` from the rows `j = i+1 .. N-1`. -/
def elimStep (E : Blas R K V) (N i : ℕ) (s : MREState R K V) : MREState R K V :=
  forRange (i + 1) N (elimRow N i) (pivotStep E N i s)

/-- Lines 72-89: the elimination loop. -/
def eliminate (E : Blas R K V) (N : ℕ) (s : MREState R K V) : MREState R K V :=
  forRange 0 N (elimStep E N) s

/-- Lines 94-98, body of the back-substitution loop: `alpha[i] = 0.0;
for (j = i+1; j < N; j++) alpha[i] += G[i][j] * alpha[j];
alpha[i] = (beta[i]-alpha[i])/G[i][i]; caxpy(alpha[i], p[i], x);
caxpy(-alpha[i], q[i], b)`.  The divisor is `G[i][i]`. -/
def backStep (E : Blas R K V) (N i : ℕ) (s : MREState R K V) : MREState R K V :=
  let alpha0 := Function.update s.alpha i 0
  let alpha1 := forRange (i + 1) N
    (fun j al => Function.update al i (al i + s.G i j * al j)) alpha0
  let alpha2 := Function.update alpha1 i ((s.beta i - alpha1 i) / s.G i i)
  { s with
    alpha := alpha2
    x := E.caxpy (alpha2 i) (s.p i) s.x
    b := E.caxpy (-alpha2 i) (s.q i) s.b
    nonFinite := s.nonFinite || decide (s.G i i = 0) }

/-- Lines 91-100: `zero(x)`, then back-substitution from `i = N-1` down to `0`,
interleaved with the assembly of the guess and the deflation of `b`. -/
def backSubstitute (E : Blas R K V) (N : ℕ) (s : MREState R K V) : MREState R K V :=
  forDown (backStep E N) N { s with x := E.zero s.x }

/-- Lines 39-45: the state in which the loops are entered, with the operands as passed
and fresh, zero-filled `G`, `alpha`, `beta`. -/
def MinResExt.entry (x b : V) (p q : ℕ → V) : MREState R K V :=
  { x := x, b := b, p := p, q := q
    G := fun _ _ => 0, alpha := fun _ => 0, beta := fun _ => 0
    rsd := 0, matCalls := 0, swaps := 0, nonFinite := false }

/-- Lines 47-70: the state when the elimination starts, after the orthonormalisation, the
applications of the operator and the construction of the reduced system. -/
def MinResExt.built (E : Blas R K V) (mat : V → V) (x b : V) (p q : ℕ → V) (N : ℕ) :
    MREState R K V :=
  constructMatrix E N (buildRhs E mat N (orthonormalise E N (MinResExt.entry x b p q)))

/-- Lines 37-102 of `MinResExt::operator()`, the path taken when `N != 0`: the five stages
in order and the diagnostic `rsd = sqrt(norm2(b) / b2)`.  The diagnostic is only printed:
its division by `b2` does not raise `nonFinite`. -/
def MinResExt.run (E : Blas R K V) (mat : V → V) (x b : V) (p q : ℕ → V) (N : ℕ) :
    MREState R K V :=
  let b2 := E.norm2 b
  let s := backSubstitute E N (eliminate E N (MinResExt.built E mat x b p q N))
  { s with rsd := E.sqrt (E.norm2 s.b / b2) }

/-- Modelled from the spec: the helper `Location(x, b)`, which is not in the source files at
hand: the memory domain its operands share. -/
def Location (x b : ColorSpinorField V) : QudaFieldLocation :=
  if x.location = b.location then x.location
  else QudaFieldLocation.QUDA_INVALID_FIELD_LOCATION

/-- The routine `MinResExt::operator()(x, b, p, q, N)`.  `errorQuda` ends the process:
the call has no final state (`Except.error`).  Otherwise the result is the
final contents of the operands and of the local arrays. -/
def MinResExt.operator (E : Blas R K V) (mat : V → V) (x b : ColorSpinorField V)
    (p q : ℕ → ColorSpinorField V) (N : ℕ) : Except String (MREState R K V) :=
  if Location x b ≠ QudaFieldLocation.QUDA_CUDA_FIELD_LOCATION then
    Except.error "Not supported"
  else if N = 0 then
    Except.ok
      { MinResExt.entry x.data b.data (fun i => (p i).data) (fun i => (q i).data) with
        x := E.zero x.data }
  else
    Except.ok (MinResExt.run E mat x.data b.data (fun i => (p i).data)
      (fun i => (q i).data) N)

end Embedding

/-- Modelled from the spec: the primitives in exact arithmetic on an inner product space `V`
over `K` (the real or the complex numbers), `double` being `ℝ`: the conjugate
inner product is conjugate-linear in its first argument, `caxpy(a, x, y)`
is `y += a x`, `ax(a, x)` is `x *= a`. -/
noncomputable def exactBlas (K V : Type) [RCLike K] [NormedAddCommGroup V]
    [InnerProductSpace K V] : Blas ℝ K V where
  sqrt := Real.sqrt
  abs := fun z => ‖z‖
  conj := fun z => (starRingEnd K) z
  ofReal := fun r => (r : K)
  zero := fun _ => 0
  norm2 := fun v => ‖v‖ ^ 2
  ax := fun a v => (a : K) • v
  caxpy := fun a u v => v + a • u
  cDotProduct := fun u v => inner u v
  reDotProduct := fun u v => RCLike.re (inner u v : K)

/-- The reduced system on the indices below `N`: `γ` satisfies `G γ = β`. -/
def Solves {K : Type} [Field K] (N : ℕ) (G : ℕ → ℕ → K) (β γ : ℕ → K) : Prop :=
  ∀ r, r < N → ∑ c in Finset.range N, G r c * γ c = β r

/-- The entries below the diagonal vanish (rows and columns below `N`). -/
def UpperTriangular {K : Type} [Field K] (N : ℕ) (G : ℕ → ℕ → K) : Prop :=
  ∀ r c, c < r → r < N → G r c = 0

/-- The value the back-substitution assigns to `alpha[i]`:
`(beta[i] - Σ_{i<j<N} G[i][j] alpha[j]) / G[i][i]`. -/
def backValue {K : Type} [Field K] (N i : ℕ) (G : ℕ → ℕ → K) (β α : ℕ → K) : K :=
  (β i - ∑ j in Finset.Ico (i + 1) N, G i j * α j) / G i i

/-- The linear span of the first `m` vectors `p 0, …, p (m-1)` of a family. -/
def spanBelow (K : Type) {V : Type} [RCLike K] [NormedAddCommGroup V] [InnerProductSpace K V]
    (p : ℕ → V) (m : ℕ) : Submodule K V :=
  Submodule.span K (p '' Set.Iio m)

/-- A field resident in accelerator memory. -/
def onDevice {V : Type} (v : V) : ColorSpinorField V :=
  ⟨QudaFieldLocation.QUDA_CUDA_FIELD_LOCATION, v⟩

/-- The array of the two fields `u`, `v` (index `0` and every index from `1` on). -/
def pair {V : Type} (u v : V) : ℕ → V :=
  fun i => if i = 0 then u else v

/-- The toy vector space `ℂ²` with its standard inner product. -/
abbrev V2 : Type := EuclideanSpace ℂ (Fin 2)

/-- The vector `(a, b)` of `ℂ²`. -/
noncomputable def vec2 (a b : ℂ) : V2 :=
  (WithLp.equiv 2 (Fin 2 → ℂ)).symm ![a, b]

/-- The linear operator on `ℂ²` with matrix `[[a, b], [c, d]]`. -/
noncomputable def matOp (a b c d : ℂ) : V2 →ₗ[ℂ] V2 where
  toFun := fun v => vec2 (a * v 0 + b * v 1) (c * v 0 + d * v 1)
  map_add' := by
    intro u v
    ext i
    fin_cases i
    · simp [vec2]
      ring
    · simp [vec2]
      ring
  map_smul' := by
    intro k v
    ext i
    fin_cases i
    · simp [vec2]
      ring
    · simp [vec2]
      ring

/-- The array `p` with its first `N` entries reordered by the permutation `σ`: entry `i` of
the result is entry `σ i` of `p`. -/
def reorder {α : Type} (N : ℕ) (σ : Equiv.Perm (Fin N)) (p : ℕ → α) : ℕ → α :=
  fun i => if h : i < N then p (σ ⟨i, h⟩) else p i

/-- The state at the start of the elimination for the run on `ℂ²` with the operator `A`, the
standard basis `(1, 0)`, `(0, 1)` as trial vectors, the right-hand side `b`, and zero-filled
`x` and image vectors. -/
noncomputable def toyBuilt (A : V2 →ₗ[ℂ] V2) (b : V2) : MREState ℝ ℂ V2 :=
  MinResExt.built (exactBlas ℂ V2) A (vec2 0 0) b (pair (vec2 1 0) (vec2 0 1))
    (fun _ => vec2 0 0) 2

/-- The value an `int` holds after an arithmetic result `z`: the two's-complement wrap to 32
bits. A result within the range of `int` is unchanged; outside it the C standard leaves the
behaviour undefined and the wrap is what the hardware produces. -/
def wrapInt (z : Int) : Int :=
  (z + 2 ^ 31) % 2 ^ 32 - 2 ^ 31

/-- The macro `MAX(a,b) ((a)>(b)?(a):(b))` of `tests/su3_test.cpp`. -/
def MAX (a b : Int) : Int :=
  if a > b then a else b

/-- Modelled from the spec: the gauge-parameter record of the library, reduced to the two
members that `setGaugeParam` computes from the lattice dimensions, the extents `X[0..3]` and
the padding `ga_pad`. The members it fills with constants and with other globals (anisotropy,
link type, orders, precisions, reconstruction, gauge fixing) are left out. -/
structure QudaGaugeParam where
  X : Fin 4 → Int
  ga_pad : Int

/-- The function `setGaugeParam` of `tests/su3_test.cpp`. `MULTI_GPU` says whether the
preprocessor symbol of that name is defined; `xdim`, `ydim`, `zdim`, `tdim` are the global
lattice dimensions. Products are evaluated left to right in `int`, the division by two
truncates. -/
def setGaugeParam (MULTI_GPU : Bool) (xdim ydim zdim tdim : Int)
    (gauge_param : QudaGaugeParam) : QudaGaugeParam :=
  let g0 : QudaGaugeParam := { gauge_param with X := ![xdim, ydim, zdim, tdim] }
  let g1 : QudaGaugeParam := { g0 with ga_pad := 0 }
  if MULTI_GPU then
    let x_face_size := Int.tdiv (wrapInt (wrapInt (g1.X 1 * g1.X 2) * g1.X 3)) 2
    let y_face_size := Int.tdiv (wrapInt (wrapInt (g1.X 0 * g1.X 2) * g1.X 3)) 2
    let z_face_size := Int.tdiv (wrapInt (wrapInt (g1.X 0 * g1.X 1) * g1.X 3)) 2
    let t_face_size := Int.tdiv (wrapInt (wrapInt (g1.X 0 * g1.X 1) * g1.X 2)) 2
    let pad_size := MAX x_face_size y_face_size
    let pad_size := MAX pad_size z_face_size
    let pad_size := MAX pad_size t_face_size
    { g1 with ga_pad := pad_size }
  else g1

/-- The hypothesis "at every elimination step `i` the entry in position `(i, i)` after the row
swap is non-zero": the state before step `i` is the result of the steps `0 .. i-1`, and the
entry is read after the pivot search and the swap of step `i`. -/
def PivotsNonzero {R K V : Type} [LinearOrderedField R] [Field K] [DecidableEq K]
    (E : Blas R K V) (N : ℕ) (s : MREState R K V) : Prop :=
  ∀ i, i < N → (pivotStep E N i (forRange 0 i (elimStep E N) s)).G i i ≠ 0

/-! ## Loops, the solver, the orthonormaliser, the builder: supporting lemmas -/

set_option linter.unusedSectionVars false

theorem forLoop_succ_last {σ : Type} (body : ℕ → σ → σ) (n : ℕ) :
    ∀ (lo : ℕ) (s : σ), forLoop body lo (n + 1) s = body (lo + n) (forLoop body lo n s) := by
  induction n with
  | zero => intro lo s; rfl
  | succ n ih =>
    intro lo s
    rw [forLoop, ih (lo + 1) (body lo s)]
    have : lo + 1 + n = lo + (n + 1) := by omega
    rw [this]
    rfl

theorem forRange_of_le {σ : Type} (lo hi : ℕ) (body : ℕ → σ → σ) (s : σ) (h : hi ≤ lo) :
    forRange lo hi body s = s := by
  unfold forRange
  rw [Nat.sub_eq_zero_of_le h]
  rfl

theorem forRange_succ_last {σ : Type} (lo hi : ℕ) (body : ℕ → σ → σ) (s : σ) (h : lo ≤ hi) :
    forRange lo (hi + 1) body s = body hi (forRange lo hi body s) := by
  unfold forRange
  have e : hi + 1 - lo = (hi - lo) + 1 := by omega
  rw [e, forLoop_succ_last]
  congr 1
  omega

theorem forRange_succ_first {σ : Type} (lo hi : ℕ) (body : ℕ → σ → σ) (s : σ) (h : lo < hi) :
    forRange lo hi body s = forRange (lo + 1) hi body (body lo s) := by
  unfold forRange
  have e : hi - lo = (hi - (lo + 1)) + 1 := by omega
  rw [e]
  rfl

theorem forRange_inv {σ : Type} (I : ℕ → σ → Prop) (body : ℕ → σ → σ) (lo hi : ℕ) (s : σ)
    (hle : lo ≤ hi) (h0 : I lo s)
    (hstep : ∀ i t, lo ≤ i → i < hi → I i t → I (i + 1) (body i t)) :
    I hi (forRange lo hi body s) := by
  induction hi with
  | zero =>
    have : lo = 0 := by omega
    subst this
    simpa [forRange, forLoop] using h0
  | succ hi ih =>
    rcases Nat.eq_or_lt_of_le hle with h | h
    · subst h
      rw [forRange_of_le _ _ _ _ le_rfl]
      exact h0
    · have hle2 : lo ≤ hi := by omega
      rw [forRange_succ_last _ _ _ _ hle2]
      apply hstep hi _ hle2 (by omega)
      exact ih hle2 (fun i t h1 h2 h3 => hstep i t h1 (by omega) h3)

theorem forDown_inv {σ : Type} (I : ℕ → σ → Prop) (body : ℕ → σ → σ) (n : ℕ) :
    ∀ (s : σ), I n s → (∀ i t, i < n → I (i + 1) t → I i (body i t)) →
    I 0 (forDown body n s) := by
  induction n with
  | zero => intro s h0 _; exact h0
  | succ n ih =>
    intro s h0 hstep
    rw [forDown]
    exact ih _ (hstep n s (by omega) h0) (fun i t h1 h2 => hstep i t (by omega) h2)

section

variable {R K V : Type} [LinearOrderedField R] [Field K] [DecidableEq K]

theorem set2_apply {K : Type} (G : ℕ → ℕ → K) (r c : ℕ) (v : K) (r' c' : ℕ) :
    set2 G r c v r' c' = if r' = r ∧ c' = c then v else G r' c' := by
  unfold set2
  by_cases hr : r' = r
  · subst hr
    by_cases hc : c' = c <;> simp [Function.update, hc]
  · simp [Function.update, hr]

theorem swapLoop_apply {K : Type} (N k i : ℕ) (G : ℕ → ℕ → K) (r c : ℕ) :
    forRange 0 N (swapEntry k i) G r c =
      if c < N then (if r = i then G k c else if r = k then G i c else G r c) else G r c := by
  have key := forRange_inv
    (fun n (G' : ℕ → ℕ → K) => ∀ r c, G' r c =
      if c < n then (if r = i then G k c else if r = k then G i c else G r c) else G r c)
    (swapEntry k i) 0 N G (Nat.zero_le _) (by intro r c; simp) ?_
  · exact key r c
  · intro j t _ _ ht r c
    simp only [swapEntry, set2_apply]
    rw [ht r c, ht k j, ht i j]
    by_cases hc : c = j
    · subst hc
      by_cases h1 : r = i
      · simp [h1]
      · by_cases h2 : r = k
        · simp [h1, h2]
        · simp [h1, h2]
    · have : (c < j + 1) ↔ (c < j) := by omega
      simp [hc, this]

theorem rowLoop_apply (N i j : ℕ) (hij : i ≠ j) (xp : K) (G : ℕ → ℕ → K) (r c : ℕ) :
    forRange 0 N (fun k G => set2 G j k (G j k - xp * G i k)) G r c =
      if r = j ∧ c < N then G j c - xp * G i c else G r c := by
  have key := forRange_inv
    (fun n (G' : ℕ → ℕ → K) => ∀ r c, G' r c =
      if r = j ∧ c < n then G j c - xp * G i c else G r c)
    (fun k G => set2 G j k (G j k - xp * G i k)) 0 N G (Nat.zero_le _)
    (by intro r c; simp) ?_
  · exact key r c
  · intro k t _ _ ht r c
    simp only [set2_apply]
    rw [ht r c, ht j k, ht i k]
    by_cases hc : c = k
    · subst hc
      by_cases h1 : r = j
      · simp [h1, hij]
      · simp [h1]
    · have : (c < k + 1) ↔ (c < k) := by omega
      simp [hc, this]

theorem pivotRow_bounds (E : Blas R K V) (N i : ℕ) (G : ℕ → ℕ → K) :
    i ≤ pivotRow E N i G ∧ (i < N → pivotRow E N i G < N) := by
  unfold pivotRow
  by_cases h : i + 1 ≤ N
  · have key := forRange_inv (fun n k => i ≤ k ∧ k < n)
      (fun j k => if E.abs (G j j) > E.abs (G k k) then j else k) (i + 1) N i h
      ⟨le_rfl, Nat.lt_succ_self i⟩ ?_
    · exact ⟨key.1, fun _ => key.2⟩
    · intro j k hj _ hk
      dsimp only
      split_ifs
      · exact ⟨by omega, by omega⟩
      · exact ⟨hk.1, by omega⟩
  · rw [forRange_of_le _ _ _ _ (by omega)]
    exact ⟨le_rfl, fun hi => by omega⟩

/-- The row chosen by the scan carries a diagonal entry of largest magnitude among the
rows `i .. N-1`. -/
theorem pivotRow_max (E : Blas R K V) (N i : ℕ) (G : ℕ → ℕ → K) (j : ℕ) (hij : i ≤ j)
    (hj : j < N) : E.abs (G j j) ≤ E.abs (G (pivotRow E N i G) (pivotRow E N i G)) := by
  unfold pivotRow
  have h : i + 1 ≤ N := by omega
  have key := forRange_inv (fun n k => ∀ j, i ≤ j → j < n → E.abs (G j j) ≤ E.abs (G k k))
    (fun j k => if E.abs (G j j) > E.abs (G k k) then j else k) (i + 1) N i h
    (by
      intro j h1 h2
      have : j = i := by omega
      rw [this]) ?_
  · exact key j hij hj
  · intro n k _ _ hk j h1 h2
    dsimp only
    rcases Nat.lt_succ_iff_lt_or_eq.mp h2 with h3 | h3
    · split_ifs with hgt
      · exact le_trans (hk j h1 h3) (le_of_lt hgt)
      · exact hk j h1 h3
    · subst h3
      split_ifs with hgt
      · exact le_rfl
      · exact not_lt.mp hgt

theorem pivotStep_G (E : Blas R K V) (N i : ℕ) (s : MREState R K V) (r c : ℕ) :
    (pivotStep E N i s).G r c =
      if c < N then
        (if r = i then s.G (pivotRow E N i s.G) c
         else if r = pivotRow E N i s.G then s.G i c else s.G r c)
      else s.G r c := by
  unfold pivotStep
  by_cases h : pivotRow E N i s.G = i
  · simp only [h, ne_eq, not_true_eq_false, ↓reduceIte]
    split_ifs with h1 h2 <;> simp [*]
  · simp only [ne_eq, h, not_false_eq_true, ↓reduceIte, swapLoop_apply]

theorem pivotStep_beta (E : Blas R K V) (N i : ℕ) (s : MREState R K V) (r : ℕ) :
    (pivotStep E N i s).beta r =
      if r = i then s.beta (pivotRow E N i s.G)
      else if r = pivotRow E N i s.G then s.beta i else s.beta r := by
  unfold pivotStep
  by_cases h : pivotRow E N i s.G = i
  · simp only [h, ne_eq, not_true_eq_false, ↓reduceIte]
    split_ifs with h1 <;> simp [*]
  · simp only [ne_eq, h, not_false_eq_true, ↓reduceIte, Function.update_apply]

theorem pivotStep_frame (E : Blas R K V) (N i : ℕ) (s : MREState R K V) :
    (pivotStep E N i s).x = s.x ∧ (pivotStep E N i s).b = s.b ∧
    (pivotStep E N i s).p = s.p ∧ (pivotStep E N i s).q = s.q ∧
    (pivotStep E N i s).alpha = s.alpha ∧ (pivotStep E N i s).matCalls = s.matCalls ∧
    (pivotStep E N i s).nonFinite = s.nonFinite ∧ (pivotStep E N i s).rsd = s.rsd := by
  simp only [pivotStep]
  split_ifs <;> simp

theorem pivotStep_swaps (E : Blas R K V) (N i : ℕ) (s : MREState R K V) :
    (pivotStep E N i s).swaps = if pivotRow E N i s.G = i then s.swaps else s.swaps + 1 := by
  unfold pivotStep
  split_ifs <;> simp_all

theorem elimRow_G (N i j : ℕ) (hij : i ≠ j) (s : MREState R K V) (r c : ℕ) :
    (elimRow N i j s).G r c =
      if r = j ∧ c < N then s.G j c - s.G j i / s.G i i * s.G i c else s.G r c := by
  simp only [elimRow, rowLoop_apply N i j hij]

theorem elimRow_beta (N i j : ℕ) (s : MREState R K V) (r : ℕ) :
    (elimRow N i j s).beta r =
      if r = j then s.beta j - s.G j i / s.G i i * s.beta i else s.beta r := by
  simp only [elimRow, Function.update_apply]

theorem elimRow_frame (N i j : ℕ) (s : MREState R K V) :
    (elimRow N i j s).x = s.x ∧ (elimRow N i j s).b = s.b ∧
    (elimRow N i j s).p = s.p ∧ (elimRow N i j s).q = s.q ∧
    (elimRow N i j s).alpha = s.alpha ∧ (elimRow N i j s).matCalls = s.matCalls ∧
    (elimRow N i j s).swaps = s.swaps ∧ (elimRow N i j s).rsd = s.rsd := by
  simp [elimRow]

theorem elimRow_nonFinite (N i j : ℕ) (s : MREState R K V) :
    (elimRow N i j s).nonFinite = (s.nonFinite || decide (s.G i i = 0)) := by
  simp [elimRow]

/-- Reordering the equations by an involution of the row indices keeps the solutions. -/
theorem solves_perm (N : ℕ) (σ : ℕ → ℕ) (hσ : ∀ r, r < N → σ r < N)
    (hinv : ∀ r, r < N → σ (σ r) = r) (G G' : ℕ → ℕ → K) (β β' γ : ℕ → K)
    (hG : ∀ r c, r < N → c < N → G' r c = G (σ r) c) (hβ : ∀ r, r < N → β' r = β (σ r)) :
    Solves N G' β' γ ↔ Solves N G β γ := by
  constructor
  · intro h r hr
    have h1 := h (σ r) (hσ r hr)
    rw [hβ _ (hσ r hr), hinv r hr] at h1
    rw [← h1]
    apply Finset.sum_congr rfl
    intro c hc
    rw [hG _ _ (hσ r hr) (Finset.mem_range.mp hc), hinv r hr]
  · intro h r hr
    rw [hβ r hr, ← h (σ r) (hσ r hr)]
    apply Finset.sum_congr rfl
    intro c hc
    rw [hG _ _ hr (Finset.mem_range.mp hc)]

theorem pivotStep_solves (E : Blas R K V) (N i : ℕ) (hi : i < N) (s : MREState R K V)
    (γ : ℕ → K) :
    Solves N (pivotStep E N i s).G (pivotStep E N i s).beta γ ↔ Solves N s.G s.beta γ := by
  obtain ⟨hk1, hk2⟩ := pivotRow_bounds E N i s.G
  have hk := hk2 hi
  set k := pivotRow E N i s.G with hkdef
  apply solves_perm N (fun r => if r = i then k else if r = k then i else r)
  · intro r hr
    split_ifs <;> omega
  · intro r hr
    split_ifs <;> omega
  · intro r c hr hc
    rw [pivotStep_G, if_pos hc]
    split_ifs <;> rfl
  · intro r hr
    rw [pivotStep_beta]
    split_ifs <;> rfl

theorem elimRow_solves (N i j : ℕ) (hij : i ≠ j) (hi : i < N) (s : MREState R K V)
    (γ : ℕ → K) :
    Solves N (elimRow N i j s).G (elimRow N i j s).beta γ ↔ Solves N s.G s.beta γ := by
  have hsum : ∀ r, r < N → ∑ c in Finset.range N, (elimRow N i j s).G r c * γ c =
      if r = j then ∑ c in Finset.range N, s.G j c * γ c
        - s.G j i / s.G i i * ∑ c in Finset.range N, s.G i c * γ c
      else ∑ c in Finset.range N, s.G r c * γ c := by
    intro r _
    by_cases hr : r = j
    · rw [if_pos hr, Finset.mul_sum, ← Finset.sum_sub_distrib]
      apply Finset.sum_congr rfl
      intro c hc
      rw [elimRow_G N i j hij, if_pos ⟨hr, Finset.mem_range.mp hc⟩]
      ring
    · rw [if_neg hr]
      apply Finset.sum_congr rfl
      intro c _
      rw [elimRow_G N i j hij, if_neg (fun h => hr h.1)]
  constructor
  · intro h r hr
    have hrowi := h i hi
    rw [hsum i hi, if_neg hij, elimRow_beta, if_neg hij] at hrowi
    have h1 := h r hr
    rw [hsum r hr, elimRow_beta] at h1
    by_cases hrj : r = j
    · rw [if_pos hrj, if_pos hrj, hrowi] at h1
      rw [hrj]
      exact sub_left_injective h1
    · rwa [if_neg hrj, if_neg hrj] at h1
  · intro h r hr
    rw [hsum r hr, elimRow_beta]
    by_cases hrj : r = j
    · rw [if_pos hrj, if_pos hrj, h i hi, h j (hrj ▸ hr)]
    · rw [if_neg hrj, if_neg hrj, h r hr]

/-- Closed form of the loop over the rows `j = i+1 .. n-1` of one elimination step. -/
theorem elimRows_closed (N i n : ℕ) (hn : i + 1 ≤ n) (t0 : MREState R K V) :
    let t := forRange (i + 1) n (elimRow N i) t0
    (∀ r c, t.G r c =
      if i < r ∧ r < n ∧ c < N then t0.G r c - t0.G r i / t0.G i i * t0.G i c
      else t0.G r c) ∧
    (∀ r, t.beta r =
      if i < r ∧ r < n then t0.beta r - t0.G r i / t0.G i i * t0.beta i else t0.beta r) ∧
    t.nonFinite = (t0.nonFinite || (decide (i + 1 < n) && decide (t0.G i i = 0))) ∧
    t.x = t0.x ∧ t.b = t0.b ∧ t.p = t0.p ∧ t.q = t0.q ∧ t.alpha = t0.alpha ∧
    t.matCalls = t0.matCalls ∧ t.swaps = t0.swaps ∧ t.rsd = t0.rsd := by
  refine forRange_inv (fun n (t : MREState R K V) =>
    (∀ r c, t.G r c =
      if i < r ∧ r < n ∧ c < N then t0.G r c - t0.G r i / t0.G i i * t0.G i c
      else t0.G r c) ∧
    (∀ r, t.beta r =
      if i < r ∧ r < n then t0.beta r - t0.G r i / t0.G i i * t0.beta i else t0.beta r) ∧
    t.nonFinite = (t0.nonFinite || (decide (i + 1 < n) && decide (t0.G i i = 0))) ∧
    t.x = t0.x ∧ t.b = t0.b ∧ t.p = t0.p ∧ t.q = t0.q ∧ t.alpha = t0.alpha ∧
    t.matCalls = t0.matCalls ∧ t.swaps = t0.swaps ∧ t.rsd = t0.rsd)
    (elimRow N i) (i + 1) n t0 hn ?_ ?_
  · refine ⟨?_, ?_, ?_, rfl, rfl, rfl, rfl, rfl, rfl, rfl, rfl⟩
    · intro r c
      rw [if_neg]
      omega
    · intro r
      rw [if_neg]
      omega
    · simp
  · intro j t hj _ ⟨hG, hb, hf, h1, h2, h3, h4, h5, h6, h7, h8⟩
    have hij : i ≠ j := by omega
    obtain ⟨f1, f2, f3, f4, f5, f6, f7, f8⟩ := elimRow_frame N i j t
    have hGi : ∀ c, t.G i c = t0.G i c := by
      intro c
      rw [hG, if_neg]
      omega
    have hGj : ∀ c, t.G j c = t0.G j c := by
      intro c
      rw [hG, if_neg]
      omega
    refine ⟨?_, ?_, ?_, f1.trans h1, f2.trans h2, f3.trans h3, f4.trans h4, f5.trans h5,
      f6.trans h6, f7.trans h7, f8.trans h8⟩
    · intro r c
      rw [elimRow_G N i j hij, hGi, hGj, hGj, hGi, hG]
      by_cases hr : r = j
      · subst hr
        by_cases hc : c < N
        · rw [if_pos ⟨rfl, hc⟩, if_pos ⟨by omega, by omega, hc⟩]
        · rw [if_neg (fun h => hc h.2), if_neg (by omega), if_neg (fun h => hc h.2.2)]
      · rw [if_neg (fun h => hr h.1)]
        by_cases h : i < r ∧ r < j ∧ c < N
        · rw [if_pos h, if_pos ⟨h.1, by omega, h.2.2⟩]
        · rw [if_neg h, if_neg]
          omega
    · intro r
      have hbi : t.beta i = t0.beta i := by
        rw [hb, if_neg]
        omega
      have hbj : t.beta j = t0.beta j := by
        rw [hb, if_neg]
        omega
      rw [elimRow_beta, hGi, hGj, hbi, hbj]
      by_cases hr : r = j
      · subst hr
        rw [if_pos rfl, if_pos ⟨by omega, by omega⟩]
      · rw [if_neg hr, hb]
        by_cases h : i < r ∧ r < j
        · rw [if_pos h, if_pos ⟨h.1, by omega⟩]
        · rw [if_neg h, if_neg]
          omega
    · rw [elimRow_nonFinite, hf, hGi]
      have e1 : decide (i + 1 < j + 1) = true := by
        apply decide_eq_true
        omega
      rw [e1]
      cases t0.nonFinite <;> cases decide (t0.G i i = 0) <;> simp

theorem elimRows_solves (N i n : ℕ) (hi : i < N) (hn : i + 1 ≤ n) (t0 : MREState R K V)
    (γ : ℕ → K) :
    Solves N (forRange (i + 1) n (elimRow N i) t0).G
      (forRange (i + 1) n (elimRow N i) t0).beta γ ↔ Solves N t0.G t0.beta γ := by
  refine forRange_inv (fun _ (t : MREState R K V) =>
    (Solves N t.G t.beta γ ↔ Solves N t0.G t0.beta γ)) (elimRow N i) (i + 1) n t0 hn
    Iff.rfl ?_
  intro j t hj _ ht
  exact (elimRow_solves N i j (by omega) hi t γ).trans ht

/-- One elimination step keeps the solutions of the system. -/
theorem elimStep_solves (E : Blas R K V) (N i : ℕ) (hi : i < N) (s : MREState R K V)
    (γ : ℕ → K) :
    Solves N (elimStep E N i s).G (elimStep E N i s).beta γ ↔ Solves N s.G s.beta γ := by
  unfold elimStep
  exact (elimRows_solves N i N hi (by omega) _ γ).trans (pivotStep_solves E N i hi s γ)

/-- The elimination loop keeps the solutions of the system, whatever the pivots. -/
theorem eliminate_solves (E : Blas R K V) (N : ℕ) (s : MREState R K V) (γ : ℕ → K) :
    Solves N (eliminate E N s).G (eliminate E N s).beta γ ↔ Solves N s.G s.beta γ := by
  unfold eliminate
  refine forRange_inv (fun _ (t : MREState R K V) =>
    (Solves N t.G t.beta γ ↔ Solves N s.G s.beta γ)) (elimStep E N) 0 N s (Nat.zero_le _)
    Iff.rfl ?_
  intro i t _ hi ht
  exact (elimStep_solves E N i hi t γ).trans ht

theorem elimStep_frame (E : Blas R K V) (N i : ℕ) (hi : i < N) (s : MREState R K V) :
    (elimStep E N i s).x = s.x ∧ (elimStep E N i s).b = s.b ∧
    (elimStep E N i s).p = s.p ∧ (elimStep E N i s).q = s.q ∧
    (elimStep E N i s).alpha = s.alpha ∧ (elimStep E N i s).matCalls = s.matCalls ∧
    (elimStep E N i s).rsd = s.rsd := by
  obtain ⟨_, _, _, h1, h2, h3, h4, h5, h6, _, h8⟩ :=
    elimRows_closed N i N (by omega) (pivotStep E N i s)
  obtain ⟨f1, f2, f3, f4, f5, f6, _, f8⟩ := pivotStep_frame E N i s
  unfold elimStep
  exact ⟨h1.trans f1, h2.trans f2, h3.trans f3, h4.trans f4, h5.trans f5, h6.trans f6,
    h8.trans f8⟩

theorem eliminate_frame (E : Blas R K V) (N : ℕ) (s : MREState R K V) :
    (eliminate E N s).x = s.x ∧ (eliminate E N s).b = s.b ∧
    (eliminate E N s).p = s.p ∧ (eliminate E N s).q = s.q ∧
    (eliminate E N s).alpha = s.alpha ∧ (eliminate E N s).matCalls = s.matCalls ∧
    (eliminate E N s).rsd = s.rsd := by
  unfold eliminate
  refine forRange_inv (fun _ (t : MREState R K V) =>
    t.x = s.x ∧ t.b = s.b ∧ t.p = s.p ∧ t.q = s.q ∧ t.alpha = s.alpha ∧
    t.matCalls = s.matCalls ∧ t.rsd = s.rsd) (elimStep E N) 0 N s (Nat.zero_le _)
    ⟨rfl, rfl, rfl, rfl, rfl, rfl, rfl⟩ ?_
  intro i t _ hi ⟨h1, h2, h3, h4, h5, h6, h7⟩
  obtain ⟨f1, f2, f3, f4, f5, f6, f7⟩ := elimStep_frame E N i hi t
  exact ⟨f1.trans h1, f2.trans h2, f3.trans h3, f4.trans h4, f5.trans h5, f6.trans h6,
    f7.trans h7⟩

/-- The flag and the pivot of one elimination step. -/
theorem elimStep_nonFinite (E : Blas R K V) (N i : ℕ) (s : MREState R K V) :
    (elimStep E N i s).nonFinite =
      (s.nonFinite || (decide (i + 1 < N) && decide ((pivotStep E N i s).G i i = 0))) := by
  by_cases h : i + 1 ≤ N
  · obtain ⟨_, _, h3, _⟩ := elimRows_closed N i N h (pivotStep E N i s)
    unfold elimStep
    rw [h3, (pivotStep_frame E N i s).2.2.2.2.2.2.1]
  · unfold elimStep
    rw [forRange_of_le _ _ _ _ (by omega), (pivotStep_frame E N i s).2.2.2.2.2.2.1]
    have : decide (i + 1 < N) = false := by
      apply decide_eq_false
      omega
    rw [this]
    simp

/-- When no division by zero occurred, the elimination loop leaves an upper triangular
matrix. -/
theorem eliminate_upper (E : Blas R K V) (N : ℕ) (s : MREState R K V)
    (hfin : (eliminate E N s).nonFinite = false) :
    s.nonFinite = false ∧ UpperTriangular N (eliminate E N s).G := by
  have key := forRange_inv (fun i (t : MREState R K V) =>
    t.nonFinite = false →
      s.nonFinite = false ∧ ∀ r c, c < i → c < r → r < N → t.G r c = 0)
    (elimStep E N) 0 N s (Nat.zero_le _) ?_ ?_
  · obtain ⟨h1, h2⟩ := key hfin
    refine ⟨h1, ?_⟩
    intro r c hc hr
    exact h2 r c (by omega) hc hr
  · intro h
    exact ⟨h, fun r c hc => absurd hc (Nat.not_lt_zero c)⟩
  · intro i t _ hi ht hfl
    rw [elimStep_nonFinite, Bool.or_eq_false_iff, Bool.and_eq_false_imp] at hfl
    obtain ⟨hs, hz⟩ := ht hfl.1
    refine ⟨hs, ?_⟩
    obtain ⟨hk1, hk2⟩ := pivotRow_bounds E N i t.G
    have hk := hk2 hi
    -- the swapped matrix keeps the zeros of the columns before `i`
    have hz1 : ∀ r c, c < i → c < r → r < N → (pivotStep E N i t).G r c = 0 := by
      intro r c hc hcr hr
      rw [pivotStep_G, if_pos (by omega)]
      split_ifs with h1 h2
      · exact hz _ c hc (by omega) hk
      · exact hz _ c hc hc hi
      · exact hz r c hc hcr hr
    obtain ⟨hG, _⟩ := elimRows_closed N i N (by omega) (pivotStep E N i t)
    intro r c hc hcr hr
    change (forRange (i + 1) N (elimRow N i) (pivotStep E N i t)).G r c = 0
    rw [hG]
    by_cases hir : i < r
    · rw [if_pos ⟨hir, hr, by omega⟩]
      rcases Nat.lt_succ_iff_lt_or_eq.mp hc with h | h
      · rw [hz1 r c h hcr hr, hz1 i c h h hi]
        ring
      · subst h
        have hp : (pivotStep E N c t).G c c ≠ 0 := by
          have := hfl.2 (decide_eq_true (by omega : c + 1 < N))
          simpa using this
        field_simp
    · rw [if_neg (fun h => hir h.1)]
      exact hz1 r c (by omega) hcr hr

theorem accLoop_closed (i N : ℕ) (G : ℕ → ℕ → K) (al : ℕ → K) :
    forRange (i + 1) N (fun j a => Function.update a i (a i + G i j * a j)) al =
      Function.update al i (al i + ∑ j in Finset.Ico (i + 1) N, G i j * al j) := by
  by_cases h : i + 1 ≤ N
  · refine forRange_inv (fun n (a : ℕ → K) =>
      a = Function.update al i (al i + ∑ j in Finset.Ico (i + 1) n, G i j * al j))
      (fun j a => Function.update a i (a i + G i j * a j)) (i + 1) N al h ?_ ?_
    · simp
    · intro j a hj _ ha
      have hji : j ≠ i := by omega
      rw [Finset.sum_Ico_succ_top hj, ha]
      simp only [Function.update_same, Function.update_noteq hji, Function.update_idem]
      rw [add_assoc]
  · rw [forRange_of_le _ _ _ _ (by omega), Finset.Ico_eq_empty (by omega)]
    simp

theorem backValue_congr (N i : ℕ) (G : ℕ → ℕ → K) (β α α' : ℕ → K)
    (h : ∀ j, i < j → j < N → α j = α' j) :
    backValue N i G β α = backValue N i G β α' := by
  unfold backValue
  congr 2
  apply Finset.sum_congr rfl
  intro j hj
  rw [Finset.mem_Ico] at hj
  rw [h j (by omega) hj.2]

/-- One step of the back-substitution loop in closed form. -/
theorem backStep_eq (E : Blas R K V) (N i : ℕ) (s : MREState R K V) :
    backStep E N i s =
      { s with
        alpha := Function.update s.alpha i (backValue N i s.G s.beta s.alpha)
        x := E.caxpy (backValue N i s.G s.beta s.alpha) (s.p i) s.x
        b := E.caxpy (-backValue N i s.G s.beta s.alpha) (s.q i) s.b
        nonFinite := s.nonFinite || decide (s.G i i = 0) } := by
  have hsum : ∑ j in Finset.Ico (i + 1) N, s.G i j * Function.update s.alpha i 0 j =
      ∑ j in Finset.Ico (i + 1) N, s.G i j * s.alpha j := by
    apply Finset.sum_congr rfl
    intro j hj
    rw [Finset.mem_Ico] at hj
    rw [Function.update_noteq (by omega)]
  unfold backStep
  simp only [accLoop_closed, hsum, Function.update_same, Function.update_idem, zero_add,
    backValue]

/-- The back-substitution loop: what it leaves alone, when its flag stays down, and the
recurrence its coefficients satisfy. -/
theorem backSubstitute_spec (E : Blas R K V) (N : ℕ) (s : MREState R K V) :
    let t := backSubstitute E N s
    t.G = s.G ∧ t.beta = s.beta ∧ t.p = s.p ∧ t.q = s.q ∧ t.matCalls = s.matCalls ∧
    t.swaps = s.swaps ∧ t.rsd = s.rsd ∧
    (t.nonFinite = false ↔ s.nonFinite = false ∧ ∀ r, r < N → s.G r r ≠ 0) ∧
    (∀ r, r < N → t.alpha r = backValue N r s.G s.beta t.alpha) := by
  have key := forDown_inv (fun i (t : MREState R K V) =>
    t.G = s.G ∧ t.beta = s.beta ∧ t.p = s.p ∧ t.q = s.q ∧ t.matCalls = s.matCalls ∧
    t.swaps = s.swaps ∧ t.rsd = s.rsd ∧
    (t.nonFinite = false ↔ s.nonFinite = false ∧ ∀ r, i ≤ r → r < N → s.G r r ≠ 0) ∧
    (∀ r, i ≤ r → r < N → t.alpha r = backValue N r s.G s.beta t.alpha))
    (backStep E N) N { s with x := E.zero s.x } ?_ ?_
  · obtain ⟨h1, h2, h3, h4, h5, h6, h7, h8, h9⟩ := key
    dsimp only [backSubstitute]
    refine ⟨h1, h2, h3, h4, h5, h6, h7, ?_, fun r hr => h9 r (Nat.zero_le r) hr⟩
    rw [h8]
    constructor
    · rintro ⟨a, b⟩
      exact ⟨a, fun r hr => b r (Nat.zero_le r) hr⟩
    · rintro ⟨a, b⟩
      exact ⟨a, fun r _ hr => b r hr⟩
  · refine ⟨rfl, rfl, rfl, rfl, rfl, rfl, rfl, ?_, ?_⟩
    · constructor
      · intro h
        exact ⟨h, fun r h1 h2 => absurd h2 (by omega)⟩
      · intro h
        exact h.1
    · intro r h1 h2
      omega
  · intro i t hi ⟨h1, h2, h3, h4, h5, h6, h7, h8, h9⟩
    rw [backStep_eq]
    refine ⟨h1, h2, h3, h4, h5, h6, h7, ?_, ?_⟩
    · simp only [Bool.or_eq_false_iff, decide_eq_false_iff_not, h8, h1]
      constructor
      · rintro ⟨⟨a, b⟩, c⟩
        refine ⟨a, fun r hr1 hr2 => ?_⟩
        rcases Nat.eq_or_lt_of_le hr1 with h | h
        · rw [← h]
          exact c
        · exact b r (by omega) hr2
      · rintro ⟨a, b⟩
        exact ⟨⟨a, fun r hr1 hr2 => b r (by omega) hr2⟩, b i le_rfl hi⟩
    · intro r hr1 hr2
      dsimp only
      rw [h1, h2]
      rcases Nat.eq_or_lt_of_le hr1 with h | h
      · subst h
        rw [Function.update_same]
        apply backValue_congr
        intro j hj _
        rw [Function.update_noteq (by omega)]
      · rw [Function.update_noteq (by omega), h9 r (by omega) hr2]
        apply backValue_congr
        intro j hj _
        rw [Function.update_noteq (by omega)]

/-- An upper triangular system with non-zero diagonal is solved by the recurrence of the
back-substitution. -/
theorem solves_of_backValue (N : ℕ) (U : ℕ → ℕ → K) (β α : ℕ → K)
    (hU : UpperTriangular N U) (hd : ∀ r, r < N → U r r ≠ 0)
    (hα : ∀ r, r < N → α r = backValue N r U β α) : Solves N U β α := by
  intro r hr
  rw [← Finset.sum_range_add_sum_Ico _ (Nat.le_of_lt hr),
    Finset.sum_eq_zero (s := Finset.range r), zero_add,
    Finset.sum_eq_sum_Ico_succ_bot hr]
  · have h := hα r hr
    unfold backValue at h
    have hd' := hd r hr
    rw [h]
    field_simp
  · intro c hc
    rw [hU r c (Finset.mem_range.mp hc) hr, zero_mul]

/-- An upper triangular system with non-zero diagonal has at most one solution. -/
theorem solves_unique (N : ℕ) (U : ℕ → ℕ → K) (β γ α : ℕ → K)
    (hU : UpperTriangular N U) (hd : ∀ r, r < N → U r r ≠ 0)
    (hγ : Solves N U β γ) (hα : Solves N U β α) : ∀ r, r < N → γ r = α r := by
  have key : ∀ m r, N ≤ r + m → r < N → γ r = α r := by
    intro m
    induction m with
    | zero => intro r h1 h2; omega
    | succ m ih =>
      intro r h1 h2
      have e : ∑ c in Finset.range N, U r c * (γ c - α c) = 0 := by
        simp only [mul_sub, Finset.sum_sub_distrib]
        rw [hγ r h2, hα r h2, sub_self]
      rw [Finset.sum_eq_single r] at e
      · have := hd r h2
        rcases mul_eq_zero.mp e with h | h
        · exact absurd h this
        · exact sub_eq_zero.mp h
      · intro c hc hcr
        rw [Finset.mem_range] at hc
        rcases Nat.lt_or_gt_of_ne hcr with h | h
        · rw [hU r c h h2, zero_mul]
        · rw [ih c (by omega) hc, sub_self, mul_zero]
      · intro h
        exact absurd (Finset.mem_range.mpr h2) h
  intro r hr
  exact key N r (by omega) hr

/-- The two solver stages together: when no division by zero occurred, the coefficients
solve the system the stages were entered with, and they are its only solution. -/
theorem solver_correct (E : Blas R K V) (N : ℕ) (s : MREState R K V)
    (hfin : (backSubstitute E N (eliminate E N s)).nonFinite = false) :
    s.nonFinite = false ∧
    Solves N s.G s.beta (backSubstitute E N (eliminate E N s)).alpha ∧
    ∀ γ, Solves N s.G s.beta γ →
      ∀ r, r < N → γ r = (backSubstitute E N (eliminate E N s)).alpha r := by
  obtain ⟨_, _, _, _, _, _, _, hflag, hrec⟩ := backSubstitute_spec E N (eliminate E N s)
  obtain ⟨hu, hd⟩ := hflag.mp hfin
  obtain ⟨hs, hU⟩ := eliminate_upper E N s hu
  have hsol := solves_of_backValue N _ _ _ hU hd hrec
  refine ⟨hs, (eliminate_solves E N s _).mp hsol, ?_⟩
  intro γ hγ
  exact solves_unique N _ _ γ _ hU hd ((eliminate_solves E N s γ).mpr hγ) hsol

/-- The flag after the solver stages is down exactly when it was down before and every
diagonal entry left by the elimination loop is non-zero. -/
theorem solver_nonFinite (E : Blas R K V) (N : ℕ) (s : MREState R K V) :
    (backSubstitute E N (eliminate E N s)).nonFinite = false ↔
      (eliminate E N s).nonFinite = false ∧ ∀ r, r < N → (eliminate E N s).G r r ≠ 0 :=
  (backSubstitute_spec E N (eliminate E N s)).2.2.2.2.2.2.2.1

theorem orthoInner_loop (E : Blas R K V) (i n : ℕ) (p : ℕ → V) (r : ℕ) :
    forRange (i + 1) n (orthoInner E i) p r =
      if i < r ∧ r < n then E.caxpy (-E.cDotProduct (p i) (p r)) (p i) (p r) else p r := by
  by_cases hn : i + 1 ≤ n
  · have key := forRange_inv (fun n (t : ℕ → V) => ∀ r, t r =
        if i < r ∧ r < n then E.caxpy (-E.cDotProduct (p i) (p r)) (p i) (p r) else p r)
      (orthoInner E i) (i + 1) n p hn ?_ ?_
    · exact key r
    · intro r
      rw [if_neg]
      omega
    · intro j t hj _ ht r
      have hti : t i = p i := by
        rw [ht, if_neg]
        omega
      have htj : t j = p j := by
        rw [ht, if_neg]
        omega
      unfold orthoInner
      simp only [hti, htj, Function.update_apply]
      by_cases hr : r = j
      · subst hr
        rw [if_pos rfl, if_pos ⟨by omega, by omega⟩]
      · rw [if_neg hr, ht]
        by_cases h : i < r ∧ r < j
        · rw [if_pos h, if_pos ⟨h.1, by omega⟩]
        · rw [if_neg h, if_neg]
          omega
  · rw [forRange_of_le _ _ _ _ (by omega), if_neg]
    omega

theorem orthoStep_p (E : Blas R K V) (N i : ℕ) (s : MREState R K V) (r : ℕ) :
    (orthoStep E N i s).p r =
      if r = i then E.ax (1 / E.sqrt (E.norm2 (s.p i))) (s.p i)
      else if i < r ∧ r < N then
        E.caxpy (-E.cDotProduct (E.ax (1 / E.sqrt (E.norm2 (s.p i))) (s.p i)) (s.p r))
          (E.ax (1 / E.sqrt (E.norm2 (s.p i))) (s.p i)) (s.p r)
      else s.p r := by
  unfold orthoStep
  simp only [orthoInner_loop, Function.update_same]
  by_cases hr : r = i
  · subst hr
    rw [if_neg (by omega), if_pos rfl, Function.update_same]
  · rw [if_neg hr, Function.update_noteq hr]

theorem orthoStep_frame (E : Blas R K V) (N i : ℕ) (s : MREState R K V) :
    (orthoStep E N i s).x = s.x ∧ (orthoStep E N i s).b = s.b ∧
    (orthoStep E N i s).q = s.q ∧ (orthoStep E N i s).G = s.G ∧
    (orthoStep E N i s).alpha = s.alpha ∧ (orthoStep E N i s).beta = s.beta ∧
    (orthoStep E N i s).matCalls = s.matCalls ∧ (orthoStep E N i s).swaps = s.swaps ∧
    (orthoStep E N i s).rsd = s.rsd :=
  ⟨rfl, rfl, rfl, rfl, rfl, rfl, rfl, rfl, rfl⟩

theorem orthoStep_nonFinite (E : Blas R K V) (N i : ℕ) (s : MREState R K V) :
    (orthoStep E N i s).nonFinite =
      (s.nonFinite || decide (E.sqrt (E.norm2 (s.p i)) = 0)) := rfl

theorem orthonormalise_frame (E : Blas R K V) (N : ℕ) (s : MREState R K V) :
    (orthonormalise E N s).x = s.x ∧ (orthonormalise E N s).b = s.b ∧
    (orthonormalise E N s).q = s.q ∧ (orthonormalise E N s).G = s.G ∧
    (orthonormalise E N s).alpha = s.alpha ∧ (orthonormalise E N s).beta = s.beta ∧
    (orthonormalise E N s).matCalls = s.matCalls ∧ (orthonormalise E N s).swaps = s.swaps ∧
    (orthonormalise E N s).rsd = s.rsd := by
  unfold orthonormalise
  refine forRange_inv (fun _ (t : MREState R K V) =>
    t.x = s.x ∧ t.b = s.b ∧ t.q = s.q ∧ t.G = s.G ∧ t.alpha = s.alpha ∧ t.beta = s.beta ∧
    t.matCalls = s.matCalls ∧ t.swaps = s.swaps ∧ t.rsd = s.rsd) (orthoStep E N) 0 N s
    (Nat.zero_le _) ⟨rfl, rfl, rfl, rfl, rfl, rfl, rfl, rfl, rfl⟩ ?_
  intro i t _ _ h
  exact h

end

section

variable (K V : Type) [RCLike K] [NormedAddCommGroup V] [InnerProductSpace K V]

@[simp] theorem exactBlas_sqrt (r : ℝ) : (exactBlas K V).sqrt r = Real.sqrt r := rfl

@[simp] theorem exactBlas_abs (z : K) : (exactBlas K V).abs z = ‖z‖ := rfl

@[simp] theorem exactBlas_conj (z : K) : (exactBlas K V).conj z = (starRingEnd K) z := rfl

@[simp] theorem exactBlas_ofReal (r : ℝ) : (exactBlas K V).ofReal r = (r : K) := rfl

@[simp] theorem exactBlas_zero (v : V) : (exactBlas K V).zero v = 0 := rfl

@[simp] theorem exactBlas_norm2 (v : V) : (exactBlas K V).norm2 v = ‖v‖ ^ 2 := rfl

@[simp] theorem exactBlas_ax (a : ℝ) (v : V) : (exactBlas K V).ax a v = (a : K) • v := rfl

@[simp] theorem exactBlas_caxpy (a : K) (u v : V) :
    (exactBlas K V).caxpy a u v = v + a • u := rfl

@[simp] theorem exactBlas_cDotProduct (u v : V) :
    (exactBlas K V).cDotProduct u v = inner u v := rfl

@[simp] theorem exactBlas_reDotProduct (u v : V) :
    (exactBlas K V).reDotProduct u v = RCLike.re (inner u v : K) := rfl

end

section

variable {K V : Type} [RCLike K] [NormedAddCommGroup V] [InnerProductSpace K V]
  [DecidableEq K]

theorem exact_orthoStep_p (N i : ℕ) (s : MREState ℝ K V) (r : ℕ) :
    (orthoStep (exactBlas K V) N i s).p r =
      if r = i then (((1 / ‖s.p i‖ : ℝ)) : K) • s.p i
      else if i < r ∧ r < N then
        s.p r - (inner ((((1 / ‖s.p i‖ : ℝ)) : K) • s.p i) (s.p r) : K) •
          ((((1 / ‖s.p i‖ : ℝ)) : K) • s.p i)
      else s.p r := by
  rw [orthoStep_p]
  simp only [exactBlas_sqrt, exactBlas_norm2, exactBlas_ax, exactBlas_caxpy,
    exactBlas_cDotProduct, Real.sqrt_sq (norm_nonneg _), neg_smul, ← sub_eq_add_neg]

theorem exact_orthoStep_nonFinite (N i : ℕ) (s : MREState ℝ K V) (h : s.p i ≠ 0) :
    (orthoStep (exactBlas K V) N i s).nonFinite = s.nonFinite := by
  rw [orthoStep_nonFinite]
  simp only [exactBlas_sqrt, exactBlas_norm2, Real.sqrt_sq (norm_nonneg _)]
  have : ¬ ‖s.p i‖ = 0 := by
    rw [norm_eq_zero]
    exact h
  simp [this]

theorem spanBelow_mono (p : ℕ → V) {m n : ℕ} (h : m ≤ n) :
    spanBelow K p m ≤ spanBelow K p n :=
  Submodule.span_mono (Set.image_subset _ (Set.Iio_subset_Iio h))

theorem mem_spanBelow (p : ℕ → V) {a m : ℕ} (h : a < m) : p a ∈ spanBelow K p m :=
  Submodule.subset_span ⟨a, h, rfl⟩

theorem spanBelow_congr (p p' : ℕ → V) (m : ℕ) (h : ∀ a, a < m → p a = p' a) :
    spanBelow K p m = spanBelow K p' m := by
  unfold spanBelow
  congr 1
  apply Set.image_congr
  intro a ha
  exact h a ha

theorem spanBelow_le (p : ℕ → V) (m : ℕ) (S : Submodule K V) (h : ∀ a, a < m → p a ∈ S) :
    spanBelow K p m ≤ S := by
  unfold spanBelow
  rw [Submodule.span_le]
  rintro _ ⟨a, ha, rfl⟩
  exact h a ha

theorem norm_normalised (v : V) (h : v ≠ 0) : ‖(((1 / ‖v‖ : ℝ)) : K) • v‖ = 1 := by
  have hv : ‖v‖ ≠ 0 := by
    rw [Ne, norm_eq_zero]
    exact h
  rw [norm_smul, RCLike.norm_ofReal, abs_of_nonneg (by positivity)]
  field_simp

/-- The orthonormalisation loop on a family none of whose members lies in the span of the
members before it. -/
theorem exact_orthonormalise_spec (N : ℕ) (s : MREState ℝ K V)
    (hind : ∀ i, i < N → s.p i ∉ spanBelow K s.p i) :
    (orthonormalise (exactBlas K V) N s).nonFinite = s.nonFinite ∧
    (∀ a, a < N → ‖(orthonormalise (exactBlas K V) N s).p a‖ = 1) ∧
    (∀ a c, a < N → c < N → c ≠ a →
      (inner ((orthonormalise (exactBlas K V) N s).p a)
        ((orthonormalise (exactBlas K V) N s).p c) : K) = 0) ∧
    (∀ c, c < N → (orthonormalise (exactBlas K V) N s).p c ∈ spanBelow K s.p (c + 1)) ∧
    (∀ c, c < N → s.p c ∈ spanBelow K (orthonormalise (exactBlas K V) N s).p (c + 1)) ∧
    (∀ c, N ≤ c → (orthonormalise (exactBlas K V) N s).p c = s.p c) := by
  have key := forRange_inv (fun i (t : MREState ℝ K V) =>
    t.nonFinite = s.nonFinite ∧
    (∀ a, a < i → ‖t.p a‖ = 1) ∧
    (∀ a c, a < i → c < N → c ≠ a → (inner (t.p a) (t.p c) : K) = 0) ∧
    (∀ c, i ≤ c → t.p c - s.p c ∈ spanBelow K s.p i) ∧
    (∀ c, c < i → t.p c ∈ spanBelow K s.p (c + 1)) ∧
    (∀ c, c < i → s.p c ∈ spanBelow K t.p (c + 1)) ∧
    (∀ c, N ≤ c → t.p c = s.p c))
    (orthoStep (exactBlas K V) N) 0 N s (Nat.zero_le _) ?_ ?_
  · obtain ⟨hF, hA, hB, _, hC2, hC3, hD⟩ := key
    exact ⟨hF, hA, fun a c ha hc hne => hB a c ha hc hne, hC2, hC3, hD⟩
  · refine ⟨rfl, ?_, ?_, ?_, ?_, ?_, fun _ _ => rfl⟩
    · intro a ha
      omega
    · intro a c ha
      omega
    · intro c _
      rw [sub_self]
      exact Submodule.zero_mem _
    · intro c hc
      omega
    · intro c hc
      omega
  · intro i t _ hi ⟨hF, hA, hB, hC1, hC2, hC3, hD⟩
    have hne : t.p i ≠ 0 := by
      intro h0
      have h1 := hC1 i le_rfl
      rw [h0, zero_sub, Submodule.neg_mem_iff] at h1
      exact hind i hi h1
    have hnorm : ‖t.p i‖ ≠ 0 := by
      rw [Ne, norm_eq_zero]
      exact hne
    set u : V := (((1 / ‖t.p i‖ : ℝ)) : K) • t.p i with hu
    have hpi : (orthoStep (exactBlas K V) N i t).p i = u := by
      rw [exact_orthoStep_p, if_pos rfl]
    have hlt : ∀ r, r < i → (orthoStep (exactBlas K V) N i t).p r = t.p r := by
      intro r hr
      rw [exact_orthoStep_p, if_neg (by omega), if_neg (by omega)]
    have hgt : ∀ r, i < r → r < N →
        (orthoStep (exactBlas K V) N i t).p r = t.p r - (inner u (t.p r) : K) • u := by
      intro r hr hrN
      rw [exact_orthoStep_p, if_neg (by omega), if_pos ⟨hr, hrN⟩]
    have hge : ∀ r, N ≤ r → (orthoStep (exactBlas K V) N i t).p r = t.p r := by
      intro r hr
      rw [exact_orthoStep_p, if_neg (by omega), if_neg (by omega)]
    have hnu : ‖u‖ = 1 := norm_normalised (t.p i) hne
    have huu : (inner u u : K) = 1 := by
      rw [inner_self_eq_norm_sq_to_K, hnu]
      simp
    have hau : ∀ a, a < i → (inner (t.p a) u : K) = 0 := by
      intro a ha
      rw [hu, inner_smul_right, hB a i ha hi (by omega), mul_zero]
    have hua : ∀ a, a < i → (inner u (t.p a) : K) = 0 := by
      intro a ha
      rw [← inner_conj_symm, hau a ha, map_zero]
    have hpis : t.p i ∈ spanBelow K s.p (i + 1) := by
      have h1 := hC1 i le_rfl
      have h2 : s.p i ∈ spanBelow K s.p (i + 1) := mem_spanBelow s.p (Nat.lt_succ_self i)
      have h3 := Submodule.add_mem _ (spanBelow_mono s.p (Nat.le_succ i) h1) h2
      rwa [sub_add_cancel] at h3
    have hus : u ∈ spanBelow K s.p (i + 1) := Submodule.smul_mem _ _ hpis
    refine ⟨?_, ?_, ?_, ?_, ?_, ?_, ?_⟩
    · rw [exact_orthoStep_nonFinite N i t hne, hF]
    · intro a ha
      rcases Nat.lt_succ_iff_lt_or_eq.mp ha with h | h
      · rw [hlt a h]
        exact hA a h
      · rw [h, hpi]
        exact hnu
    · intro a c ha hc hca
      rcases Nat.lt_succ_iff_lt_or_eq.mp ha with h | h
      · rw [hlt a h]
        rcases Nat.lt_trichotomy c i with h1 | h1 | h1
        · rw [hlt c h1]
          exact hB a c h hc hca
        · rw [h1, hpi]
          exact hau a h
        · rw [hgt c h1 hc, inner_sub_right, inner_smul_right, hB a c h hc hca, hau a h]
          ring
      · subst h
        rw [hpi]
        rcases Nat.lt_or_gt_of_ne hca with h1 | h1
        · rw [hlt c h1]
          exact hua c h1
        · rw [hgt c h1 hc, inner_sub_right, inner_smul_right, huu]
          ring
    · intro c hc
      by_cases hcN : c < N
      · rw [hgt c (by omega) hcN]
        have h1 := spanBelow_mono s.p (Nat.le_succ i) (hC1 c (by omega))
        have h2 := Submodule.smul_mem _ (inner u (t.p c) : K) hus
        have h3 := Submodule.sub_mem _ h1 h2
        have e : t.p c - (inner u (t.p c) : K) • u - s.p c =
            t.p c - s.p c - (inner u (t.p c) : K) • u := by abel
        rw [e]
        exact h3
      · rw [hge c (by omega)]
        exact spanBelow_mono s.p (Nat.le_succ i) (hC1 c (by omega))
    · intro c hc
      rcases Nat.lt_succ_iff_lt_or_eq.mp hc with h | h
      · rw [hlt c h]
        exact hC2 c h
      · rw [h, hpi]
        exact hus
    · intro c hc
      rcases Nat.lt_succ_iff_lt_or_eq.mp hc with h | h
      · rw [spanBelow_congr (orthoStep (exactBlas K V) N i t).p t.p (c + 1)
          (fun a ha => hlt a (by omega))]
        exact hC3 c h
      · subst h
        have h1 : spanBelow K s.p c ≤ spanBelow K (orthoStep (exactBlas K V) N c t).p (c + 1) := by
          apply spanBelow_le
          intro a ha
          apply spanBelow_mono _ (by omega : a + 1 ≤ c + 1)
          rw [spanBelow_congr (orthoStep (exactBlas K V) N c t).p t.p (a + 1)
            (fun a' ha' => hlt a' (by omega))]
          exact hC3 a ha
        have h2 : t.p c ∈ spanBelow K (orthoStep (exactBlas K V) N c t).p (c + 1) := by
          have e : t.p c = ((‖t.p c‖ : ℝ) : K) • (orthoStep (exactBlas K V) N c t).p c := by
            rw [hpi, hu, smul_smul, ← RCLike.ofReal_mul]
            have : ‖t.p c‖ * (1 / ‖t.p c‖) = 1 := by field_simp
            rw [this]
            simp
          rw [e]
          exact Submodule.smul_mem _ _ (mem_spanBelow _ (Nat.lt_succ_self c))
        have h3 := Submodule.sub_mem _ h2 (h1 (hC1 c le_rfl))
        rwa [sub_sub_cancel] at h3
    · intro c hc
      rw [hge c hc]
      exact hD c hc

end

section

variable {R K V : Type} [LinearOrderedField R] [Field K] [DecidableEq K]

/-- The loop that applies the operator: closed form of every field it touches. -/
theorem buildRhs_spec (E : Blas R K V) (mat : V → V) (N : ℕ) (s : MREState R K V) :
    (∀ r, (buildRhs E mat N s).q r = if r < N then mat (s.p r) else s.q r) ∧
    (∀ r, (buildRhs E mat N s).beta r =
      if r < N then E.cDotProduct (s.p r) s.b else s.beta r) ∧
    (∀ r c, (buildRhs E mat N s).G r c =
      if r = c ∧ r < N then E.ofReal (E.reDotProduct (mat (s.p r)) (s.p r)) else s.G r c) ∧
    (buildRhs E mat N s).matCalls = s.matCalls + N ∧
    (buildRhs E mat N s).x = s.x ∧ (buildRhs E mat N s).b = s.b ∧
    (buildRhs E mat N s).p = s.p ∧ (buildRhs E mat N s).alpha = s.alpha ∧
    (buildRhs E mat N s).swaps = s.swaps ∧ (buildRhs E mat N s).rsd = s.rsd ∧
    (buildRhs E mat N s).nonFinite = s.nonFinite := by
  unfold buildRhs
  refine forRange_inv (fun n (t : MREState R K V) =>
    (∀ r, t.q r = if r < n then mat (s.p r) else s.q r) ∧
    (∀ r, t.beta r = if r < n then E.cDotProduct (s.p r) s.b else s.beta r) ∧
    (∀ r c, t.G r c =
      if r = c ∧ r < n then E.ofReal (E.reDotProduct (mat (s.p r)) (s.p r)) else s.G r c) ∧
    t.matCalls = s.matCalls + n ∧ t.x = s.x ∧ t.b = s.b ∧ t.p = s.p ∧ t.alpha = s.alpha ∧
    t.swaps = s.swaps ∧ t.rsd = s.rsd ∧ t.nonFinite = s.nonFinite)
    (buildStep E mat) 0 N s (Nat.zero_le _) ?_ ?_
  · refine ⟨?_, ?_, ?_, rfl, rfl, rfl, rfl, rfl, rfl, rfl, rfl⟩
    · intro r
      simp
    · intro r
      simp
    · intro r c
      simp
  · intro i t _ _ ⟨hq, hb, hG, h1, h2, h3, h4, h5, h6, h7, h8⟩
    refine ⟨?_, ?_, ?_, ?_, h2, h3, h4, h5, h6, h7, h8⟩
    · intro r
      simp only [buildStep, Function.update_apply, h4]
      by_cases hr : r = i
      · subst hr
        rw [if_pos rfl, if_pos (Nat.lt_succ_self r)]
      · rw [if_neg hr, hq]
        have : (r < i + 1) ↔ (r < i) := by omega
        simp only [this]
    · intro r
      simp only [buildStep, Function.update_apply, h4, h3]
      by_cases hr : r = i
      · subst hr
        rw [if_pos rfl, if_pos (Nat.lt_succ_self r)]
      · rw [if_neg hr, hb]
        have : (r < i + 1) ↔ (r < i) := by omega
        simp only [this]
    · intro r c
      simp only [buildStep, set2_apply, Function.update_same, h4, hG]
      split_ifs
      all_goals first | rfl | omega | simp_all
    · simp only [buildStep, h1]
      rfl

theorem constructInner_loop (E : Blas R K V) (p q : ℕ → V) (j n : ℕ) (G : ℕ → ℕ → K)
    (r c : ℕ) :
    forRange (j + 1) n (constructInner E p q j) G r c =
      if r = j ∧ j < c ∧ c < n then E.cDotProduct (p j) (q c)
      else if c = j ∧ j < r ∧ r < n then E.conj (E.cDotProduct (p j) (q r))
      else G r c := by
  by_cases hn : j + 1 ≤ n
  · have key := forRange_inv (fun n (T : ℕ → ℕ → K) => ∀ r c, T r c =
        if r = j ∧ j < c ∧ c < n then E.cDotProduct (p j) (q c)
        else if c = j ∧ j < r ∧ r < n then E.conj (E.cDotProduct (p j) (q r))
        else G r c)
      (constructInner E p q j) (j + 1) n G hn ?_ ?_
    · exact key r c
    · intro r c
      rw [if_neg (by omega), if_neg (by omega)]
    · intro k T hk _ hT r c
      simp only [constructInner, set2_apply, hT]
      split_ifs
      all_goals first | rfl | omega | simp_all
  · rw [forRange_of_le _ _ _ _ (by omega), if_neg (by omega), if_neg (by omega)]

/-- The matrix after the construction loop: the entries above the diagonal are the
products `⟨p_r, q_c⟩`, those below are their mirrored conjugates, the diagonal is kept. -/
theorem constructMatrix_G (E : Blas R K V) (N : ℕ) (s : MREState R K V) (r c : ℕ) :
    (constructMatrix E N s).G r c =
      if r < c ∧ c < N then E.cDotProduct (s.p r) (s.q c)
      else if c < r ∧ r < N then E.conj (E.cDotProduct (s.p c) (s.q r))
      else s.G r c := by
  have key := forRange_inv (fun m (T : ℕ → ℕ → K) => ∀ r c, T r c =
      if r < c ∧ c < N ∧ r < m then E.cDotProduct (s.p r) (s.q c)
      else if c < r ∧ r < N ∧ c < m then E.conj (E.cDotProduct (s.p c) (s.q r))
      else s.G r c)
    (fun j G => forRange (j + 1) N (constructInner E s.p s.q j) G) 0 N s.G (Nat.zero_le _)
    ?_ ?_
  · change forRange 0 N _ s.G r c = _
    rw [key r c]
    split_ifs <;> first | rfl | omega
  · intro r c
    rw [if_neg (by omega), if_neg (by omega)]
  · intro j T _ _ hT r c
    dsimp only
    rw [constructInner_loop, hT]
    split_ifs
    all_goals first | rfl | omega | simp_all

theorem constructMatrix_frame (E : Blas R K V) (N : ℕ) (s : MREState R K V) :
    (constructMatrix E N s).x = s.x ∧ (constructMatrix E N s).b = s.b ∧
    (constructMatrix E N s).p = s.p ∧ (constructMatrix E N s).q = s.q ∧
    (constructMatrix E N s).alpha = s.alpha ∧ (constructMatrix E N s).beta = s.beta ∧
    (constructMatrix E N s).matCalls = s.matCalls ∧
    (constructMatrix E N s).swaps = s.swaps ∧ (constructMatrix E N s).rsd = s.rsd ∧
    (constructMatrix E N s).nonFinite = s.nonFinite :=
  ⟨rfl, rfl, rfl, rfl, rfl, rfl, rfl, rfl, rfl, rfl⟩

end

section

variable {K V : Type} [RCLike K] [NormedAddCommGroup V] [InnerProductSpace K V]
  [DecidableEq K]

/-- The guess assembled by the back-substitution loop and the deflated right-hand side,
in terms of the coefficients the loop computed. -/
theorem exact_backSubstitute_xb (N : ℕ) (s : MREState ℝ K V) :
    (backSubstitute (exactBlas K V) N s).x =
      ∑ r in Finset.range N, (backSubstitute (exactBlas K V) N s).alpha r • s.p r ∧
    (backSubstitute (exactBlas K V) N s).b =
      s.b - ∑ r in Finset.range N, (backSubstitute (exactBlas K V) N s).alpha r • s.q r := by
  have key := forDown_inv (fun i (t : MREState ℝ K V) =>
    t.p = s.p ∧ t.q = s.q ∧
    t.x = ∑ r in Finset.Ico i N, t.alpha r • s.p r ∧
    t.b = s.b - ∑ r in Finset.Ico i N, t.alpha r • s.q r)
    (backStep (exactBlas K V) N) N { s with x := (exactBlas K V).zero s.x } ?_ ?_
  · obtain ⟨_, _, hx, hb⟩ := key
    rw [Finset.range_eq_Ico]
    exact ⟨hx, hb⟩
  · simp
  · intro i t hi ⟨hp, hq, hx, hb⟩
    rw [backStep_eq]
    have e1 : ∀ (f : ℕ → V), ∑ r in Finset.Ico (i + 1) N,
        Function.update t.alpha i (backValue N i t.G t.beta t.alpha) r • f r =
        ∑ r in Finset.Ico (i + 1) N, t.alpha r • f r := by
      intro f
      apply Finset.sum_congr rfl
      intro r hr
      rw [Finset.mem_Ico] at hr
      rw [Function.update_noteq (by omega)]
    refine ⟨hp, hq, ?_, ?_⟩
    · dsimp only
      rw [Finset.sum_eq_sum_Ico_succ_bot hi, e1, Function.update_same, exactBlas_caxpy, hx,
        hp, add_comm]
    · dsimp only
      rw [Finset.sum_eq_sum_Ico_succ_bot hi, e1, Function.update_same, exactBlas_caxpy, hb,
        hq, neg_smul]
      abel

end

section

variable {R K V : Type} [LinearOrderedField R] [Field K] [DecidableEq K]

/-- The state at the start of the elimination, field by field, in terms of the
orthonormalised trial vectors. -/
theorem built_spec (E : Blas R K V) (mat : V → V) (x b : V) (p q : ℕ → V) (N : ℕ) :
    (MinResExt.built E mat x b p q N).p = (orthonormalise E N (MinResExt.entry x b p q)).p ∧
    (∀ r, (MinResExt.built E mat x b p q N).q r =
      if r < N then mat ((orthonormalise E N (MinResExt.entry x b p q)).p r) else q r) ∧
    (∀ r, (MinResExt.built E mat x b p q N).beta r =
      if r < N then E.cDotProduct ((orthonormalise E N (MinResExt.entry x b p q)).p r) b
      else 0) ∧
    (∀ r c, (MinResExt.built E mat x b p q N).G r c =
      if r < c ∧ c < N then
        E.cDotProduct ((orthonormalise E N (MinResExt.entry x b p q)).p r)
          (mat ((orthonormalise E N (MinResExt.entry x b p q)).p c))
      else if c < r ∧ r < N then
        E.conj (E.cDotProduct ((orthonormalise E N (MinResExt.entry x b p q)).p c)
          (mat ((orthonormalise E N (MinResExt.entry x b p q)).p r)))
      else if r = c ∧ r < N then
        E.ofReal (E.reDotProduct (mat ((orthonormalise E N (MinResExt.entry x b p q)).p r))
          ((orthonormalise E N (MinResExt.entry x b p q)).p r))
      else 0) ∧
    (MinResExt.built E mat x b p q N).x = x ∧ (MinResExt.built E mat x b p q N).b = b ∧
    (MinResExt.built E mat x b p q N).alpha = (fun _ => 0) ∧
    (MinResExt.built E mat x b p q N).matCalls = N ∧
    (MinResExt.built E mat x b p q N).swaps = 0 ∧
    (MinResExt.built E mat x b p q N).nonFinite =
      (orthonormalise E N (MinResExt.entry x b p q)).nonFinite := by
  obtain ⟨o1, o2, o3, o4, o5, o6, o7, o8, o9⟩ :=
    orthonormalise_frame E N (MinResExt.entry (R := R) (K := K) x b p q)
  obtain ⟨b1, b2, b3, b4, b5, b6, b7, b8, b9, b10, b11⟩ :=
    buildRhs_spec E mat N (orthonormalise E N (MinResExt.entry x b p q))
  obtain ⟨c1, c2, c3, c4, c5, c6, c7, c8, c9, c10⟩ :=
    constructMatrix_frame E N (buildRhs E mat N (orthonormalise E N (MinResExt.entry x b p q)))
  unfold MinResExt.built
  refine ⟨c3.trans b7, ?_, ?_, ?_, (c1.trans b5).trans o1, (c2.trans b6).trans o2,
    (c5.trans b8).trans o5, ?_, (c8.trans b9).trans o8, c10.trans b11⟩
  · intro r
    rw [c4, b1, o3]
    rfl
  · intro r
    rw [c6, b2, o2, o6]
    rfl
  · intro r c
    rw [constructMatrix_G, b7]
    simp only [b1, b3, o4]
    split_ifs
    all_goals first | rfl | omega
  · rw [c7, b4, o7]
    simp [MinResExt.entry]

theorem run_fields (E : Blas R K V) (mat : V → V) (x b : V) (p q : ℕ → V) (N : ℕ) :
    (MinResExt.run E mat x b p q N).p = (orthonormalise E N (MinResExt.entry x b p q)).p ∧
    (MinResExt.run E mat x b p q N).q = (MinResExt.built E mat x b p q N).q ∧
    (MinResExt.run E mat x b p q N).G =
      (eliminate E N (MinResExt.built E mat x b p q N)).G ∧
    (MinResExt.run E mat x b p q N).beta =
      (eliminate E N (MinResExt.built E mat x b p q N)).beta ∧
    (MinResExt.run E mat x b p q N).alpha =
      (backSubstitute E N (eliminate E N (MinResExt.built E mat x b p q N))).alpha ∧
    (MinResExt.run E mat x b p q N).x =
      (backSubstitute E N (eliminate E N (MinResExt.built E mat x b p q N))).x ∧
    (MinResExt.run E mat x b p q N).b =
      (backSubstitute E N (eliminate E N (MinResExt.built E mat x b p q N))).b ∧
    (MinResExt.run E mat x b p q N).nonFinite =
      (backSubstitute E N (eliminate E N (MinResExt.built E mat x b p q N))).nonFinite ∧
    (MinResExt.run E mat x b p q N).matCalls = N := by
  obtain ⟨h1, h2, h3, h4, h5, h6, h7, _, _⟩ :=
    backSubstitute_spec E N (eliminate E N (MinResExt.built E mat x b p q N))
  obtain ⟨e1, e2, e3, e4, e5, e6, e7⟩ := eliminate_frame E N (MinResExt.built E mat x b p q N)
  obtain ⟨c1, _, _, _, _, _, _, c8, _, _⟩ := built_spec E mat x b p q N
  refine ⟨?_, ?_, h1, h2, rfl, rfl, rfl, rfl, ?_⟩
  · exact (h3.trans e3).trans c1
  · exact h4.trans e4
  · exact (h5.trans e6).trans c8

theorem Location_cuda (x b : ColorSpinorField V)
    (hx : x.location = QudaFieldLocation.QUDA_CUDA_FIELD_LOCATION)
    (hb : b.location = QudaFieldLocation.QUDA_CUDA_FIELD_LOCATION) :
    Location x b = QudaFieldLocation.QUDA_CUDA_FIELD_LOCATION := by
  unfold Location
  rw [hx, hb, if_pos rfl]

/-- A call on accelerator-resident `x` and `b` with `N ≠ 0` runs the five stages. -/
theorem operator_eq_run (E : Blas R K V) (mat : V → V) (x b : ColorSpinorField V)
    (p q : ℕ → ColorSpinorField V) (N : ℕ)
    (hx : x.location = QudaFieldLocation.QUDA_CUDA_FIELD_LOCATION)
    (hb : b.location = QudaFieldLocation.QUDA_CUDA_FIELD_LOCATION) (hN : N ≠ 0) :
    MinResExt.operator E mat x b p q N =
      Except.ok (MinResExt.run E mat x.data b.data (fun i => (p i).data)
        (fun i => (q i).data) N) := by
  unfold MinResExt.operator
  rw [Location_cuda x b hx hb, if_neg (fun h => h rfl), if_neg hN]

/-- A call on accelerator-resident `x` and `b` with `N = 0` only zero-fills `x`. -/
theorem operator_zero (E : Blas R K V) (mat : V → V) (x b : ColorSpinorField V)
    (p q : ℕ → ColorSpinorField V)
    (hx : x.location = QudaFieldLocation.QUDA_CUDA_FIELD_LOCATION)
    (hb : b.location = QudaFieldLocation.QUDA_CUDA_FIELD_LOCATION) :
    MinResExt.operator E mat x b p q 0 =
      Except.ok
        { MinResExt.entry x.data b.data (fun i => (p i).data) (fun i => (q i).data) with
          x := E.zero x.data } := by
  unfold MinResExt.operator
  rw [Location_cuda x b hx hb, if_neg (fun h => h rfl), if_pos rfl]

end

section

variable {K V : Type} [RCLike K] [NormedAddCommGroup V] [InnerProductSpace K V]
  [DecidableEq K]

/-- The guess and the deflated right-hand side at the end of the five stages. -/
theorem exact_run_xb (mat : V → V) (x b : V) (p q : ℕ → V) (N : ℕ) :
    (MinResExt.run (exactBlas K V) mat x b p q N).x =
      ∑ r in Finset.range N, (MinResExt.run (exactBlas K V) mat x b p q N).alpha r •
        (MinResExt.run (exactBlas K V) mat x b p q N).p r ∧
    (MinResExt.run (exactBlas K V) mat x b p q N).b =
      b - ∑ r in Finset.range N, (MinResExt.run (exactBlas K V) mat x b p q N).alpha r •
        (MinResExt.run (exactBlas K V) mat x b p q N).q r ∧
    ∀ r, r < N → (MinResExt.run (exactBlas K V) mat x b p q N).q r =
      mat ((MinResExt.run (exactBlas K V) mat x b p q N).p r) := by
  obtain ⟨r1, r2, _, _, r5, r6, r7, _, _⟩ := run_fields (exactBlas K V) mat x b p q N
  obtain ⟨e1, e2, e3, e4, _⟩ :=
    eliminate_frame (exactBlas K V) N (MinResExt.built (exactBlas K V) mat x b p q N)
  obtain ⟨c1, c2, _, _, _, c6, _⟩ := built_spec (exactBlas K V) mat x b p q N
  obtain ⟨hx, hb⟩ := exact_backSubstitute_xb N
    (eliminate (exactBlas K V) N (MinResExt.built (exactBlas K V) mat x b p q N))
  refine ⟨?_, ?_, ?_⟩
  · rw [r6, hx, r5, r1, e3, c1]
  · rw [r7, hb, r5, r2, e4, e2, c6]
  · intro r hr
    rw [r2, c2, if_pos hr, r1]

end

@[simp] theorem vec2_zero (a b : ℂ) : vec2 a b 0 = a := rfl

@[simp] theorem vec2_one (a b : ℂ) : vec2 a b 1 = b := rfl

theorem vec2_inner (a b c d : ℂ) :
    (inner (vec2 a b) (vec2 c d) : ℂ) = (starRingEnd ℂ) a * c + (starRingEnd ℂ) b * d := by
  simp [PiLp.inner_apply, Fin.sum_univ_two, mul_comm]

theorem vec2_add (a b c d : ℂ) : vec2 a b + vec2 c d = vec2 (a + c) (b + d) := by
  ext i
  fin_cases i <;> simp

theorem vec2_sub (a b c d : ℂ) : vec2 a b - vec2 c d = vec2 (a - c) (b - d) := by
  ext i
  fin_cases i <;> simp

theorem vec2_smul (k a b : ℂ) : k • vec2 a b = vec2 (k * a) (k * b) := by
  ext i
  fin_cases i <;> simp

theorem vec2_norm_sq (a b : ℂ) : ‖vec2 a b‖ ^ 2 = ‖a‖ ^ 2 + ‖b‖ ^ 2 := by
  rw [EuclideanSpace.norm_eq, Real.sq_sqrt (by positivity)]
  simp [Fin.sum_univ_two]

theorem vec2_norm (a b : ℂ) : ‖vec2 a b‖ = Real.sqrt (‖a‖ ^ 2 + ‖b‖ ^ 2) := by
  rw [EuclideanSpace.norm_eq]
  simp [Fin.sum_univ_two]

theorem vec2_eq_iff (a b c d : ℂ) : vec2 a b = vec2 c d ↔ a = c ∧ b = d := by
  constructor
  · intro h
    exact ⟨congrFun h 0, congrFun h 1⟩
  · rintro ⟨rfl, rfl⟩
    rfl

theorem vec2_eta (v : V2) : vec2 (v 0) (v 1) = v := by
  ext i
  fin_cases i <;> rfl

theorem vec2_zero_zero : vec2 0 0 = 0 := by
  ext i
  fin_cases i <;> rfl

theorem matOp_apply (a b c d : ℂ) (v : V2) :
    matOp a b c d v = vec2 (a * v 0 + b * v 1) (c * v 0 + d * v 1) := rfl

theorem matOp_vec2 (a b c d u v : ℂ) :
    matOp a b c d (vec2 u v) = vec2 (a * u + b * v) (c * u + d * v) := rfl

@[simp] theorem pair_zero {V : Type} (u v : V) : pair u v 0 = u := rfl

@[simp] theorem pair_one {V : Type} (u v : V) : pair u v 1 = v := rfl

section

variable {K V : Type} [RCLike K] [NormedAddCommGroup V] [InnerProductSpace K V]
  [DecidableEq K]

/-- On a family that is orthonormal already the orthonormalisation loop changes nothing. -/
theorem exact_orthonormalise_of_orthonormal (N : ℕ) (s : MREState ℝ K V)
    (h1 : ∀ a, a < N → ‖s.p a‖ = 1)
    (h2 : ∀ a c, a < N → c < N → a ≠ c → (inner (s.p a) (s.p c) : K) = 0) :
    orthonormalise (exactBlas K V) N s = s := by
  unfold orthonormalise
  refine forRange_inv (fun _ (t : MREState ℝ K V) => t = s) (orthoStep (exactBlas K V) N)
    0 N s (Nat.zero_le _) rfl ?_
  intro i t _ hi ht
  subst ht
  have hu : (((1 / ‖t.p i‖ : ℝ)) : K) • t.p i = t.p i := by
    rw [h1 i hi]
    simp
  have hp : (orthoStep (exactBlas K V) N i t).p = t.p := by
    funext r
    rw [exact_orthoStep_p, hu]
    by_cases hr : r = i
    · rw [if_pos hr, hr]
    · rw [if_neg hr]
      by_cases hr2 : i < r ∧ r < N
      · rw [if_pos hr2, h2 i r hi hr2.2 (by omega), zero_smul, sub_zero]
      · rw [if_neg hr2]
  have hf : (orthoStep (exactBlas K V) N i t).nonFinite = t.nonFinite := by
    apply exact_orthoStep_nonFinite
    intro h0
    have := h1 i hi
    rw [h0, norm_zero] at this
    exact zero_ne_one this
  have e : orthoStep (exactBlas K V) N i t =
      { t with p := (orthoStep (exactBlas K V) N i t).p
               nonFinite := (orthoStep (exactBlas K V) N i t).nonFinite } := rfl
  rw [e, hp, hf]

end

section

variable {R K V : Type} [LinearOrderedField R] [Field K] [DecidableEq K]

/-- On a row whose entry in the pivot column is zero already the elimination of that row
changes nothing, as long as the pivot is not zero. -/
theorem elimRow_of_zero (N i j : ℕ) (hij : i ≠ j) (s : MREState R K V)
    (hz : s.G j i = 0) (hp : s.G i i ≠ 0) : elimRow N i j s = s := by
  have hG : (elimRow N i j s).G = s.G := by
    funext r c
    rw [elimRow_G N i j hij, hz]
    split_ifs with h
    · rw [h.1]
      simp
    · rfl
  have hb : (elimRow N i j s).beta = s.beta := by
    funext r
    rw [elimRow_beta, hz]
    split_ifs with h
    · rw [h]
      simp
    · rfl
  have hf : (elimRow N i j s).nonFinite = s.nonFinite := by
    rw [elimRow_nonFinite]
    simp [hp]
  have e : elimRow N i j s =
      { s with beta := (elimRow N i j s).beta, G := (elimRow N i j s).G
               nonFinite := (elimRow N i j s).nonFinite } := rfl
  rw [e, hG, hb, hf]

/-- The scan keeps the row `i` when no later diagonal entry is larger in magnitude. -/
theorem pivotRow_eq_self (E : Blas R K V) (N i : ℕ) (G : ℕ → ℕ → K)
    (h : ∀ j, i < j → j < N → ¬ E.abs (G j j) > E.abs (G i i)) : pivotRow E N i G = i := by
  unfold pivotRow
  by_cases hN : i + 1 ≤ N
  · refine forRange_inv (fun _ k => k = i)
      (fun j k => if E.abs (G j j) > E.abs (G k k) then j else k) (i + 1) N i hN rfl ?_
    intro j k hj hjN hk
    subst hk
    dsimp only
    rw [if_neg (h j (by omega) hjN)]
  · rw [forRange_of_le _ _ _ _ (by omega)]

theorem pivotStep_of_eq (E : Blas R K V) (N i : ℕ) (s : MREState R K V)
    (h : pivotRow E N i s.G = i) : pivotStep E N i s = s := by
  unfold pivotStep
  simp [h]

/-- On the identity matrix the elimination loop swaps nothing and changes nothing. -/
theorem eliminate_identity (E : Blas R K V) (N : ℕ) (s : MREState R K V)
    (hG : ∀ r c, r < N → c < N → s.G r c = if r = c then 1 else 0) :
    eliminate E N s = s := by
  unfold eliminate
  refine forRange_inv (fun _ (t : MREState R K V) => t = s) (elimStep E N) 0 N s
    (Nat.zero_le _) rfl ?_
  intro i t _ hi ht
  subst ht
  unfold elimStep
  rw [pivotStep_of_eq E N i t]
  · refine forRange_inv (fun _ (u : MREState R K V) => u = t) (elimRow N i) (i + 1) N t
      (by omega) rfl ?_
    intro j u hj hjN hu
    subst hu
    apply elimRow_of_zero N i j (by omega)
    · rw [hG j i hjN hi, if_neg (by omega)]
    · rw [hG i i hi hi, if_pos rfl]
      exact one_ne_zero
  · apply pivotRow_eq_self
    intro j hj hjN
    rw [hG j j hjN hjN, hG i i hi hi, if_pos rfl, if_pos rfl]
    exact lt_irrefl (E.abs 1)

/-- Back-substitution on the identity matrix returns the right-hand side. -/
theorem backSubstitute_identity (E : Blas R K V) (N : ℕ) (s : MREState R K V)
    (hG : ∀ r c, r < N → c < N → s.G r c = if r = c then 1 else 0) :
    (∀ r, r < N → (backSubstitute E N s).alpha r = s.beta r) ∧
    (backSubstitute E N s).nonFinite = s.nonFinite := by
  obtain ⟨_, _, _, _, _, _, _, hflag, hrec⟩ := backSubstitute_spec E N s
  constructor
  · intro r hr
    rw [hrec r hr]
    unfold backValue
    rw [hG r r hr hr, if_pos rfl, Finset.sum_eq_zero, sub_zero, div_one]
    intro j hj
    rw [Finset.mem_Ico] at hj
    rw [hG r j hr hj.2, if_neg (by omega), zero_mul]
  · have hd : ∀ r, r < N → s.G r r ≠ 0 := by
      intro r hr
      rw [hG r r hr hr, if_pos rfl]
      exact one_ne_zero
    cases hs : s.nonFinite
    · exact hflag.mpr ⟨hs, hd⟩
    · cases ht : (backSubstitute E N s).nonFinite
      · rw [(hflag.mp ht).1] at hs
        exact absurd hs (by simp)
      · rfl

end

section

variable {K V : Type} [RCLike K] [NormedAddCommGroup V] [InnerProductSpace K V]
  [DecidableEq K]

/-- A linearly independent family has no member in the span of the members before it. -/
theorem not_mem_spanBelow_of_linearIndependent (N : ℕ) (p : ℕ → V)
    (hli : LinearIndependent K (fun a : Fin N => p a)) (i : ℕ) (hi : i < N) :
    p i ∉ spanBelow K p i := by
  have h := hli.not_mem_span_image (s := {a : Fin N | a.val < i}) (x := ⟨i, hi⟩)
    (by simp)
  have e : (fun a : Fin N => p a) '' {a : Fin N | a.val < i} = p '' Set.Iio i := by
    ext v
    constructor
    · rintro ⟨a, ha, rfl⟩
      exact ⟨a.val, ha, rfl⟩
    · rintro ⟨a, ha, rfl⟩
      exact ⟨⟨a, lt_trans ha hi⟩, ha, rfl⟩
  rw [e] at h
  exact h

/-- The five stages with a single trial vector, evaluated. -/
theorem exact_run_one (mat : V → V) (x b : V) (p q : ℕ → V) :
    (MinResExt.run (exactBlas K V) mat x b p q 1).p 0 = (((1 / ‖p 0‖ : ℝ)) : K) • p 0 ∧
    (MinResExt.run (exactBlas K V) mat x b p q 1).q 0 =
      mat ((((1 / ‖p 0‖ : ℝ)) : K) • p 0) ∧
    (MinResExt.run (exactBlas K V) mat x b p q 1).alpha 0 =
      (inner ((((1 / ‖p 0‖ : ℝ)) : K) • p 0) b : K) /
        ((RCLike.re (inner (mat ((((1 / ‖p 0‖ : ℝ)) : K) • p 0))
          ((((1 / ‖p 0‖ : ℝ)) : K) • p 0) : K) : ℝ) : K) ∧
    (MinResExt.run (exactBlas K V) mat x b p q 1).nonFinite =
      (decide (‖p 0‖ = 0) ||
        decide (((RCLike.re (inner (mat ((((1 / ‖p 0‖ : ℝ)) : K) • p 0))
          ((((1 / ‖p 0‖ : ℝ)) : K) • p 0) : K) : ℝ) : K) = 0)) := by
  simp [MinResExt.run, MinResExt.built, MinResExt.entry, orthonormalise, buildRhs,
    constructMatrix, eliminate, backSubstitute, forRange, forLoop, forDown, orthoStep,
    buildStep, elimStep, pivotStep, pivotRow, backStep, set2]
  rw [Real.sqrt_sq (norm_nonneg _)]

end

section

variable {R K V : Type} [LinearOrderedField R] [Field K] [DecidableEq K]

theorem pivotRow_two (E : Blas R K V) (G : ℕ → ℕ → K) :
    pivotRow E 2 0 G = if E.abs (G 1 1) > E.abs (G 0 0) then 1 else 0 := by
  simp [pivotRow, forRange, forLoop]

/-- The elimination loop on a system of two equations is one pivoting step followed by
the elimination of the second row. -/
theorem eliminate_two (E : Blas R K V) (s : MREState R K V) :
    eliminate E 2 s = elimRow 2 0 1 (pivotStep E 2 0 s) := by
  simp [eliminate, forRange, forLoop, elimStep, pivotStep, pivotRow]

/-- Once the flag is up the back-substitution leaves it up. -/
theorem backSubstitute_nonFinite_of (E : Blas R K V) (N : ℕ) (s : MREState R K V)
    (h : s.nonFinite = true) : (backSubstitute E N s).nonFinite = true := by
  obtain ⟨_, _, _, _, _, _, _, hflag, _⟩ := backSubstitute_spec E N s
  cases ht : (backSubstitute E N s).nonFinite
  · rw [(hflag.mp ht).1] at h
    exact absurd h (by simp)
  · rfl

end

theorem norm_vec2_one_zero : ‖vec2 1 0‖ = 1 := by
  rw [vec2_norm]
  simp

theorem norm_vec2_zero_one : ‖vec2 0 1‖ = 1 := by
  rw [vec2_norm]
  simp

theorem norm_vec2_two_zero : ‖vec2 2 0‖ = 2 := by
  rw [vec2_norm]
  simp

/-- The standard basis of `ℂ²` passes the orthonormalisation loop unchanged. -/
theorem toy_orthonormalise (x b : V2) (q : ℕ → V2) :
    orthonormalise (exactBlas ℂ V2) 2
      (MinResExt.entry x b (pair (vec2 1 0) (vec2 0 1)) q) =
      MinResExt.entry x b (pair (vec2 1 0) (vec2 0 1)) q := by
  apply exact_orthonormalise_of_orthonormal
  · intro a ha
    interval_cases a
    · exact norm_vec2_one_zero
    · exact norm_vec2_zero_one
  · intro a c ha hc hac
    interval_cases a <;> interval_cases c <;>
      simp [MinResExt.entry, pair, vec2_inner] at hac ⊢

/-- The reduced system built from the standard basis of `ℂ²` and the operator with matrix
`[[a, b'], [c, d]]`. -/
theorem toy_built (a b' c d : ℂ) (x b : V2) (q : ℕ → V2) :
    (MinResExt.built (exactBlas ℂ V2) (matOp a b' c d) x b
      (pair (vec2 1 0) (vec2 0 1)) q 2).G 0 0 = ((a.re : ℝ) : ℂ) ∧
    (MinResExt.built (exactBlas ℂ V2) (matOp a b' c d) x b
      (pair (vec2 1 0) (vec2 0 1)) q 2).G 0 1 = b' ∧
    (MinResExt.built (exactBlas ℂ V2) (matOp a b' c d) x b
      (pair (vec2 1 0) (vec2 0 1)) q 2).G 1 0 = (starRingEnd ℂ) b' ∧
    (MinResExt.built (exactBlas ℂ V2) (matOp a b' c d) x b
      (pair (vec2 1 0) (vec2 0 1)) q 2).G 1 1 = ((d.re : ℝ) : ℂ) ∧
    (MinResExt.built (exactBlas ℂ V2) (matOp a b' c d) x b
      (pair (vec2 1 0) (vec2 0 1)) q 2).beta 0 = b 0 ∧
    (MinResExt.built (exactBlas ℂ V2) (matOp a b' c d) x b
      (pair (vec2 1 0) (vec2 0 1)) q 2).beta 1 = b 1 ∧
    (MinResExt.built (exactBlas ℂ V2) (matOp a b' c d) x b
      (pair (vec2 1 0) (vec2 0 1)) q 2).nonFinite = false := by
  obtain ⟨c1, c2, c3, c4, c5, c6, c7, c8, c9, c10⟩ :=
    built_spec (exactBlas ℂ V2) (matOp a b' c d) x b (pair (vec2 1 0) (vec2 0 1)) q 2
  rw [toy_orthonormalise] at c1 c2 c3 c4 c10
  have hb : b = vec2 (b 0) (b 1) := (vec2_eta b).symm
  refine ⟨?_, ?_, ?_, ?_, ?_, ?_, ?_⟩
  · rw [c4]
    simp [MinResExt.entry, matOp_vec2, vec2_inner]
  · rw [c4]
    simp [MinResExt.entry, matOp_vec2, vec2_inner]
  · rw [c4]
    simp [MinResExt.entry, matOp_vec2, vec2_inner]
  · rw [c4]
    simp [MinResExt.entry, matOp_vec2, vec2_inner]
  · rw [c3, hb]
    simp [MinResExt.entry, vec2_inner]
  · rw [c3, hb]
    simp [MinResExt.entry, vec2_inner]
  · rw [c10]
    rfl

section

variable {K V : Type} [RCLike K] [NormedAddCommGroup V] [InnerProductSpace K V]
  [DecidableEq K]

/-- For a symmetric operator the matrix built is the Gram matrix `⟨P_r, A P_c⟩` of the
orthonormalised trial vectors, and the right-hand side built is `⟨P_r, b⟩`. -/
theorem exact_built_gram (A : V →ₗ[K] V) (hsym : A.IsSymmetric) (x b : V) (p q : ℕ → V)
    (N : ℕ) :
    (∀ r c, r < N → c < N →
      (MinResExt.built (exactBlas K V) A x b p q N).G r c =
        inner ((MinResExt.run (exactBlas K V) A x b p q N).p r)
          (A ((MinResExt.run (exactBlas K V) A x b p q N).p c))) ∧
    (∀ r, r < N →
      (MinResExt.built (exactBlas K V) A x b p q N).beta r =
        inner ((MinResExt.run (exactBlas K V) A x b p q N).p r) b) := by
  obtain ⟨_, _, c3, c4, _⟩ := built_spec (exactBlas K V) A x b p q N
  obtain ⟨r1, _⟩ := run_fields (exactBlas K V) A x b p q N
  rw [r1]
  constructor
  · intro r c hr hc
    rw [c4]
    rcases Nat.lt_trichotomy r c with h | h | h
    · rw [if_pos ⟨h, hc⟩]
      rfl
    · subst h
      rw [if_neg (by omega), if_neg (by omega), if_pos ⟨rfl, hr⟩]
      simp only [exactBlas_ofReal, exactBlas_reDotProduct]
      rw [hsym]
      apply RCLike.conj_eq_iff_re.mp
      rw [inner_conj_symm]
      exact hsym _ _
    · rw [if_neg (by omega), if_pos ⟨h, hr⟩]
      simp only [exactBlas_conj, exactBlas_cDotProduct]
      rw [inner_conj_symm]
      exact hsym _ _
  · intro r hr
    rw [c3, if_pos hr]
    rfl

/-- When no division by zero occurred the coefficients solve the system that was built,
and no other coefficients do. -/
theorem run_solves {R K V : Type} [LinearOrderedField R] [Field K] [DecidableEq K]
    (E : Blas R K V) (mat : V → V) (x b : V) (p q : ℕ → V) (N : ℕ)
    (hfin : (MinResExt.run E mat x b p q N).nonFinite = false) :
    Solves N (MinResExt.built E mat x b p q N).G (MinResExt.built E mat x b p q N).beta
      (MinResExt.run E mat x b p q N).alpha ∧
    (∀ γ, Solves N (MinResExt.built E mat x b p q N).G
        (MinResExt.built E mat x b p q N).beta γ →
      ∀ r, r < N → γ r = (MinResExt.run E mat x b p q N).alpha r) ∧
    (orthonormalise E N (MinResExt.entry x b p q)).nonFinite = false := by
  obtain ⟨h1, h2, h3⟩ := solver_correct E N (MinResExt.built E mat x b p q N) hfin
  refine ⟨h2, h3, ?_⟩
  rw [← (built_spec E mat x b p q N).2.2.2.2.2.2.2.2.2]
  exact h1

/-- Galerkin orthogonality: for a symmetric operator, when no division by zero occurred,
the right-hand side left by the stages is orthogonal to every orthonormalised trial
vector. -/
theorem exact_galerkin (A : V →ₗ[K] V) (hsym : A.IsSymmetric) (x b : V) (p q : ℕ → V)
    (N : ℕ) (hfin : (MinResExt.run (exactBlas K V) A x b p q N).nonFinite = false)
    (i : ℕ) (hi : i < N) :
    (inner ((MinResExt.run (exactBlas K V) A x b p q N).p i)
      (MinResExt.run (exactBlas K V) A x b p q N).b : K) = 0 := by
  obtain ⟨hG, hβ⟩ := exact_built_gram A hsym x b p q N
  obtain ⟨hsol, _, _⟩ := run_solves (exactBlas K V) A x b p q N hfin
  obtain ⟨_, g2, g3⟩ := exact_run_xb (K := K) A x b p q N
  rw [g2, inner_sub_right, inner_sum, ← hβ i hi, ← hsol i hi, sub_eq_zero]
  apply Finset.sum_congr rfl
  intro c hc
  rw [hG i c hi (Finset.mem_range.mp hc), inner_smul_right, g3 c (Finset.mem_range.mp hc),
    mul_comm]

/-- A vector orthogonal to the first `N` members of a family is orthogonal to their span. -/
theorem inner_eq_zero_of_mem_spanBelow (P : ℕ → V) (N : ℕ) (r : V)
    (h : ∀ i, i < N → (inner (P i) r : K) = 0) (d : V) (hd : d ∈ spanBelow K P N) :
    (inner d r : K) = 0 := by
  unfold spanBelow at hd
  induction hd using Submodule.span_induction with
  | mem v hv =>
    obtain ⟨a, ha, rfl⟩ := hv
    exact h a ha
  | zero => exact inner_zero_left r
  | add u v _ _ hu hv => rw [inner_add_left, hu, hv, add_zero]
  | smul c v _ hv => rw [inner_smul_left, hv, mul_zero]

/-- A member of the span of the first `N` members of a family is a combination of them. -/
theorem exists_coeff_of_mem_spanBelow (P : ℕ → V) (N : ℕ) (d : V)
    (hd : d ∈ spanBelow K P N) : ∃ γ : ℕ → K, d = ∑ r in Finset.range N, γ r • P r := by
  unfold spanBelow at hd
  induction hd using Submodule.span_induction with
  | mem v hv =>
    obtain ⟨a, ha, rfl⟩ := hv
    refine ⟨fun r => if r = a then 1 else 0, ?_⟩
    rw [Finset.sum_eq_single a]
    · simp
    · intro c _ hca
      simp [hca]
    · intro h
      exact absurd (Finset.mem_range.mpr ha) h
  | zero => exact ⟨fun _ => 0, by simp⟩
  | add u v _ _ hu hv =>
    obtain ⟨γ1, h1⟩ := hu
    obtain ⟨γ2, h2⟩ := hv
    refine ⟨fun r => γ1 r + γ2 r, ?_⟩
    rw [h1, h2, ← Finset.sum_add_distrib]
    apply Finset.sum_congr rfl
    intro r _
    rw [add_smul]
  | smul c v _ hv =>
    obtain ⟨γ, h⟩ := hv
    refine ⟨fun r => c * γ r, ?_⟩
    rw [h, Finset.smul_sum]
    apply Finset.sum_congr rfl
    intro r _
    rw [mul_smul]

/-- The guess lies in the span of the orthonormalised trial vectors. -/
theorem exact_run_x_mem (mat : V → V) (x b : V) (p q : ℕ → V) (N : ℕ) :
    (MinResExt.run (exactBlas K V) mat x b p q N).x ∈
      spanBelow K (MinResExt.run (exactBlas K V) mat x b p q N).p N := by
  rw [(exact_run_xb (K := K) mat x b p q N).1]
  apply Submodule.sum_mem
  intro r hr
  exact Submodule.smul_mem _ _ (mem_spanBelow _ (Finset.mem_range.mp hr))

/-- The energy identity behind the Galerkin optimality: if `A e` is orthogonal to `d`, then
`⟨e + d, A (e + d)⟩ = ⟨e, A e⟩ + ⟨d, A d⟩` in real parts. -/
theorem energy_split (A : V →ₗ[K] V) (hsym : A.IsSymmetric) (e d : V)
    (h : (inner d (A e) : K) = 0) :
    RCLike.re (inner (e + d) (A (e + d)) : K) =
      RCLike.re (inner e (A e) : K) + RCLike.re (inner d (A d) : K) := by
  have h2 : (inner e (A d) : K) = 0 := by
    rw [← hsym, ← inner_conj_symm, h, map_zero]
  rw [map_add, inner_add_left, inner_add_right, inner_add_right, h, h2]
  simp

/-- On a linearly independent family the orthonormalised vectors span what the original
ones span, and the loop divides by no zero. -/
theorem exact_run_span (mat : V → V) (x b : V) (p q : ℕ → V) (N : ℕ)
    (hind : ∀ i, i < N → p i ∉ spanBelow K p i) :
    spanBelow K (MinResExt.run (exactBlas K V) mat x b p q N).p N = spanBelow K p N := by
  rw [(run_fields (exactBlas K V) mat x b p q N).1]
  obtain ⟨_, _, _, hC2, hC3, _⟩ :=
    exact_orthonormalise_spec N (MinResExt.entry (R := ℝ) (K := K) x b p q) hind
  apply le_antisymm
  · apply spanBelow_le
    intro a ha
    exact spanBelow_mono p (by omega : a + 1 ≤ N) (hC2 a ha)
  · apply spanBelow_le
    intro a ha
    exact spanBelow_mono _ (by omega : a + 1 ≤ N) (hC3 a ha)

/-- Galerkin optimality of the guess: for a symmetric positive-definite operator, when no
division by zero occurred, the guess minimises the energy `Re⟨z - y, A (z - y)⟩` of the
error over the span of the trial vectors, `z` being a solution of `A z = b`. -/
theorem exact_run_energy (A : V →ₗ[K] V) (hsym : A.IsSymmetric)
    (hpos : ∀ v, v ≠ 0 → 0 < RCLike.re (inner (A v) v : K)) (x b : V) (p q : ℕ → V) (N : ℕ)
    (hind : ∀ i, i < N → p i ∉ spanBelow K p i)
    (hfin : (MinResExt.run (exactBlas K V) A x b p q N).nonFinite = false)
    (z : V) (hz : A z = b) (y : V) (hy : y ∈ spanBelow K p N) :
    (MinResExt.run (exactBlas K V) A x b p q N).b =
      A (z - (MinResExt.run (exactBlas K V) A x b p q N).x) ∧
    RCLike.re (inner (z - (MinResExt.run (exactBlas K V) A x b p q N).x)
        (A (z - (MinResExt.run (exactBlas K V) A x b p q N).x)) : K) ≤
      RCLike.re (inner (z - y) (A (z - y)) : K) := by
  obtain ⟨g1, g2, g3⟩ := exact_run_xb (K := K) A x b p q N
  have hb : (MinResExt.run (exactBlas K V) A x b p q N).b =
      A (z - (MinResExt.run (exactBlas K V) A x b p q N).x) := by
    rw [map_sub, hz, g2]
    congr 1
    rw [g1, map_sum]
    apply Finset.sum_congr rfl
    intro r hr
    rw [map_smul, g3 r (Finset.mem_range.mp hr)]
  refine ⟨hb, ?_⟩
  have hspan := exact_run_span (K := K) A x b p q N hind
  have hd : (MinResExt.run (exactBlas K V) A x b p q N).x - y ∈
      spanBelow K (MinResExt.run (exactBlas K V) A x b p q N).p N := by
    apply Submodule.sub_mem
    · exact exact_run_x_mem A x b p q N
    · rw [hspan]
      exact hy
  have horth := inner_eq_zero_of_mem_spanBelow _ N _
    (fun i hi => exact_galerkin A hsym x b p q N hfin i hi) _ hd
  rw [hb] at horth
  have hsplit := energy_split A hsym _ _ horth
  have e : z - (MinResExt.run (exactBlas K V) A x b p q N).x +
      ((MinResExt.run (exactBlas K V) A x b p q N).x - y) = z - y := by abel
  rw [e] at hsplit
  rw [hsplit]
  have hnn : ∀ d : V, 0 ≤ RCLike.re (inner d (A d) : K) := by
    intro d
    by_cases h0 : d = 0
    · rw [h0]
      simp
    · rw [← hsym]
      exact le_of_lt (hpos d h0)
  linarith [hnn ((MinResExt.run (exactBlas K V) A x b p q N).x - y)]

/-- Two runs on trial families with the same span return the same guess, when the operator
is symmetric and neither run divided by zero. -/
theorem exact_run_same_span (A : V →ₗ[K] V) (hsym : A.IsSymmetric) (x x' b : V)
    (p q p' q' : ℕ → V) (N : ℕ)
    (hind : ∀ i, i < N → p i ∉ spanBelow K p i)
    (hind' : ∀ i, i < N → p' i ∉ spanBelow K p' i)
    (hspan : spanBelow K p' N = spanBelow K p N)
    (hf : (MinResExt.run (exactBlas K V) A x b p q N).nonFinite = false)
    (hf' : (MinResExt.run (exactBlas K V) A x' b p' q' N).nonFinite = false) :
    (MinResExt.run (exactBlas K V) A x b p q N).x =
      (MinResExt.run (exactBlas K V) A x' b p' q' N).x := by
  have hs1 := exact_run_span (K := K) A x b p q N hind
  have hs2 := exact_run_span (K := K) A x' b p' q' N hind'
  -- the second guess is a combination of the first run's orthonormalised vectors
  have hmem : (MinResExt.run (exactBlas K V) A x' b p' q' N).x ∈
      spanBelow K (MinResExt.run (exactBlas K V) A x b p q N).p N := by
    rw [hs1, ← hspan, ← hs2]
    exact exact_run_x_mem A x' b p' q' N
  obtain ⟨γ, hγ⟩ := exists_coeff_of_mem_spanBelow _ N _ hmem
  -- the second residual is orthogonal to the first run's orthonormalised vectors
  have horth : ∀ i, i < N →
      (inner ((MinResExt.run (exactBlas K V) A x b p q N).p i)
        (MinResExt.run (exactBlas K V) A x' b p' q' N).b : K) = 0 := by
    intro i hi
    apply inner_eq_zero_of_mem_spanBelow _ N _
      (fun j hj => exact_galerkin A hsym x' b p' q' N hf' j hj)
    rw [hs2, hspan, ← hs1]
    exact mem_spanBelow _ hi
  obtain ⟨g1', g2', g3'⟩ := exact_run_xb (K := K) A x' b p' q' N
  have hb' : (MinResExt.run (exactBlas K V) A x' b p' q' N).b =
      b - A (MinResExt.run (exactBlas K V) A x' b p' q' N).x := by
    rw [g2']
    congr 1
    rw [g1', map_sum]
    apply Finset.sum_congr rfl
    intro r hr
    rw [map_smul, g3' r (Finset.mem_range.mp hr)]
  -- hence its coefficients solve the first run's system
  obtain ⟨hG, hβ⟩ := exact_built_gram A hsym x b p q N
  obtain ⟨_, huniq, _⟩ := run_solves (exactBlas K V) A x b p q N hf
  have hsol : Solves N (MinResExt.built (exactBlas K V) A x b p q N).G
      (MinResExt.built (exactBlas K V) A x b p q N).beta γ := by
    intro i hi
    have h := horth i hi
    rw [hb', inner_sub_right, sub_eq_zero, hγ, map_sum, inner_sum] at h
    rw [hβ i hi, h]
    apply Finset.sum_congr rfl
    intro c hc
    rw [hG i c hi (Finset.mem_range.mp hc), map_smul, inner_smul_right, mul_comm]
  obtain ⟨g1, _, _⟩ := exact_run_xb (K := K) A x b p q N
  rw [hγ, g1]
  apply Finset.sum_congr rfl
  intro r hr
  rw [huniq γ hsol r (Finset.mem_range.mp hr)]

theorem spanBelow_reorder (N : ℕ) (σ : Equiv.Perm (Fin N)) (p : ℕ → V) :
    spanBelow K (reorder N σ p) N = spanBelow K p N := by
  unfold spanBelow
  congr 1
  ext v
  constructor
  · rintro ⟨i, hi, rfl⟩
    have hi' : i < N := hi
    refine ⟨(σ ⟨i, hi'⟩).val, (σ ⟨i, hi'⟩).isLt, ?_⟩
    simp [reorder, hi']
  · rintro ⟨a, ha, rfl⟩
    have ha' : a < N := ha
    refine ⟨(σ.symm ⟨a, ha'⟩).val, (σ.symm ⟨a, ha'⟩).isLt, ?_⟩
    simp [reorder]

theorem linearIndependent_reorder (N : ℕ) (σ : Equiv.Perm (Fin N)) (p : ℕ → V)
    (hli : LinearIndependent K (fun a : Fin N => p a)) :
    LinearIndependent K (fun a : Fin N => reorder N σ p a) := by
  have e : (fun a : Fin N => reorder N σ p a) = (fun a : Fin N => p a) ∘ σ := by
    funext a
    simp [reorder]
  rw [e]
  exact hli.comp σ σ.injective

theorem reorder_data (N : ℕ) (σ : Equiv.Perm (Fin N)) (p : ℕ → ColorSpinorField V) :
    (fun i => (reorder N σ p i).data) = reorder N σ (fun i => (p i).data) := by
  funext i
  unfold reorder
  split_ifs <;> rfl

end

section

variable {R K V : Type} [LinearOrderedField R] [Field K] [DecidableEq K]

/-- Two equations, no row swap and non-zero pivots: the solver stages divide by no zero. -/
theorem solve_two_noswap (E : Blas R K V) (s : MREState R K V)
    (h1 : ¬ E.abs (s.G 1 1) > E.abs (s.G 0 0)) (h2 : s.G 0 0 ≠ 0)
    (h3 : s.G 1 1 - s.G 1 0 / s.G 0 0 * s.G 0 1 ≠ 0) (h4 : s.nonFinite = false) :
    (backSubstitute E 2 (eliminate E 2 s)).nonFinite = false := by
  have hk : pivotRow E 2 0 s.G = 0 := by
    rw [pivotRow_two, if_neg h1]
  rw [solver_nonFinite, eliminate_two, pivotStep_of_eq E 2 0 s hk]
  constructor
  · rw [elimRow_nonFinite, h4]
    simp [h2]
  · intro r hr
    rw [elimRow_G 2 0 1 (by norm_num)]
    interval_cases r
    · simpa using h2
    · simpa using h3

end

section

variable {K V : Type} [RCLike K] [NormedAddCommGroup V] [InnerProductSpace K V]
  [DecidableEq K]

/-- The reduced system built from two orthonormal trial vectors. -/
theorem built_two (mat : V → V) (x b : V) (p q : ℕ → V) (h0 : ‖p 0‖ = 1) (h1 : ‖p 1‖ = 1)
    (h01 : (inner (p 0) (p 1) : K) = 0) :
    (MinResExt.run (exactBlas K V) mat x b p q 2).p = p ∧
    (MinResExt.built (exactBlas K V) mat x b p q 2).G 0 0 =
      ((RCLike.re (inner (mat (p 0)) (p 0) : K) : ℝ) : K) ∧
    (MinResExt.built (exactBlas K V) mat x b p q 2).G 0 1 = inner (p 0) (mat (p 1)) ∧
    (MinResExt.built (exactBlas K V) mat x b p q 2).G 1 0 =
      (starRingEnd K) (inner (p 0) (mat (p 1))) ∧
    (MinResExt.built (exactBlas K V) mat x b p q 2).G 1 1 =
      ((RCLike.re (inner (mat (p 1)) (p 1) : K) : ℝ) : K) ∧
    (MinResExt.built (exactBlas K V) mat x b p q 2).beta 0 = inner (p 0) b ∧
    (MinResExt.built (exactBlas K V) mat x b p q 2).beta 1 = inner (p 1) b ∧
    (MinResExt.built (exactBlas K V) mat x b p q 2).nonFinite = false := by
  have ho : orthonormalise (exactBlas K V) 2 (MinResExt.entry (R := ℝ) (K := K) x b p q) =
      MinResExt.entry x b p q := by
    apply exact_orthonormalise_of_orthonormal
    · intro a ha
      interval_cases a
      · exact h0
      · exact h1
    · intro a c ha hc hac
      interval_cases a <;> interval_cases c
      · exact absurd rfl hac
      · exact h01
      · change (inner (p 1) (p 0) : K) = 0
        rw [← inner_conj_symm, h01, map_zero]
      · exact absurd rfl hac
  obtain ⟨c1, c2, c3, c4, c5, c6, c7, c8, c9, c10⟩ :=
    built_spec (exactBlas K V) mat x b p q 2
  obtain ⟨r1, _⟩ := run_fields (exactBlas K V) mat x b p q 2
  rw [ho] at c1 c2 c3 c4 c10 r1
  refine ⟨r1, ?_, ?_, ?_, ?_, ?_, ?_, ?_⟩
  · rw [c4]
    simp [MinResExt.entry]
  · rw [c4]
    simp [MinResExt.entry]
  · rw [c4]
    simp [MinResExt.entry]
  · rw [c4]
    simp [MinResExt.entry]
  · rw [c3]
    simp [MinResExt.entry]
  · rw [c3]
    simp [MinResExt.entry]
  · rw [c10]
    rfl

theorem reorder_swap_zero {α : Type} (p : ℕ → α) :
    reorder 2 (Equiv.swap 0 1) p 0 = p 1 := by
  simp [reorder]

theorem reorder_swap_one {α : Type} (p : ℕ → α) :
    reorder 2 (Equiv.swap 0 1) p 1 = p 0 := by
  simp [reorder]

/-- The operator with matrix `[[a, b], [conj b, d]]`, `a` and `d` real, is symmetric. -/
theorem matOp_isSymmetric (a b d : ℂ) (ha : (starRingEnd ℂ) a = a)
    (hd : (starRingEnd ℂ) d = d) : (matOp a b ((starRingEnd ℂ) b) d).IsSymmetric := by
  intro u v
  rw [← vec2_eta u, ← vec2_eta v, matOp_vec2, matOp_vec2, vec2_inner, vec2_inner]
  simp only [map_add, map_mul, ha, hd, Complex.conj_conj]
  ring

theorem matOp_1112_isSymmetric : (matOp 1 1 1 2).IsSymmetric := by
  have h := matOp_isSymmetric 1 1 2 (map_one _) (map_ofNat _ 2)
  simpa using h

theorem matOp_2112_isSymmetric : (matOp 2 1 1 2).IsSymmetric := by
  have h := matOp_isSymmetric 2 1 2 (map_ofNat _ 2) (map_ofNat _ 2)
  simpa using h

theorem matOp_1002_isSymmetric : (matOp 1 0 0 2).IsSymmetric := by
  have h := matOp_isSymmetric 1 0 2 (map_one _) (map_ofNat _ 2)
  simpa using h

theorem vec2_ne_zero (v : V2) (hv : v ≠ 0) :
    (v 0).re ≠ 0 ∨ (v 0).im ≠ 0 ∨ (v 1).re ≠ 0 ∨ (v 1).im ≠ 0 := by
  by_contra h
  push_neg at h
  obtain ⟨h1, h2, h3, h4⟩ := h
  apply hv
  rw [← vec2_eta v, ← vec2_zero_zero, vec2_eq_iff]
  exact ⟨Complex.ext h1 h2, Complex.ext h3 h4⟩

theorem matOp_1112_pos (v : V2) (hv : v ≠ 0) :
    0 < RCLike.re (inner (matOp 1 1 1 2 v) v : ℂ) := by
  have hne := vec2_ne_zero v hv
  have e : (inner (matOp 1 1 1 2 v) v : ℂ) =
      inner (vec2 (1 * v 0 + 1 * v 1) (1 * v 0 + 2 * v 1)) (vec2 (v 0) (v 1)) := by
    rw [matOp_apply, vec2_eta]
  rw [e, vec2_inner]
  simp only [RCLike.re_to_complex, Complex.add_re, Complex.mul_re, Complex.conj_re,
    Complex.conj_im, map_add, map_mul, map_one, Complex.one_re, Complex.one_im, one_mul,
    zero_mul, sub_zero, Complex.add_im, Complex.mul_im, mul_zero, add_zero]
  norm_num
  rcases hne with h | h | h | h
  · nlinarith [sq_nonneg ((v 0).re + (v 1).re), sq_nonneg ((v 0).im + (v 1).im),
      sq_nonneg (v 1).re, sq_nonneg (v 1).im, sq_nonneg (v 0).re, sq_nonneg (v 0).im,
      sq_pos_of_ne_zero h, sq_nonneg ((v 0).re + 2 * (v 1).re)]
  · nlinarith [sq_nonneg ((v 0).re + (v 1).re), sq_nonneg ((v 0).im + (v 1).im),
      sq_nonneg (v 1).re, sq_nonneg (v 1).im, sq_nonneg (v 0).re, sq_nonneg (v 0).im,
      sq_pos_of_ne_zero h, sq_nonneg ((v 0).im + 2 * (v 1).im)]
  · nlinarith [sq_nonneg ((v 0).re + (v 1).re), sq_nonneg ((v 0).im + (v 1).im),
      sq_nonneg (v 1).re, sq_nonneg (v 1).im, sq_pos_of_ne_zero h]
  · nlinarith [sq_nonneg ((v 0).re + (v 1).re), sq_nonneg ((v 0).im + (v 1).im),
      sq_nonneg (v 1).re, sq_nonneg (v 1).im, sq_pos_of_ne_zero h]

end

theorem matOp_2112_pos (v : V2) (hv : v ≠ 0) :
    0 < RCLike.re (inner (matOp 2 1 1 2 v) v : ℂ) := by
  have hne := vec2_ne_zero v hv
  have e : (inner (matOp 2 1 1 2 v) v : ℂ) =
      inner (vec2 (2 * v 0 + 1 * v 1) (1 * v 0 + 2 * v 1)) (vec2 (v 0) (v 1)) := by
    rw [matOp_apply, vec2_eta]
  rw [e, vec2_inner]
  simp only [RCLike.re_to_complex, Complex.add_re, Complex.mul_re, Complex.conj_re,
    Complex.conj_im, map_add, map_mul, map_one, Complex.one_re, Complex.one_im, one_mul,
    zero_mul, sub_zero, Complex.add_im, Complex.mul_im, mul_zero, add_zero]
  norm_num
  rcases hne with h | h | h | h
  · nlinarith [sq_nonneg ((v 0).re + (v 1).re), sq_nonneg ((v 0).im + (v 1).im),
      sq_nonneg (v 1).re, sq_nonneg (v 1).im, sq_nonneg (v 0).re, sq_nonneg (v 0).im,
      sq_pos_of_ne_zero h]
  · nlinarith [sq_nonneg ((v 0).re + (v 1).re), sq_nonneg ((v 0).im + (v 1).im),
      sq_nonneg (v 1).re, sq_nonneg (v 1).im, sq_nonneg (v 0).re, sq_nonneg (v 0).im,
      sq_pos_of_ne_zero h]
  · nlinarith [sq_nonneg ((v 0).re + (v 1).re), sq_nonneg ((v 0).im + (v 1).im),
      sq_nonneg (v 1).re, sq_nonneg (v 1).im, sq_nonneg (v 0).re, sq_nonneg (v 0).im,
      sq_pos_of_ne_zero h]
  · nlinarith [sq_nonneg ((v 0).re + (v 1).re), sq_nonneg ((v 0).im + (v 1).im),
      sq_nonneg (v 1).re, sq_nonneg (v 1).im, sq_nonneg (v 0).re, sq_nonneg (v 0).im,
      sq_pos_of_ne_zero h]

theorem linearIndependent_standard :
    LinearIndependent ℂ (fun a : Fin 2 => pair (vec2 1 0) (vec2 0 1) a) := by
  have e : (fun a : Fin 2 => pair (vec2 1 0) (vec2 0 1) a) = ![vec2 1 0, vec2 0 1] := by
    funext a
    fin_cases a <;> rfl
  rw [e, LinearIndependent.pair_iff]
  intro s t h
  rw [vec2_smul, vec2_smul, vec2_add, ← vec2_zero_zero, vec2_eq_iff] at h
  simpa using h

theorem linearIndependent_single :
    LinearIndependent ℂ (fun _ : Fin 1 => vec2 1 0) := by
  rw [linearIndependent_unique_iff]
  intro h
  rw [← vec2_zero_zero, vec2_eq_iff] at h
  exact one_ne_zero h.1

/-- The five stages on one trial vector `(1, 0)` of `ℂ²`, the operator `[[1, 1], [1, 2]]` and
`b = (b0, b1)`: the coefficient is `b0`, the guess `(b0, 0)`, and `b` becomes
`(0, b1 - b0)`. -/
theorem toy_run_one (b0 b1 : ℂ) (x : V2) (q : ℕ → V2) :
    (MinResExt.run (exactBlas ℂ V2) (matOp 1 1 1 2) x (vec2 b0 b1) (fun _ => vec2 1 0) q 1).x
      = vec2 b0 0 ∧
    (MinResExt.run (exactBlas ℂ V2) (matOp 1 1 1 2) x (vec2 b0 b1) (fun _ => vec2 1 0) q 1).b
      = vec2 0 (b1 - b0) ∧
    (MinResExt.run (exactBlas ℂ V2) (matOp 1 1 1 2) x (vec2 b0 b1) (fun _ => vec2 1 0) q
      1).nonFinite = false := by
  obtain ⟨h1, h2, h3, h4⟩ :=
    exact_run_one (K := ℂ) (matOp 1 1 1 2) x (vec2 b0 b1) (fun _ => vec2 1 0) q
  obtain ⟨g1, g2, _⟩ :=
    exact_run_xb (K := ℂ) (matOp 1 1 1 2) x (vec2 b0 b1) (fun _ => vec2 1 0) q 1
  have hP : (RCLike.ofReal (1 / ‖vec2 1 0‖) : ℂ) • vec2 1 0 = vec2 1 0 := by
    simp [norm_vec2_one_zero]
  beta_reduce at h1 h2 h3 h4
  rw [hP] at h1 h2 h3 h4
  rw [matOp_vec2] at h2 h3 h4
  have hα : (MinResExt.run (exactBlas ℂ V2) (matOp 1 1 1 2) x (vec2 b0 b1)
      (fun _ => vec2 1 0) q 1).alpha 0 = b0 := by
    rw [h3, vec2_inner, vec2_inner]
    simp
  refine ⟨?_, ?_, ?_⟩
  · rw [g1, Finset.sum_range_one, hα, h1, vec2_smul]
    simp
  · rw [g2, Finset.sum_range_one, hα, h2, vec2_smul, vec2_sub]
    simp
  · rw [h4, vec2_inner, norm_vec2_one_zero]
    simp

/-- The solver stages divide by no zero on the system built from the standard basis of
`ℂ²`, in either order, and the operator `[[2, 1], [1, 2]]`. -/
theorem toy_run_2112_nonFinite (x b : V2) (p q : ℕ → V2)
    (hp : (p 0 = vec2 1 0 ∧ p 1 = vec2 0 1) ∨ (p 0 = vec2 0 1 ∧ p 1 = vec2 1 0)) :
    (MinResExt.run (exactBlas ℂ V2) (matOp 2 1 1 2) x b p q 2).nonFinite = false := by
  have h0 : ‖p 0‖ = 1 := by
    rcases hp with h | h
    · rw [h.1]
      exact norm_vec2_one_zero
    · rw [h.1]
      exact norm_vec2_zero_one
  have h1 : ‖p 1‖ = 1 := by
    rcases hp with h | h
    · rw [h.2]
      exact norm_vec2_zero_one
    · rw [h.2]
      exact norm_vec2_one_zero
  have h01 : (inner (p 0) (p 1) : ℂ) = 0 := by
    rcases hp with h | h
    · rw [h.1, h.2, vec2_inner]
      simp
    · rw [h.1, h.2, vec2_inner]
      simp
  obtain ⟨_, g00, g01, g10, g11, _, _, hf⟩ :=
    built_two (K := ℂ) (matOp 2 1 1 2) x b p q h0 h1 h01
  have e00 : (MinResExt.built (exactBlas ℂ V2) (matOp 2 1 1 2) x b p q 2).G 0 0 = 2 := by
    rw [g00]
    rcases hp with h | h
    · rw [h.1, matOp_vec2, vec2_inner]
      simp
    · rw [h.1, matOp_vec2, vec2_inner]
      simp
  have e11 : (MinResExt.built (exactBlas ℂ V2) (matOp 2 1 1 2) x b p q 2).G 1 1 = 2 := by
    rw [g11]
    rcases hp with h | h
    · rw [h.2, matOp_vec2, vec2_inner]
      simp
    · rw [h.2, matOp_vec2, vec2_inner]
      simp
  have e01 : (MinResExt.built (exactBlas ℂ V2) (matOp 2 1 1 2) x b p q 2).G 0 1 = 1 := by
    rw [g01]
    rcases hp with h | h
    · rw [h.1, h.2, matOp_vec2, vec2_inner]
      simp
    · rw [h.1, h.2, matOp_vec2, vec2_inner]
      simp
  have e10 : (MinResExt.built (exactBlas ℂ V2) (matOp 2 1 1 2) x b p q 2).G 1 0 = 1 := by
    rw [g10, ← g01, e01]
    simp
  apply solve_two_noswap (exactBlas ℂ V2) _ _ _ _ hf
  · rw [e00, e11]
    exact lt_irrefl _
  · rw [e00]
    norm_num
  · rw [e00, e11, e01, e10]
    norm_num

/-- The five stages on the standard basis of `ℂ²` and the operator `diag(1, 2)`: the row swap
of step `0` brings a zero into the pivot position and the elimination divides by it. -/
theorem toy_run_1002 (x b : V2) (q : ℕ → V2) :
    (pivotStep (exactBlas ℂ V2) 2 0
      (MinResExt.built (exactBlas ℂ V2) (matOp 1 0 0 2) x b
        (pair (vec2 1 0) (vec2 0 1)) q 2)).G 0 0 = 0 ∧
    (MinResExt.run (exactBlas ℂ V2) (matOp 1 0 0 2) x b
      (pair (vec2 1 0) (vec2 0 1)) q 2).nonFinite = true ∧
    (∀ r, r < 2 → (MinResExt.run (exactBlas ℂ V2) (matOp 1 0 0 2) x b
      (pair (vec2 1 0) (vec2 0 1)) q 2).alpha r = 0) ∧
    (MinResExt.run (exactBlas ℂ V2) (matOp 1 0 0 2) x b
      (pair (vec2 1 0) (vec2 0 1)) q 2).x = 0 := by
  obtain ⟨g00, g01, g10, g11, b0, b1, hf⟩ := toy_built 1 0 0 2 x b q
  simp only [Complex.one_re, Complex.ofReal_one, map_zero] at g00 g01 g10 g11
  have g11' : (MinResExt.built (exactBlas ℂ V2) (matOp 1 0 0 2) x b
      (pair (vec2 1 0) (vec2 0 1)) q 2).G 1 1 = 2 := by
    rw [g11]
    norm_num
  set B := MinResExt.built (exactBlas ℂ V2) (matOp 1 0 0 2) x b
    (pair (vec2 1 0) (vec2 0 1)) q 2 with hB
  have hk : pivotRow (exactBlas ℂ V2) 2 0 B.G = 1 := by
    rw [pivotRow_two, g00, g11']
    simp
  have hpiv : (pivotStep (exactBlas ℂ V2) 2 0 B).G 0 0 = 0 := by
    rw [pivotStep_G, hk]
    simp [g10]
  have hT11 : (pivotStep (exactBlas ℂ V2) 2 0 B).G 1 1 = 0 := by
    rw [pivotStep_G, hk]
    simp [g01]
  have hU00 : (eliminate (exactBlas ℂ V2) 2 B).G 0 0 = 0 := by
    rw [eliminate_two, elimRow_G 2 0 1 (by norm_num)]
    simp [hpiv]
  have hU11 : (eliminate (exactBlas ℂ V2) 2 B).G 1 1 = 0 := by
    rw [eliminate_two, elimRow_G 2 0 1 (by norm_num)]
    simp [hpiv, hT11]
  have hUf : (eliminate (exactBlas ℂ V2) 2 B).nonFinite = true := by
    rw [eliminate_two, elimRow_nonFinite, hpiv]
    simp
  obtain ⟨_, _, _, _, _, _, _, _, hrec⟩ :=
    backSubstitute_spec (exactBlas ℂ V2) 2 (eliminate (exactBlas ℂ V2) 2 B)
  have hα : ∀ r, r < 2 → (MinResExt.run (exactBlas ℂ V2) (matOp 1 0 0 2) x b
      (pair (vec2 1 0) (vec2 0 1)) q 2).alpha r = 0 := by
    intro r hr
    change (backSubstitute (exactBlas ℂ V2) 2 (eliminate (exactBlas ℂ V2) 2 B)).alpha r = 0
    rw [hrec r hr]
    unfold backValue
    interval_cases r
    · rw [hU00, div_zero]
    · rw [hU11, div_zero]
  refine ⟨hpiv, backSubstitute_nonFinite_of (exactBlas ℂ V2) 2 _ hUf, hα, ?_⟩
  rw [(exact_run_xb (K := ℂ) (matOp 1 0 0 2) x b (pair (vec2 1 0) (vec2 0 1)) q 2).1]
  apply Finset.sum_eq_zero
  intro r hr
  rw [hα r (Finset.mem_range.mp hr), zero_smul]

/-- The same system with the two trial vectors in the other order: no row is swapped, no
division by zero occurs, and for `b = (1, 2)` the guess is `(1, 1)`. -/
theorem toy_run_1002_swapped (x : V2) (q : ℕ → V2) :
    (MinResExt.run (exactBlas ℂ V2) (matOp 1 0 0 2) x (vec2 1 2)
      (reorder 2 (Equiv.swap 0 1) (pair (vec2 1 0) (vec2 0 1))) q 2).nonFinite = false ∧
    (MinResExt.run (exactBlas ℂ V2) (matOp 1 0 0 2) x (vec2 1 2)
      (reorder 2 (Equiv.swap 0 1) (pair (vec2 1 0) (vec2 0 1))) q 2).x = vec2 1 1 := by
  have hp0 : reorder 2 (Equiv.swap 0 1) (pair (vec2 1 0) (vec2 0 1)) 0 = vec2 0 1 :=
    reorder_swap_zero _
  have hp1 : reorder 2 (Equiv.swap 0 1) (pair (vec2 1 0) (vec2 0 1)) 1 = vec2 1 0 :=
    reorder_swap_one _
  obtain ⟨hP, g00, g01, g10, g11, b0, b1, hf⟩ :=
    built_two (K := ℂ) (matOp 1 0 0 2) x (vec2 1 2)
      (reorder 2 (Equiv.swap 0 1) (pair (vec2 1 0) (vec2 0 1))) q
      (by rw [hp0]; exact norm_vec2_zero_one) (by rw [hp1]; exact norm_vec2_one_zero)
      (by rw [hp0, hp1, vec2_inner]; simp)
  simp only [hp0, hp1, matOp_vec2, vec2_inner] at g00 g01 g10 g11 b0 b1
  have e00 : (MinResExt.built (exactBlas ℂ V2) (matOp 1 0 0 2) x (vec2 1 2)
      (reorder 2 (Equiv.swap 0 1) (pair (vec2 1 0) (vec2 0 1))) q 2).G 0 0 = 2 := by
    rw [g00]
    simp
  have e11 : (MinResExt.built (exactBlas ℂ V2) (matOp 1 0 0 2) x (vec2 1 2)
      (reorder 2 (Equiv.swap 0 1) (pair (vec2 1 0) (vec2 0 1))) q 2).G 1 1 = 1 := by
    rw [g11]
    simp
  have e01 : (MinResExt.built (exactBlas ℂ V2) (matOp 1 0 0 2) x (vec2 1 2)
      (reorder 2 (Equiv.swap 0 1) (pair (vec2 1 0) (vec2 0 1))) q 2).G 0 1 = 0 := by
    rw [g01]
    simp
  have e10 : (MinResExt.built (exactBlas ℂ V2) (matOp 1 0 0 2) x (vec2 1 2)
      (reorder 2 (Equiv.swap 0 1) (pair (vec2 1 0) (vec2 0 1))) q 2).G 1 0 = 0 := by
    rw [g10]
    simp
  have eb0 : (MinResExt.built (exactBlas ℂ V2) (matOp 1 0 0 2) x (vec2 1 2)
      (reorder 2 (Equiv.swap 0 1) (pair (vec2 1 0) (vec2 0 1))) q 2).beta 0 = 2 := by
    rw [b0]
    simp
  have eb1 : (MinResExt.built (exactBlas ℂ V2) (matOp 1 0 0 2) x (vec2 1 2)
      (reorder 2 (Equiv.swap 0 1) (pair (vec2 1 0) (vec2 0 1))) q 2).beta 1 = 1 := by
    rw [b1]
    simp
  have hfin : (MinResExt.run (exactBlas ℂ V2) (matOp 1 0 0 2) x (vec2 1 2)
      (reorder 2 (Equiv.swap 0 1) (pair (vec2 1 0) (vec2 0 1))) q 2).nonFinite = false := by
    apply solve_two_noswap (exactBlas ℂ V2) _ _ _ _ hf
    · rw [e00, e11]
      simp
    · rw [e00]
      norm_num
    · rw [e00, e11, e01, e10]
      norm_num
  refine ⟨hfin, ?_⟩
  obtain ⟨hsol, _, _⟩ := run_solves (exactBlas ℂ V2) (matOp 1 0 0 2) x (vec2 1 2)
    (reorder 2 (Equiv.swap 0 1) (pair (vec2 1 0) (vec2 0 1))) q 2 hfin
  have s0 := hsol 0 (by norm_num)
  have s1 := hsol 1 (by norm_num)
  rw [Finset.sum_range_succ, Finset.sum_range_one, e00, e01, eb0] at s0
  rw [Finset.sum_range_succ, Finset.sum_range_one, e10, e11, eb1] at s1
  have hα0 : (MinResExt.run (exactBlas ℂ V2) (matOp 1 0 0 2) x (vec2 1 2)
      (reorder 2 (Equiv.swap 0 1) (pair (vec2 1 0) (vec2 0 1))) q 2).alpha 0 = 1 := by
    have h2 : (2 : ℂ) ≠ 0 := by norm_num
    apply mul_left_cancel₀ h2
    rw [mul_one]
    simpa using s0
  have hα1 : (MinResExt.run (exactBlas ℂ V2) (matOp 1 0 0 2) x (vec2 1 2)
      (reorder 2 (Equiv.swap 0 1) (pair (vec2 1 0) (vec2 0 1))) q 2).alpha 1 = 1 := by
    simpa using s1
  rw [(exact_run_xb (K := ℂ) (matOp 1 0 0 2) x (vec2 1 2)
    (reorder 2 (Equiv.swap 0 1) (pair (vec2 1 0) (vec2 0 1))) q 2).1,
    Finset.sum_range_succ, Finset.sum_range_one, hα0, hα1, hP, hp0, hp1, one_smul, one_smul,
    vec2_add]
  simp

section

variable {K V : Type} [RCLike K] [NormedAddCommGroup V] [InnerProductSpace K V]
  [DecidableEq K]

/-- Runs without a zero divisor do not depend on the order of the pairs: for a self-adjoint
operator, a linearly independent trial basis, a right-hand side `b` and a permutation `σ` of
`{0..N-1}`, the call on the original order and the call on the trial/image pairs reordered by
`σ` both return, and they return the same guess `x` when neither of them divided by zero. -/
theorem permuted_runs_agree (A : V →ₗ[K] V) (hsym : A.IsSymmetric)
    (x b : ColorSpinorField V) (p q : ℕ → ColorSpinorField V) (N : ℕ)
    (hx : x.location = QudaFieldLocation.QUDA_CUDA_FIELD_LOCATION)
    (hb : b.location = QudaFieldLocation.QUDA_CUDA_FIELD_LOCATION)
    (hli : LinearIndependent K (fun a : Fin N => (p a).data))
    (σ : Equiv.Perm (Fin N)) :
    ∃ s1 s2,
      MinResExt.operator (exactBlas K V) A x b p q N = Except.ok s1 ∧
      MinResExt.operator (exactBlas K V) A x b (reorder N σ p) (reorder N σ q) N =
        Except.ok s2 ∧
      (s1.nonFinite = false → s2.nonFinite = false → s1.x = s2.x) := by
  by_cases hN : N = 0
  · subst hN
    exact ⟨_, _, operator_zero (exactBlas K V) A x b p q hx hb,
      operator_zero (exactBlas K V) A x b _ _ hx hb, fun _ _ => rfl⟩
  · refine ⟨_, _, operator_eq_run (exactBlas K V) A x b p q N hx hb hN,
      operator_eq_run (exactBlas K V) A x b _ _ N hx hb hN, ?_⟩
    intro hf1 hf2
    rw [reorder_data] at hf2 ⊢
    have hind := not_mem_spanBelow_of_linearIndependent N (fun i => (p i).data) hli
    have hind' := not_mem_spanBelow_of_linearIndependent N
      (reorder N σ (fun i => (p i).data))
      (linearIndependent_reorder N σ (fun i => (p i).data) hli)
    exact exact_run_same_span A hsym x.data x.data b.data _ _ _ _ N hind hind'
      (spanBelow_reorder N σ _) hf1 hf2

end

theorem norm_vec2_lt (a b c d : ℂ) (h : ‖a‖ ^ 2 + ‖b‖ ^ 2 < ‖c‖ ^ 2 + ‖d‖ ^ 2) :
    ¬ ‖vec2 c d‖ ≤ ‖vec2 a b‖ := by
  rw [vec2_norm, vec2_norm, not_le]
  exact Real.sqrt_lt_sqrt (by positivity) h

theorem linearIndependent_pair_vec2 :
    LinearIndependent ℂ (fun a : Fin 2 => pair (vec2 1 0) (vec2 1 1) a) := by
  have e : (fun a : Fin 2 => pair (vec2 1 0) (vec2 1 1) a) = ![vec2 1 0, vec2 1 1] := by
    funext a
    fin_cases a <;> rfl
  rw [e, LinearIndependent.pair_iff]
  intro s t h
  rw [vec2_smul, vec2_smul, vec2_add, ← vec2_zero_zero, vec2_eq_iff] at h
  obtain ⟨h1, h2⟩ := h
  simp only [mul_one, mul_zero, zero_add] at h1 h2
  subst h2
  simpa using h1

/-- The operator `[[2, 1], [1, 2]]` on `ℂ²`, the standard basis in both orders and `b = (3, 3)`:
neither call divides by zero and both return the same guess. -/
theorem permuted_runs_agree_example :
    ∃ s1 s2,
      MinResExt.operator (exactBlas ℂ V2) (matOp 2 1 1 2) (onDevice (vec2 0 0))
        (onDevice (vec2 3 3)) (fun i => onDevice (pair (vec2 1 0) (vec2 0 1) i))
        (fun _ => onDevice (vec2 0 0)) 2 = Except.ok s1 ∧
      MinResExt.operator (exactBlas ℂ V2) (matOp 2 1 1 2) (onDevice (vec2 0 0))
        (onDevice (vec2 3 3))
        (reorder 2 (Equiv.swap 0 1) (fun i => onDevice (pair (vec2 1 0) (vec2 0 1) i)))
        (reorder 2 (Equiv.swap 0 1) (fun _ => onDevice (vec2 0 0))) 2 = Except.ok s2 ∧
      s1.nonFinite = false ∧ s2.nonFinite = false ∧ s1.x = s2.x := by
  obtain ⟨s1, s2, hs1, hs2, h⟩ :=
    permuted_runs_agree (matOp 2 1 1 2) matOp_2112_isSymmetric
      (onDevice (vec2 0 0)) (onDevice (vec2 3 3))
      (fun i => onDevice (pair (vec2 1 0) (vec2 0 1) i)) (fun _ => onDevice (vec2 0 0)) 2
      rfl rfl linearIndependent_standard (Equiv.swap 0 1)
  have hop1 := operator_eq_run (exactBlas ℂ V2) (matOp 2 1 1 2) (onDevice (vec2 0 0))
    (onDevice (vec2 3 3)) (fun i => onDevice (pair (vec2 1 0) (vec2 0 1) i))
    (fun _ => onDevice (vec2 0 0)) 2 rfl rfl (by norm_num)
  have hop2 := operator_eq_run (exactBlas ℂ V2) (matOp 2 1 1 2) (onDevice (vec2 0 0))
    (onDevice (vec2 3 3))
    (reorder 2 (Equiv.swap 0 1) (fun i => onDevice (pair (vec2 1 0) (vec2 0 1) i)))
    (reorder 2 (Equiv.swap 0 1) (fun _ => onDevice (vec2 0 0))) 2 rfl rfl (by norm_num)
  have hf1 : s1.nonFinite = false := by
    rw [Except.ok.inj (hs1.symm.trans hop1)]
    exact toy_run_2112_nonFinite _ _ _ _ (Or.inl ⟨rfl, rfl⟩)
  have hf2 : s2.nonFinite = false := by
    rw [Except.ok.inj (hs2.symm.trans hop2)]
    refine toy_run_2112_nonFinite _ _ _ _ (Or.inr ⟨?_, ?_⟩)
    · change (reorder 2 (Equiv.swap 0 1)
        (fun i => onDevice (pair (vec2 1 0) (vec2 0 1) i)) 0).data = vec2 0 1
      rw [reorder_swap_zero]
      rfl
    · change (reorder 2 (Equiv.swap 0 1)
        (fun i => onDevice (pair (vec2 1 0) (vec2 0 1) i)) 1).data = vec2 1 0
      rw [reorder_swap_one]
      rfl
  exact ⟨s1, s2, hs1, hs2, hf1, hf2, h hf1 hf2⟩

theorem wrapInt_of_range (z : Int) (h0 : 0 ≤ z) (h1 : z < 2 ^ 31) : wrapInt z = z := by
  unfold wrapInt
  omega

theorem MAX_eq_max (a b : Int) : MAX a b = max a b := by
  unfold MAX
  split_ifs with h
  · exact (max_eq_left (le_of_lt h)).symm
  · exact (max_eq_right (not_lt.mp h)).symm

theorem setGaugeParam_multi (X0 X1 X2 X3 : Int) (g : QudaGaugeParam)
    (h0 : 0 ≤ X0) (h1 : 0 ≤ X1) (h2 : 0 ≤ X2) (h3 : 0 ≤ X3)
    (h01 : X0 * X1 < 2 ^ 31) (h02 : X0 * X2 < 2 ^ 31) (h12 : X1 * X2 < 2 ^ 31)
    (h123 : X1 * X2 * X3 < 2 ^ 31) (h023 : X0 * X2 * X3 < 2 ^ 31)
    (h013 : X0 * X1 * X3 < 2 ^ 31) (h012 : X0 * X1 * X2 < 2 ^ 31) :
    (setGaugeParam true X0 X1 X2 X3 g).ga_pad =
      max (max (max (X1 * X2 * X3 / 2) (X0 * X2 * X3 / 2)) (X0 * X1 * X3 / 2))
        (X0 * X1 * X2 / 2) := by
  have e01 := wrapInt_of_range (X0 * X1) (mul_nonneg h0 h1) h01
  have e02 := wrapInt_of_range (X0 * X2) (mul_nonneg h0 h2) h02
  have e12 := wrapInt_of_range (X1 * X2) (mul_nonneg h1 h2) h12
  have e123 := wrapInt_of_range (X1 * X2 * X3) (mul_nonneg (mul_nonneg h1 h2) h3) h123
  have e023 := wrapInt_of_range (X0 * X2 * X3) (mul_nonneg (mul_nonneg h0 h2) h3) h023
  have e013 := wrapInt_of_range (X0 * X1 * X3) (mul_nonneg (mul_nonneg h0 h1) h3) h013
  have e012 := wrapInt_of_range (X0 * X1 * X2) (mul_nonneg (mul_nonneg h0 h1) h2) h012
  have d123 : Int.tdiv (X1 * X2 * X3) 2 = X1 * X2 * X3 / 2 :=
    Int.tdiv_eq_ediv (mul_nonneg (mul_nonneg h1 h2) h3) (by norm_num)
  have d023 : Int.tdiv (X0 * X2 * X3) 2 = X0 * X2 * X3 / 2 :=
    Int.tdiv_eq_ediv (mul_nonneg (mul_nonneg h0 h2) h3) (by norm_num)
  have d013 : Int.tdiv (X0 * X1 * X3) 2 = X0 * X1 * X3 / 2 :=
    Int.tdiv_eq_ediv (mul_nonneg (mul_nonneg h0 h1) h3) (by norm_num)
  have d012 : Int.tdiv (X0 * X1 * X2) 2 = X0 * X1 * X2 / 2 :=
    Int.tdiv_eq_ediv (mul_nonneg (mul_nonneg h0 h1) h2) (by norm_num)
  simp only [setGaugeParam, if_true, Matrix.cons_val_zero, Matrix.cons_val_one,
    Matrix.head_cons, Matrix.cons_val_two, Matrix.tail_cons, Matrix.cons_val_three,
    e01, e02, e12, e123, e023, e013, e012, d123, d023, d013, d012, MAX_eq_max]

section

variable {R K V : Type} [LinearOrderedField R] [Field K] [DecidableEq K]

theorem Location_eq_cuda_iff (x b : ColorSpinorField V) :
    Location x b = QudaFieldLocation.QUDA_CUDA_FIELD_LOCATION ↔
      x.location = QudaFieldLocation.QUDA_CUDA_FIELD_LOCATION ∧
        b.location = QudaFieldLocation.QUDA_CUDA_FIELD_LOCATION := by
  unfold Location
  constructor
  · intro h
    split_ifs at h with e
    · exact ⟨h, e ▸ h⟩
  · rintro ⟨hx, hb⟩
    rw [hx, hb, if_pos rfl]

theorem operator_error_iff (E : Blas R K V) (mat : V → V) (x b : ColorSpinorField V)
    (p q : ℕ → ColorSpinorField V) (N : ℕ) :
    (∃ e, MinResExt.operator E mat x b p q N = Except.error e) ↔
      Location x b ≠ QudaFieldLocation.QUDA_CUDA_FIELD_LOCATION := by
  unfold MinResExt.operator
  constructor
  · rintro ⟨e, h⟩ hl
    rw [if_neg (fun h => h hl)] at h
    split_ifs at h
  · intro hl
    exact ⟨"Not supported", if_pos hl⟩

end

section

variable {K V : Type} [RCLike K] [NormedAddCommGroup V] [InnerProductSpace K V]
  [DecidableEq K]

/-- The state before step `m` of the orthonormalisation loop, for every input: each vector not
yet normalised differs from the original one by a combination of the originals before `m`,
each vector already normalised is a combination of the originals up to its own index. -/
theorem exact_ortho_upto (N m : ℕ) (hm : m ≤ N) (s : MREState ℝ K V) :
    (∀ c, m ≤ c →
      (forRange 0 m (orthoStep (exactBlas K V) N) s).p c - s.p c ∈ spanBelow K s.p m) ∧
    (∀ c, c < m →
      (forRange 0 m (orthoStep (exactBlas K V) N) s).p c ∈ spanBelow K s.p (c + 1)) ∧
    (∀ c, s.p c = 0 → m ≤ c → (forRange 0 m (orthoStep (exactBlas K V) N) s).p c = 0) := by
  refine forRange_inv (fun i (t : MREState ℝ K V) =>
    (∀ c, i ≤ c → t.p c - s.p c ∈ spanBelow K s.p i) ∧
    (∀ c, c < i → t.p c ∈ spanBelow K s.p (c + 1)) ∧
    (∀ c, s.p c = 0 → i ≤ c → t.p c = 0))
    (orthoStep (exactBlas K V) N) 0 m s (Nat.zero_le _) ?_ ?_
  · refine ⟨?_, ?_, ?_⟩
    · intro c _
      rw [sub_self]
      exact Submodule.zero_mem _
    · intro c hc
      omega
    · intro c hc _
      exact hc
  · intro i t _ hi ⟨hC1, hC2, hZ⟩
    set u : V := (((1 / ‖t.p i‖ : ℝ)) : K) • t.p i with hu
    have hpi : (orthoStep (exactBlas K V) N i t).p i = u := by
      rw [exact_orthoStep_p, if_pos rfl]
    have hlt : ∀ r, r < i → (orthoStep (exactBlas K V) N i t).p r = t.p r := by
      intro r hr
      rw [exact_orthoStep_p, if_neg (by omega), if_neg (by omega)]
    have hgt : ∀ r, i < r → r < N →
        (orthoStep (exactBlas K V) N i t).p r = t.p r - (inner u (t.p r) : K) • u := by
      intro r hr hrN
      rw [exact_orthoStep_p, if_neg (by omega), if_pos ⟨hr, hrN⟩]
    have hge : ∀ r, N ≤ r → (orthoStep (exactBlas K V) N i t).p r = t.p r := by
      intro r hr
      rw [exact_orthoStep_p, if_neg (by omega), if_neg (by omega)]
    have hpis : t.p i ∈ spanBelow K s.p (i + 1) := by
      have h1 := hC1 i le_rfl
      have h2 : s.p i ∈ spanBelow K s.p (i + 1) := mem_spanBelow s.p (Nat.lt_succ_self i)
      have h3 := Submodule.add_mem _ (spanBelow_mono s.p (Nat.le_succ i) h1) h2
      rwa [sub_add_cancel] at h3
    have hus : u ∈ spanBelow K s.p (i + 1) := Submodule.smul_mem _ _ hpis
    refine ⟨?_, ?_, ?_⟩
    · intro c hc
      by_cases hcN : c < N
      · rw [hgt c (by omega) hcN]
        have h1 := spanBelow_mono s.p (Nat.le_succ i) (hC1 c (by omega))
        have h2 := Submodule.smul_mem _ (inner u (t.p c) : K) hus
        have h3 := Submodule.sub_mem _ h1 h2
        have e : t.p c - (inner u (t.p c) : K) • u - s.p c =
            t.p c - s.p c - (inner u (t.p c) : K) • u := by abel
        rw [e]
        exact h3
      · rw [hge c (by omega)]
        exact spanBelow_mono s.p (Nat.le_succ i) (hC1 c (by omega))
    · intro c hc
      rcases Nat.lt_succ_iff_lt_or_eq.mp hc with h | h
      · rw [hlt c h]
        exact hC2 c h
      · rw [h, hpi]
        exact hus
    · intro c hc0 hc
      have h0 := hZ c hc0 (by omega)
      by_cases hcN : c < N
      · rw [hgt c (by omega) hcN, h0, inner_zero_right, zero_smul, sub_zero]
      · rw [hge c (by omega)]
        exact h0

/-- For every input the orthonormalised vector of index `c` is a combination of the original
vectors of index at most `c`. -/
theorem exact_orthonormalise_mem (N : ℕ) (s : MREState ℝ K V) (c : ℕ) (hc : c < N) :
    (orthonormalise (exactBlas K V) N s).p c ∈ spanBelow K s.p (c + 1) :=
  (exact_ortho_upto N N le_rfl s).2.1 c hc

/-- Once raised, the flag stays raised through the orthonormalisation loop. -/
theorem ortho_flag_mono (E : Blas ℝ K V) (N m n : ℕ) (hmn : m ≤ n) (s : MREState ℝ K V)
    (h : (forRange 0 m (orthoStep E N) s).nonFinite = true) :
    (forRange 0 n (orthoStep E N) s).nonFinite = true := by
  induction n with
  | zero =>
    have : m = 0 := by omega
    subst this
    exact h
  | succ n ih =>
    rcases Nat.lt_succ_iff_lt_or_eq.mp (Nat.lt_succ_of_le hmn) with h1 | h1
    · rw [forRange_succ_last 0 n _ s (Nat.zero_le _), orthoStep_nonFinite,
        ih (by omega), Bool.true_or]
    · subst h1
      exact h

/-- Under linear independence the vector normalised at step `i` is not zero. -/
theorem exact_ortho_step_ne_zero (N : ℕ) (s : MREState ℝ K V)
    (hind : ∀ i, i < N → s.p i ∉ spanBelow K s.p i) (i : ℕ) (hi : i < N) :
    (forRange 0 i (orthoStep (exactBlas K V) N) s).p i ≠ 0 := by
  intro h0
  have h1 := (exact_ortho_upto N i (le_of_lt hi) s).1 i le_rfl
  rw [h0, zero_sub, Submodule.neg_mem_iff] at h1
  exact hind i hi h1

/-- A zero vector at step `i` raises the flag of the whole loop. -/
theorem exact_ortho_zero_flag (N : ℕ) (s : MREState ℝ K V) (i : ℕ) (hi : i < N)
    (h0 : (forRange 0 i (orthoStep (exactBlas K V) N) s).p i = 0) :
    (orthoStep (exactBlas K V) N i
        (forRange 0 i (orthoStep (exactBlas K V) N) s)).nonFinite = true ∧
      (orthonormalise (exactBlas K V) N s).nonFinite = true := by
  have h1 : (orthoStep (exactBlas K V) N i
      (forRange 0 i (orthoStep (exactBlas K V) N) s)).nonFinite = true := by
    rw [orthoStep_nonFinite, h0]
    simp
  refine ⟨h1, ?_⟩
  unfold orthonormalise
  apply ortho_flag_mono (exactBlas K V) N (i + 1) N hi s
  rw [forRange_succ_last 0 i _ s (Nat.zero_le _)]
  exact h1

end

section

variable {R K V : Type} [LinearOrderedField R] [Field K] [DecidableEq K]

/-- An elimination step leaves the rows up to the pivot row as the swap left them. -/
theorem elimStep_row_le (E : Blas R K V) (N i : ℕ) (s : MREState R K V) (r c : ℕ)
    (hr : r ≤ i) : (elimStep E N i s).G r c = (pivotStep E N i s).G r c := by
  by_cases h : i + 1 ≤ N
  · obtain ⟨hG, _⟩ := elimRows_closed N i N h (pivotStep E N i s)
    change (forRange (i + 1) N (elimRow N i) (pivotStep E N i s)).G r c = _
    rw [hG, if_neg (by omega)]
  · unfold elimStep
    rw [forRange_of_le _ _ _ _ (by omega)]

/-- The swap of step `i` leaves the rows before `i` alone. -/
theorem pivotStep_row_lt (E : Blas R K V) (N i : ℕ) (s : MREState R K V) (r c : ℕ)
    (hr : r < i) : (pivotStep E N i s).G r c = s.G r c := by
  obtain ⟨hk1, _⟩ := pivotRow_bounds E N i s.G
  rw [pivotStep_G]
  split_ifs with h1 h2 h3
  · omega
  · omega
  · rfl
  · rfl

/-- Row `r` is final once step `r` has swapped: later steps do not touch it. -/
theorem elim_upto_row (E : Blas R K V) (N : ℕ) (s : MREState R K V) (r c m : ℕ)
    (hm : r < m) :
    (forRange 0 m (elimStep E N) s).G r c =
      (pivotStep E N r (forRange 0 r (elimStep E N) s)).G r c := by
  induction m with
  | zero => omega
  | succ m ih =>
    rw [forRange_succ_last 0 m _ s (Nat.zero_le _)]
    rcases Nat.lt_succ_iff_lt_or_eq.mp hm with h | h
    · rw [elimStep_row_le E N m _ r c (by omega), pivotStep_row_lt E N m _ r c h, ih h]
    · subst h
      rw [elimStep_row_le E N r _ r c le_rfl]

/-- The diagonal entry the back-substitution divides by at row `r` is the pivot of step `r`. -/
theorem eliminate_diag (E : Blas R K V) (N : ℕ) (s : MREState R K V) (r : ℕ) (hr : r < N) :
    (eliminate E N s).G r r = (pivotStep E N r (forRange 0 r (elimStep E N) s)).G r r :=
  elim_upto_row E N s r r N hr

/-- With non-zero pivots the elimination loop raises no flag. -/
theorem eliminate_nonFinite_of_pivots (E : Blas R K V) (N : ℕ) (s : MREState R K V)
    (hs : s.nonFinite = false) (hp : PivotsNonzero E N s) :
    (eliminate E N s).nonFinite = false := by
  have key : ∀ m, m ≤ N → (forRange 0 m (elimStep E N) s).nonFinite = false := by
    intro m
    induction m with
    | zero =>
      intro _
      exact hs
    | succ m ih =>
      intro hm
      rw [forRange_succ_last 0 m _ s (Nat.zero_le _), elimStep_nonFinite, ih (by omega)]
      have := hp m (by omega)
      simp [this]
  exact key N le_rfl

/-- With non-zero pivots the elimination loop leaves an upper triangular matrix, whatever the
flag says on entry. -/
theorem eliminate_upper_of_pivots (E : Blas R K V) (N : ℕ) (s : MREState R K V)
    (hp : PivotsNonzero E N s) : UpperTriangular N (eliminate E N s).G := by
  have key := forRange_inv (fun i (t : MREState R K V) =>
    t = forRange 0 i (elimStep E N) s ∧ ∀ r c, c < i → c < r → r < N → t.G r c = 0)
    (elimStep E N) 0 N s (Nat.zero_le _) ?_ ?_
  · intro r c hc hr
    exact key.2 r c (by omega) hc hr
  · exact ⟨rfl, fun r c hc => absurd hc (Nat.not_lt_zero c)⟩
  · intro i t _ hi ⟨ht, hz⟩
    refine ⟨?_, ?_⟩
    · rw [forRange_succ_last 0 i _ s (Nat.zero_le _), ← ht]
    obtain ⟨hk1, hk2⟩ := pivotRow_bounds E N i t.G
    have hk := hk2 hi
    have hz1 : ∀ r c, c < i → c < r → r < N → (pivotStep E N i t).G r c = 0 := by
      intro r c hc hcr hr
      rw [pivotStep_G, if_pos (by omega)]
      split_ifs with h1 h2
      · exact hz _ c hc (by omega) hk
      · exact hz _ c hc hc hi
      · exact hz r c hc hcr hr
    obtain ⟨hG, _⟩ := elimRows_closed N i N (by omega) (pivotStep E N i t)
    intro r c hc hcr hr
    change (forRange (i + 1) N (elimRow N i) (pivotStep E N i t)).G r c = 0
    rw [hG]
    by_cases hir : i < r
    · rw [if_pos ⟨hir, hr, by omega⟩]
      rcases Nat.lt_succ_iff_lt_or_eq.mp hc with h | h
      · rw [hz1 r c h hcr hr, hz1 i c h h hi]
        ring
      · subst h
        have hp1 : (pivotStep E N c t).G c c ≠ 0 := by
          rw [ht]
          exact hp c hi
        field_simp
    · rw [if_neg (fun h => hir h.1)]
      exact hz1 r c (by omega) hcr hr

/-- With non-zero pivots the coefficients of the back-substitution solve the original system,
and nothing else does. -/
theorem solves_of_pivots (E : Blas R K V) (N : ℕ) (s : MREState R K V)
    (hp : PivotsNonzero E N s) :
    UpperTriangular N (eliminate E N s).G ∧
    (∀ r, r < N → (eliminate E N s).G r r ≠ 0) ∧
    Solves N s.G s.beta (backSubstitute E N (eliminate E N s)).alpha ∧
    ∀ γ, Solves N s.G s.beta γ →
      ∀ r, r < N → γ r = (backSubstitute E N (eliminate E N s)).alpha r := by
  have hU := eliminate_upper_of_pivots E N s hp
  have hd : ∀ r, r < N → (eliminate E N s).G r r ≠ 0 := by
    intro r hr
    rw [eliminate_diag E N s r hr]
    exact hp r hr
  obtain ⟨_, _, _, _, _, _, _, _, hrec⟩ := backSubstitute_spec E N (eliminate E N s)
  have h1 : Solves N (eliminate E N s).G (eliminate E N s).beta
      (backSubstitute E N (eliminate E N s)).alpha :=
    solves_of_backValue N _ _ _ hU hd hrec
  refine ⟨hU, hd, (eliminate_solves E N s _).mp h1, ?_⟩
  intro γ hγ r hr
  exact solves_unique N _ _ _ _ hU hd ((eliminate_solves E N s γ).mpr hγ) h1 r hr

/-- Entered with the flag down, the solver ends with the flag down exactly when every pivot is
non-zero. -/
theorem solver_nonFinite_iff_pivots (E : Blas R K V) (N : ℕ) (s : MREState R K V)
    (hs : s.nonFinite = false) :
    (backSubstitute E N (eliminate E N s)).nonFinite = false ↔ PivotsNonzero E N s := by
  rw [solver_nonFinite]
  constructor
  · rintro ⟨_, hd⟩ i hi
    rw [← eliminate_diag E N s i hi]
    exact hd i hi
  · intro hp
    refine ⟨eliminate_nonFinite_of_pivots E N s hs hp, ?_⟩
    intro r hr
    rw [eliminate_diag E N s r hr]
    exact hp r hr

end

section

variable {K V : Type} [RCLike K] [NormedAddCommGroup V] [InnerProductSpace K V]
  [DecidableEq K]

/-- The run divides by no zero when the trial vectors are linearly independent and every
pivot of the elimination is non-zero. -/
theorem exact_run_nonFinite_of_pivots (mat : V → V) (x b : V) (p q : ℕ → V) (N : ℕ)
    (hli : LinearIndependent K (fun a : Fin N => p a))
    (hpiv : PivotsNonzero (exactBlas K V) N (MinResExt.built (exactBlas K V) mat x b p q N)) :
    (MinResExt.run (exactBlas K V) mat x b p q N).nonFinite = false := by
  have hind := not_mem_spanBelow_of_linearIndependent N p hli
  have hb0 : (MinResExt.built (exactBlas K V) mat x b p q N).nonFinite = false := by
    rw [(built_spec (exactBlas K V) mat x b p q N).2.2.2.2.2.2.2.2.2,
      (exact_orthonormalise_spec N (MinResExt.entry x b p q) hind).1]
    rfl
  rw [(run_fields (exactBlas K V) mat x b p q N).2.2.2.2.2.2.2.1]
  exact (solver_nonFinite_iff_pivots (exactBlas K V) N _ hb0).mpr hpiv

end

/-- The elimination on the reduced system of `[[2, 1], [1, 2]]` and the standard basis meets
no zero pivot. -/
theorem toy_2112_pivots (x b : V2) (q : ℕ → V2) :
    PivotsNonzero (exactBlas ℂ V2) 2
      (MinResExt.built (exactBlas ℂ V2) (matOp 2 1 1 2) x b (pair (vec2 1 0) (vec2 0 1)) q
        2) := by
  have hfin := toy_run_2112_nonFinite x b (pair (vec2 1 0) (vec2 0 1)) q (Or.inl ⟨rfl, rfl⟩)
  rw [(run_fields (exactBlas ℂ V2) (matOp 2 1 1 2) x b (pair (vec2 1 0) (vec2 0 1)) q
    2).2.2.2.2.2.2.2.1] at hfin
  exact (solver_nonFinite_iff_pivots (exactBlas ℂ V2) 2 _
    (solver_correct (exactBlas ℂ V2) 2 _ hfin).1).mp hfin

section

variable {R K V : Type} [LinearOrderedField R] [Field K] [DecidableEq K]

/-- Two runs of the same ascending loop keep a relation that every step keeps. -/
theorem forRange_rel {σ : Type} (Rel : ℕ → σ → σ → Prop) (body : ℕ → σ → σ) (lo hi : ℕ)
    (s s' : σ) (hle : lo ≤ hi) (h0 : Rel lo s s')
    (hstep : ∀ i t t', lo ≤ i → i < hi → Rel i t t' → Rel (i + 1) (body i t) (body i t')) :
    Rel hi (forRange lo hi body s) (forRange lo hi body s') := by
  revert hstep
  induction hi, hle using Nat.le_induction with
  | base =>
    intro _
    rw [forRange_of_le _ _ _ _ le_rfl, forRange_of_le _ _ _ _ le_rfl]
    exact h0
  | succ n hn ih =>
    intro hstep
    rw [forRange_succ_last lo n body s hn, forRange_succ_last lo n body s' hn]
    exact hstep n _ _ hn (Nat.lt_succ_self n)
      (ih (fun i t t' h1 h2 => hstep i t t' h1 (Nat.lt_succ_of_lt h2)))

/-- Two runs of the same descending loop keep a relation that every step keeps. -/
theorem forDown_rel {σ : Type} (Rel : ℕ → σ → σ → Prop) (body : ℕ → σ → σ) (n : ℕ) :
    ∀ (s s' : σ), Rel n s s' →
      (∀ i t t', i < n → Rel (i + 1) t t' → Rel i (body i t) (body i t')) →
      Rel 0 (forDown body n s) (forDown body n s') := by
  induction n with
  | zero =>
    intro s s' h _
    exact h
  | succ n ih =>
    intro s s' h hstep
    exact ih (body n s) (body n s') (hstep n s s' (Nat.lt_succ_self n) h)
      (fun i t t' hi => hstep i t t' (Nat.lt_succ_of_lt hi))

/-- The orthonormalisation neither reads nor writes `x` and the image vectors. -/
theorem orthonormalise_patch (E : Blas R K V) (N : ℕ) (t : MREState R K V) (a : V)
    (g : ℕ → V) :
    orthonormalise E N { t with x := a, q := g } =
      { orthonormalise E N t with x := a, q := g } := by
  unfold orthonormalise
  refine forRange_rel (fun _ (u u' : MREState R K V) => u' = { u with x := a, q := g })
    (orthoStep E N) 0 N t _ (Nat.zero_le _) rfl ?_
  intro i u u' _ _ h
  subst h
  rfl

/-- The stage applying the operator does not read `x`, and overwrites the image vectors below
`N` before anything reads them. -/
theorem buildRhs_patch (E : Blas R K V) (mat : V → V) (N : ℕ) (t : MREState R K V) (a : V)
    (g : ℕ → V) :
    ∃ g', buildRhs E mat N { t with x := a, q := g } =
        { buildRhs E mat N t with x := a, q := g' } ∧
      ∀ r, r < N → g' r = (buildRhs E mat N t).q r := by
  unfold buildRhs
  refine forRange_rel (fun i (u u' : MREState R K V) =>
    ∃ g', u' = { u with x := a, q := g' } ∧ ∀ r, r < i → g' r = u.q r)
    (buildStep E mat) 0 N t _ (Nat.zero_le _) ⟨g, rfl, fun r hr => absurd hr (Nat.not_lt_zero r)⟩
    ?_
  intro i u u' _ _ h
  obtain ⟨g', h1, h2⟩ := h
  subst h1
  refine ⟨Function.update g' i (mat (u.p i)), ?_, ?_⟩
  · unfold buildStep
    simp only [Function.update_same]
  · intro r hr
    unfold buildStep
    by_cases hri : r = i
    · subst hri
      simp only [Function.update_same]
    · simp only [Function.update_noteq hri]
      exact h2 r (by omega)

/-- The stage filling the matrix does not read `x`, and reads the image vectors below `N`
only. -/
theorem constructMatrix_patch (E : Blas R K V) (N : ℕ) (t : MREState R K V) (a : V)
    (g : ℕ → V) (hg : ∀ r, r < N → g r = t.q r) :
    constructMatrix E N { t with x := a, q := g } =
      { constructMatrix E N t with x := a, q := g } := by
  have hG : (constructMatrix E N { t with x := a, q := g }).G = (constructMatrix E N t).G := by
    funext r c
    rw [constructMatrix_G, constructMatrix_G]
    split_ifs with h1 h2
    · exact congrArg (E.cDotProduct (t.p r)) (hg c h1.2)
    · exact congrArg (fun v => E.conj (E.cDotProduct (t.p c) v)) (hg r h2.2)
    · rfl
  have e : constructMatrix E N { t with x := a, q := g } =
      { ({ t with x := a, q := g } : MREState R K V) with
        G := (constructMatrix E N { t with x := a, q := g }).G } := rfl
  rw [e, hG]
  rfl

theorem pivotStep_patch (E : Blas R K V) (N i : ℕ) (t : MREState R K V) (a : V)
    (g : ℕ → V) :
    pivotStep E N i { t with x := a, q := g } = { pivotStep E N i t with x := a, q := g } := by
  unfold pivotStep
  simp only
  split_ifs
  · rfl
  · rfl

theorem elimStep_patch (E : Blas R K V) (N i : ℕ) (t : MREState R K V) (a : V)
    (g : ℕ → V) :
    elimStep E N i { t with x := a, q := g } = { elimStep E N i t with x := a, q := g } := by
  unfold elimStep
  rw [pivotStep_patch]
  by_cases h : i + 1 ≤ N
  · refine forRange_rel (fun _ (u u' : MREState R K V) => u' = { u with x := a, q := g })
      (elimRow N i) (i + 1) N (pivotStep E N i t) _ h rfl ?_
    intro j u u' _ _ hu
    subst hu
    rfl
  · rw [forRange_of_le _ _ _ _ (by omega), forRange_of_le _ _ _ _ (by omega)]

/-- The elimination neither reads nor writes `x` and the image vectors. -/
theorem eliminate_patch (E : Blas R K V) (N : ℕ) (t : MREState R K V) (a : V) (g : ℕ → V) :
    eliminate E N { t with x := a, q := g } = { eliminate E N t with x := a, q := g } := by
  unfold eliminate
  refine forRange_rel (fun _ (u u' : MREState R K V) => u' = { u with x := a, q := g })
    (elimStep E N) 0 N t _ (Nat.zero_le _) rfl ?_
  intro i u u' _ _ h
  subst h
  exact elimStep_patch E N i u a g

/-- The back-substitution overwrites `x` before reading it, and reads the image vectors below
`N` only. -/
theorem backSubstitute_patch (E : Blas R K V) (N : ℕ) (t : MREState R K V) (a : V)
    (g : ℕ → V) (hz : E.zero a = E.zero t.x) (hg : ∀ r, r < N → g r = t.q r) :
    backSubstitute E N { t with x := a, q := g } = { backSubstitute E N t with q := g } := by
  unfold backSubstitute
  have h := forDown_rel (fun _ (u u' : MREState R K V) => u' = { u with q := g } ∧ u.q = t.q)
    (backStep E N) N { t with x := E.zero t.x }
    { ({ t with x := a, q := g } : MREState R K V) with x := E.zero a } ?_ ?_
  · exact h.1
  · refine ⟨?_, rfl⟩
    rw [hz]
  · intro i u u' hi ⟨h1, h2⟩
    subst h1
    refine ⟨?_, h2⟩
    have e : g i = u.q i := by
      rw [h2]
      exact hg i hi
    unfold backStep
    simp only [e]

/-- Two runs that differ only in the initial `x` and image vectors end in states that differ
at most in the image vectors of index `N` and above. -/
theorem run_patch (E : Blas R K V) (mat : V → V) (x x' b : V) (p q q' : ℕ → V) (N : ℕ)
    (hz : E.zero x' = E.zero x) :
    ∃ g, MinResExt.run E mat x' b p q' N = { MinResExt.run E mat x b p q N with q := g } ∧
      ∀ r, r < N → g r = (MinResExt.run E mat x b p q N).q r := by
  have e0 : (MinResExt.entry x' b p q' : MREState R K V) =
      { (MinResExt.entry x b p q : MREState R K V) with x := x', q := q' } := rfl
  obtain ⟨g, hg1, hg2⟩ := buildRhs_patch E mat N (orthonormalise E N (MinResExt.entry x b p q))
    x' q'
  have hcq : (constructMatrix E N (buildRhs E mat N
      (orthonormalise E N (MinResExt.entry x b p q)))).q =
      (buildRhs E mat N (orthonormalise E N (MinResExt.entry x b p q))).q :=
    (constructMatrix_frame E N _).2.2.2.1
  have hbuilt : MinResExt.built E mat x' b p q' N =
      { MinResExt.built E mat x b p q N with x := x', q := g } := by
    unfold MinResExt.built
    rw [e0, orthonormalise_patch, hg1, constructMatrix_patch E N _ x' g hg2]
  have hgq : ∀ r, r < N → g r = (eliminate E N (MinResExt.built E mat x b p q N)).q r := by
    intro r hr
    rw [(eliminate_frame E N _).2.2.2.1]
    unfold MinResExt.built
    rw [hcq]
    exact hg2 r hr
  have hx0 : (eliminate E N (MinResExt.built E mat x b p q N)).x = x := by
    rw [(eliminate_frame E N _).1]
    exact (built_spec E mat x b p q N).2.2.2.2.1
  refine ⟨g, ?_, ?_⟩
  · unfold MinResExt.run
    simp only
    rw [hbuilt, eliminate_patch, backSubstitute_patch E N _ x' g (by rw [hz, hx0]) hgq]
  · intro r hr
    rw [(run_fields E mat x b p q N).2.1, hgq r hr, (eliminate_frame E N _).2.2.2.1]

/-- Two states with equal fields are equal. -/
theorem state_eq_of_fields (s t : MREState R K V) (h1 : s.x = t.x) (h2 : s.b = t.b)
    (h3 : s.p = t.p) (h4 : s.q = t.q) (h5 : s.G = t.G) (h6 : s.alpha = t.alpha)
    (h7 : s.beta = t.beta) (h8 : s.rsd = t.rsd) (h9 : s.matCalls = t.matCalls)
    (h10 : s.swaps = t.swaps) (h11 : s.nonFinite = t.nonFinite) : s = t := by
  cases s
  cases t
  simp_all

end

section

variable {K V : Type} [RCLike K] [NormedAddCommGroup V] [InnerProductSpace K V]
  [DecidableEq K]

/-- Normalising `c v` with `c > 0` gives the same vector as normalising `v`, also when `v` is
zero and the scale factor is the quotient by zero. -/
theorem scaled_normalise (c : ℝ) (hc : 0 < c) (v : V) :
    (((1 / ‖((c : ℝ) : K) • v‖ : ℝ)) : K) • (((c : ℝ) : K) • v) =
      (((1 / ‖v‖ : ℝ)) : K) • v := by
  by_cases hv : v = 0
  · subst hv
    simp
  · have hn : ‖v‖ ≠ 0 := by rwa [Ne, norm_eq_zero]
    rw [norm_smul, RCLike.norm_ofReal, abs_of_pos hc, smul_smul, ← RCLike.ofReal_mul]
    congr 2
    field_simp

theorem scaled_norm_eq_zero (c : ℝ) (hc : 0 < c) (v : V) :
    ‖((c : ℝ) : K) • v‖ = 0 ↔ ‖v‖ = 0 := by
  rw [norm_smul, RCLike.norm_ofReal, abs_of_pos hc, mul_eq_zero]
  constructor
  · rintro (h | h)
    · exact absurd h (ne_of_gt hc)
    · exact h
  · intro h
    exact Or.inr h

/-- The orthonormalisation loop on two families that differ in the vector of index `j < N`
by a factor `c > 0`: same orthonormalised vectors, same flag. -/
theorem orthonormalise_scaled (N j : ℕ) (hj : j < N) (c : ℝ) (hc : 0 < c)
    (s s' : MREState ℝ K V)
    (hp : s'.p = Function.update s.p j (((c : ℝ) : K) • s.p j))
    (hf : s'.nonFinite = s.nonFinite) :
    (orthonormalise (exactBlas K V) N s').p = (orthonormalise (exactBlas K V) N s).p ∧
      (orthonormalise (exactBlas K V) N s').nonFinite =
        (orthonormalise (exactBlas K V) N s).nonFinite := by
  have key := forRange_rel (fun i (t t' : MREState ℝ K V) =>
    t'.nonFinite = t.nonFinite ∧
    (i ≤ j → t'.p = Function.update t.p j (((c : ℝ) : K) • t.p j)) ∧
    (j < i → t'.p = t.p))
    (orthoStep (exactBlas K V) N) 0 N s s' (Nat.zero_le _)
    ⟨hf, fun _ => hp, fun h => absurd h (Nat.not_lt_zero j)⟩ ?_
  · exact ⟨key.2.2 hj, key.1⟩
  · intro i t t' _ hi ⟨h0, h1, h2⟩
    rcases Nat.lt_trichotomy i j with hij | hij | hij
    · -- before the scaled vector is normalised
      have e := h1 (le_of_lt hij)
      have ei : t'.p i = t.p i := by
        rw [e, Function.update_noteq (by omega)]
      refine ⟨?_, ?_, ?_⟩
      · rw [orthoStep_nonFinite, orthoStep_nonFinite, h0, ei]
      · intro _
        funext r
        by_cases hr : r = j
        · subst hr
          have hne : ¬ r = i := by omega
          have hL := exact_orthoStep_p N i t' r
          have hR := exact_orthoStep_p N i t r
          rw [if_neg hne, if_pos ⟨hij, hj⟩] at hL hR
          rw [Function.update_same, hL, hR, ei, e, Function.update_same, inner_smul_right,
            smul_sub, mul_smul]
        · rw [Function.update_noteq hr, exact_orthoStep_p, exact_orthoStep_p, ei, e,
            Function.update_noteq hr]
      · intro h
        omega
    · -- the step that normalises the scaled vector
      subst hij
      have e := h1 le_rfl
      have ei : t'.p i = ((c : ℝ) : K) • t.p i := by
        rw [e, Function.update_same]
      refine ⟨?_, ?_, ?_⟩
      · rw [orthoStep_nonFinite, orthoStep_nonFinite, h0, ei]
        simp only [exactBlas_sqrt, exactBlas_norm2, Real.sqrt_sq (norm_nonneg _)]
        congr 1
        exact decide_eq_decide.mpr (scaled_norm_eq_zero c hc (t.p i))
      · intro h
        omega
      · intro _
        funext r
        rw [exact_orthoStep_p, exact_orthoStep_p, ei, scaled_normalise c hc (t.p i)]
        by_cases hr : r = i
        · rw [if_pos hr, if_pos hr]
        · rw [if_neg hr, if_neg hr, e, Function.update_noteq hr]
    · -- after it
      have e := h2 hij
      refine ⟨?_, ?_, ?_⟩
      · rw [orthoStep_nonFinite, orthoStep_nonFinite, h0, e]
      · intro h
        omega
      · intro _
        funext r
        rw [exact_orthoStep_p, exact_orthoStep_p, e]

/-- Scaling one trial vector below `N` by `c > 0` does not change the state the
orthonormalisation leaves, hence nothing of what follows. -/
theorem run_scaled (mat : V → V) (x b : V) (p q : ℕ → V) (N j : ℕ) (hj : j < N) (c : ℝ)
    (hc : 0 < c) :
    MinResExt.built (exactBlas K V) mat x b (Function.update p j (((c : ℝ) : K) • p j)) q N =
        MinResExt.built (exactBlas K V) mat x b p q N ∧
      MinResExt.run (exactBlas K V) mat x b (Function.update p j (((c : ℝ) : K) • p j)) q N =
        MinResExt.run (exactBlas K V) mat x b p q N := by
  have ho : orthonormalise (exactBlas K V) N
      (MinResExt.entry x b (Function.update p j (((c : ℝ) : K) • p j)) q) =
      orthonormalise (exactBlas K V) N (MinResExt.entry x b p q) := by
    obtain ⟨a1, a2, a3, a4, a5, a6, a7, a8, a9⟩ := orthonormalise_frame (exactBlas K V) N
      (MinResExt.entry x b (Function.update p j (((c : ℝ) : K) • p j)) q)
    obtain ⟨b1, b2, b3, b4, b5, b6, b7, b8, b9⟩ := orthonormalise_frame (exactBlas K V) N
      (MinResExt.entry x b p q)
    obtain ⟨hp, hf⟩ := orthonormalise_scaled N j hj c hc (MinResExt.entry x b p q)
      (MinResExt.entry x b (Function.update p j (((c : ℝ) : K) • p j)) q) rfl rfl
    exact state_eq_of_fields _ _ (a1.trans b1.symm) (a2.trans b2.symm) hp (a3.trans b3.symm)
      (a4.trans b4.symm) (a5.trans b5.symm) (a6.trans b6.symm) (a9.trans b9.symm)
      (a7.trans b7.symm) (a8.trans b8.symm) hf
  have hb : MinResExt.built (exactBlas K V) mat x b
      (Function.update p j (((c : ℝ) : K) • p j)) q N =
      MinResExt.built (exactBlas K V) mat x b p q N := by
    unfold MinResExt.built
    rw [ho]
  refine ⟨hb, ?_⟩
  unfold MinResExt.run
  rw [hb]

theorem scaled_data (p : ℕ → ColorSpinorField V) (j : ℕ) (c : K) :
    (fun i => (Function.update p j ⟨(p j).location, c • (p j).data⟩ i).data) =
      Function.update (fun i => (p i).data) j (c • (p j).data) := by
  funext i
  by_cases h : i = j
  · subst h
    rw [Function.update_same, Function.update_same]
  · rw [Function.update_noteq h, Function.update_noteq h]

end

/-! ## The claims -/

/-- C1, evaluated where it fails: `N = 2`, the operator `diag(1, 2)` on `ℂ²`, the standard basis
as trial vectors and `b = (1, 2)`.  The builder produces `G = diag(1, 2)`, `beta = (1, 2)`;
the scan picks row `1` (`|2| > |1|`), the row swap puts `G[1][0] = 0` in the pivot
position, and the elimination divides by it: the flag is up at the end of the call.
The coefficients the embedding then holds do not satisfy `G alpha = beta`. -/
theorem C1_solver_divides_by_zero_on_diag :
    ∃ s, MinResExt.operator (exactBlas ℂ V2) (matOp 1 0 0 2) (onDevice (vec2 0 0))
        (onDevice (vec2 1 2)) (fun i => onDevice (pair (vec2 1 0) (vec2 0 1) i))
        (fun _ => onDevice (vec2 0 0)) 2 = Except.ok s ∧
      (toyBuilt (matOp 1 0 0 2) (vec2 1 2)).G 0 0 = 1 ∧
      (toyBuilt (matOp 1 0 0 2) (vec2 1 2)).G 0 1 = 0 ∧
      (toyBuilt (matOp 1 0 0 2) (vec2 1 2)).G 1 0 = 0 ∧
      (toyBuilt (matOp 1 0 0 2) (vec2 1 2)).G 1 1 = 2 ∧
      (toyBuilt (matOp 1 0 0 2) (vec2 1 2)).beta 0 = 1 ∧
      (toyBuilt (matOp 1 0 0 2) (vec2 1 2)).beta 1 = 2 ∧
      (pivotStep (exactBlas ℂ V2) 2 0 (toyBuilt (matOp 1 0 0 2) (vec2 1 2))).G 0 0 = 0 ∧
      s.nonFinite = true ∧
      ¬ Solves 2 (toyBuilt (matOp 1 0 0 2) (vec2 1 2)).G
        (toyBuilt (matOp 1 0 0 2) (vec2 1 2)).beta s.alpha := by
  obtain ⟨g00, g01, g10, g11, b0, b1, _⟩ :=
    toy_built 1 0 0 2 (vec2 0 0) (vec2 1 2) (fun _ => vec2 0 0)
  simp only [Complex.one_re, Complex.ofReal_one, map_zero, vec2_zero, vec2_one]
    at g00 g01 g10 g11 b0 b1
  have g11' : (toyBuilt (matOp 1 0 0 2) (vec2 1 2)).G 1 1 = 2 := by
    unfold toyBuilt
    rw [g11]
    norm_num
  obtain ⟨hpiv, hflag, hα, _⟩ := toy_run_1002 (vec2 0 0) (vec2 1 2) (fun _ => vec2 0 0)
  refine ⟨MinResExt.run (exactBlas ℂ V2) (matOp 1 0 0 2) (vec2 0 0) (vec2 1 2)
      (pair (vec2 1 0) (vec2 0 1)) (fun _ => vec2 0 0) 2,
    operator_eq_run (exactBlas ℂ V2) (matOp 1 0 0 2) _ _ _ _ 2 rfl rfl (by norm_num),
    g00, g01, g10, g11', b0, b1, hpiv, hflag, ?_⟩
  intro hsol
  have h0 := hsol 0 (by norm_num)
  rw [Finset.sum_range_succ, Finset.sum_range_one, hα 0 (by norm_num), hα 1 (by norm_num)]
    at h0
  unfold toyBuilt at h0
  rw [b0] at h0
  simp at h0

/-- C2, evaluated where it fails: `N = 2`, the operator `[[1, 1], [1, 2]]` on `ℂ²` and the
standard basis as trial vectors give `G = [[1, 1], [1, 2]]`.  At step `0` the scan picks
row `1`, whose diagonal entry `2` is the largest in magnitude, but the row swap leaves
`G[1][0] = 1` in the pivot position: the divisor of the step is not the entry chosen. -/
theorem C2_pivot_is_not_largest_diagonal :
    (toyBuilt (matOp 1 1 1 2) (vec2 1 2)).G 0 0 = 1 ∧
    (toyBuilt (matOp 1 1 1 2) (vec2 1 2)).G 1 1 = 2 ∧
    pivotRow (exactBlas ℂ V2) 2 0 (toyBuilt (matOp 1 1 1 2) (vec2 1 2)).G = 1 ∧
    (pivotStep (exactBlas ℂ V2) 2 0 (toyBuilt (matOp 1 1 1 2) (vec2 1 2))).G 0 0 = 1 ∧
    (exactBlas ℂ V2).abs
        ((pivotStep (exactBlas ℂ V2) 2 0 (toyBuilt (matOp 1 1 1 2) (vec2 1 2))).G 0 0) <
      (exactBlas ℂ V2).abs ((toyBuilt (matOp 1 1 1 2) (vec2 1 2)).G 1 1) := by
  obtain ⟨g00, g01, g10, g11, _, _, _⟩ :=
    toy_built 1 1 1 2 (vec2 0 0) (vec2 1 2) (fun _ => vec2 0 0)
  simp only [Complex.one_re, Complex.ofReal_one, map_one] at g00 g01 g10 g11
  have g11' : (toyBuilt (matOp 1 1 1 2) (vec2 1 2)).G 1 1 = 2 := by
    unfold toyBuilt
    rw [g11]
    norm_num
  have hk : pivotRow (exactBlas ℂ V2) 2 0 (toyBuilt (matOp 1 1 1 2) (vec2 1 2)).G = 1 := by
    rw [pivotRow_two, g11']
    unfold toyBuilt
    rw [g00]
    simp
  have hpiv :
      (pivotStep (exactBlas ℂ V2) 2 0 (toyBuilt (matOp 1 1 1 2) (vec2 1 2))).G 0 0 = 1 := by
    rw [pivotStep_G, hk]
    unfold toyBuilt
    simp [g10]
  refine ⟨g00, g11', hk, hpiv, ?_⟩
  rw [hpiv, g11']
  simp

section

variable {K V : Type} [RCLike K] [NormedAddCommGroup V] [InnerProductSpace K V]
  [DecidableEq K]

/-- C3 (amended): for a self-adjoint positive-definite operator `A`, a linearly independent
trial basis, `N ≥ 1` and a right-hand side `b`, the call returns, and if it divided by no
zero, then the right-hand side it leaves is `b_after = A (y - x)` for every `y` with
`A y = b_before`, and the energy of the error does not grow:
`Re⟨y - x, b_after⟩ ≤ Re⟨y, b_before⟩`. -/
theorem C3_energy_does_not_grow (A : V →ₗ[K] V) (hsym : A.IsSymmetric)
    (hpos : ∀ v, v ≠ 0 → 0 < RCLike.re (inner (A v) v : K))
    (x b : ColorSpinorField V) (p q : ℕ → ColorSpinorField V) (N : ℕ) (hN : 1 ≤ N)
    (hx : x.location = QudaFieldLocation.QUDA_CUDA_FIELD_LOCATION)
    (hb : b.location = QudaFieldLocation.QUDA_CUDA_FIELD_LOCATION)
    (hli : LinearIndependent K (fun a : Fin N => (p a).data)) :
    ∃ s, MinResExt.operator (exactBlas K V) A x b p q N = Except.ok s ∧
      (s.nonFinite = false → ∀ y, A y = b.data →
        s.b = A (y - s.x) ∧
        RCLike.re (inner (y - s.x) s.b : K) ≤ RCLike.re (inner y b.data : K)) := by
  refine ⟨_, operator_eq_run (exactBlas K V) A x b p q N hx hb (by omega), ?_⟩
  intro hfin y hy
  obtain ⟨h1, h2⟩ := exact_run_energy A hsym hpos x.data b.data (fun i => (p i).data)
    (fun i => (q i).data) N
    (not_mem_spanBelow_of_linearIndependent N (fun i => (p i).data) hli) hfin y hy 0
    (Submodule.zero_mem _)
  refine ⟨h1, ?_⟩
  rw [sub_zero, hy, ← h1] at h2
  exact h2

end

/-- C3 refuted as stated: the operator `[[1, 1], [1, 2]]` on `ℂ²` is self-adjoint and positive
definite, the single trial vector `(1, 0)` is linearly independent, and the call with
`b = (1, -1)` divides by no zero and leaves `b = (0, -2)`, of norm `2 > √2`. -/
theorem C3_residual_norm_grows :
    (matOp 1 1 1 2).IsSymmetric ∧
    (∀ v : V2, v ≠ 0 → 0 < RCLike.re (inner (matOp 1 1 1 2 v) v : ℂ)) ∧
    LinearIndependent ℂ (fun _ : Fin 1 => vec2 1 0) ∧
    ∃ s, MinResExt.operator (exactBlas ℂ V2) (matOp 1 1 1 2) (onDevice (vec2 0 0))
        (onDevice (vec2 1 (-1))) (fun _ => onDevice (vec2 1 0))
        (fun _ => onDevice (vec2 0 0)) 1 = Except.ok s ∧
      s.nonFinite = false ∧ s.b = vec2 0 (-2) ∧ ¬ ‖s.b‖ ≤ ‖vec2 1 (-1)‖ := by
  obtain ⟨_, h2, h3⟩ := toy_run_one 1 (-1) (vec2 0 0) (fun _ => vec2 0 0)
  have hb : (MinResExt.run (exactBlas ℂ V2) (matOp 1 1 1 2) (vec2 0 0) (vec2 1 (-1))
      (fun _ => vec2 1 0) (fun _ => vec2 0 0) 1).b = vec2 0 (-2) := by
    rw [h2]
    norm_num
  refine ⟨matOp_1112_isSymmetric, matOp_1112_pos, linearIndependent_single,
    MinResExt.run (exactBlas ℂ V2) (matOp 1 1 1 2) (vec2 0 0) (vec2 1 (-1))
      (fun _ => vec2 1 0) (fun _ => vec2 0 0) 1,
    operator_eq_run (exactBlas ℂ V2) (matOp 1 1 1 2) _ _ _ _ 1 rfl rfl one_ne_zero, h3, hb, ?_⟩
  rw [hb]
  apply norm_vec2_lt
  norm_num

/-- Witness of C3: the operator `[[2, 1], [1, 2]]` on `ℂ²`, the standard basis as trial vectors,
`b = (3, 3)` and `y = (1, 1)`; the call divides by no zero. -/
theorem C3_energy_does_not_grow_witness :
    ∃ s, MinResExt.operator (exactBlas ℂ V2) (matOp 2 1 1 2) (onDevice (vec2 0 0))
        (onDevice (vec2 3 3)) (fun i => onDevice (pair (vec2 1 0) (vec2 0 1) i))
        (fun _ => onDevice (vec2 0 0)) 2 = Except.ok s ∧
      s.nonFinite = false ∧
      s.b = matOp 2 1 1 2 (vec2 1 1 - s.x) ∧
      RCLike.re (inner (vec2 1 1 - s.x) s.b : ℂ) ≤
        RCLike.re (inner (vec2 1 1) (vec2 3 3) : ℂ) := by
  obtain ⟨s, hs, h⟩ :=
    C3_energy_does_not_grow (matOp 2 1 1 2) matOp_2112_isSymmetric matOp_2112_pos
      (onDevice (vec2 0 0)) (onDevice (vec2 3 3))
      (fun i => onDevice (pair (vec2 1 0) (vec2 0 1) i)) (fun _ => onDevice (vec2 0 0)) 2
      (by norm_num) rfl rfl linearIndependent_standard
  have hop := operator_eq_run (exactBlas ℂ V2) (matOp 2 1 1 2) (onDevice (vec2 0 0))
    (onDevice (vec2 3 3)) (fun i => onDevice (pair (vec2 1 0) (vec2 0 1) i))
    (fun _ => onDevice (vec2 0 0)) 2 rfl rfl (by norm_num)
  have hfin : s.nonFinite = false := by
    rw [Except.ok.inj (hs.symm.trans hop)]
    exact toy_run_2112_nonFinite _ _ _ _ (Or.inl ⟨rfl, rfl⟩)
  exact ⟨s, hs, hfin, h hfin (vec2 1 1) (by rw [matOp_vec2]; norm_num [onDevice])⟩

section

variable {K V : Type} [RCLike K] [NormedAddCommGroup V] [InnerProductSpace K V]
  [DecidableEq K]

/-- C4 (amended): for a self-adjoint positive-definite operator `A` and linearly independent
trial vectors the call returns, and if it divided by no zero, the guess `x` lies in the
span of the trial vectors and minimises over that span the energy of the error, not the
norm of the residual: for `z` with `A z = b` and every `y` in the span,
`Re⟨z - x, A (z - x)⟩ ≤ Re⟨z - y, A (z - y)⟩`. -/
theorem C4_galerkin_optimality (A : V →ₗ[K] V) (hsym : A.IsSymmetric)
    (hpos : ∀ v, v ≠ 0 → 0 < RCLike.re (inner (A v) v : K))
    (x b : ColorSpinorField V) (p q : ℕ → ColorSpinorField V) (N : ℕ) (hN : 1 ≤ N)
    (hx : x.location = QudaFieldLocation.QUDA_CUDA_FIELD_LOCATION)
    (hb : b.location = QudaFieldLocation.QUDA_CUDA_FIELD_LOCATION)
    (hli : LinearIndependent K (fun a : Fin N => (p a).data)) :
    ∃ s, MinResExt.operator (exactBlas K V) A x b p q N = Except.ok s ∧
      (s.nonFinite = false →
        s.x ∈ spanBelow K (fun i => (p i).data) N ∧
        ∀ z, A z = b.data → ∀ y, y ∈ spanBelow K (fun i => (p i).data) N →
          RCLike.re (inner (z - s.x) (A (z - s.x)) : K) ≤
            RCLike.re (inner (z - y) (A (z - y)) : K)) := by
  refine ⟨_, operator_eq_run (exactBlas K V) A x b p q N hx hb (by omega), ?_⟩
  intro hfin
  have hind := not_mem_spanBelow_of_linearIndependent N (fun i => (p i).data) hli
  constructor
  · rw [← exact_run_span (K := K) A x.data b.data (fun i => (p i).data)
      (fun i => (q i).data) N hind]
    exact exact_run_x_mem A x.data b.data _ _ N
  · intro z hz y hy
    exact (exact_run_energy A hsym hpos x.data b.data (fun i => (p i).data)
      (fun i => (q i).data) N hind hfin z hz y hy).2

end

/-- C4 refuted as stated: with the operator `[[1, 1], [1, 2]]`, the trial vector `(1, 0)` and
`b = (2, -2)` the call returns `x = (2, 0)`, whose residual `b - A x = (0, -4)` has norm
`4`, while `y = 0`, a member of the span, has the residual `b` of norm `√8 < 4`. -/
theorem C4_guess_does_not_minimise_residual :
    (matOp 1 1 1 2).IsSymmetric ∧
    (∀ v : V2, v ≠ 0 → 0 < RCLike.re (inner (matOp 1 1 1 2 v) v : ℂ)) ∧
    LinearIndependent ℂ (fun _ : Fin 1 => vec2 1 0) ∧
    ∃ s, MinResExt.operator (exactBlas ℂ V2) (matOp 1 1 1 2) (onDevice (vec2 0 0))
        (onDevice (vec2 2 (-2))) (fun _ => onDevice (vec2 1 0))
        (fun _ => onDevice (vec2 0 0)) 1 = Except.ok s ∧
      s.nonFinite = false ∧ s.x = vec2 2 0 ∧
      (0 : V2) ∈ spanBelow ℂ (fun _ => vec2 1 0) 1 ∧
      ¬ ‖vec2 2 (-2) - matOp 1 1 1 2 s.x‖ ≤ ‖vec2 2 (-2) - matOp 1 1 1 2 (0 : V2)‖ := by
  obtain ⟨h1, _, h3⟩ := toy_run_one 2 (-2) (vec2 0 0) (fun _ => vec2 0 0)
  refine ⟨matOp_1112_isSymmetric, matOp_1112_pos, linearIndependent_single,
    MinResExt.run (exactBlas ℂ V2) (matOp 1 1 1 2) (vec2 0 0) (vec2 2 (-2))
      (fun _ => vec2 1 0) (fun _ => vec2 0 0) 1,
    operator_eq_run (exactBlas ℂ V2) (matOp 1 1 1 2) _ _ _ _ 1 rfl rfl one_ne_zero, h3, h1,
    Submodule.zero_mem _, ?_⟩
  rw [h1, map_zero, sub_zero, matOp_vec2, vec2_sub]
  apply norm_vec2_lt
  norm_num

/-- Witness of C4: the operator `[[2, 1], [1, 2]]` on `ℂ²`, the standard basis as trial vectors,
`b = (2, 1)`, `z = (1, 0)` and `y = (0, 1)`; the call divides by no zero. -/
theorem C4_galerkin_optimality_witness :
    ∃ s, MinResExt.operator (exactBlas ℂ V2) (matOp 2 1 1 2) (onDevice (vec2 0 0))
        (onDevice (vec2 2 1)) (fun i => onDevice (pair (vec2 1 0) (vec2 0 1) i))
        (fun _ => onDevice (vec2 0 0)) 2 = Except.ok s ∧
      s.nonFinite = false ∧
      s.x ∈ spanBelow ℂ (fun i => (onDevice (pair (vec2 1 0) (vec2 0 1) i)).data) 2 ∧
      RCLike.re (inner (vec2 1 0 - s.x) (matOp 2 1 1 2 (vec2 1 0 - s.x)) : ℂ) ≤
        RCLike.re (inner (vec2 1 0 - vec2 0 1) (matOp 2 1 1 2 (vec2 1 0 - vec2 0 1)) : ℂ) := by
  obtain ⟨s, hs, h⟩ :=
    C4_galerkin_optimality (matOp 2 1 1 2) matOp_2112_isSymmetric matOp_2112_pos
      (onDevice (vec2 0 0)) (onDevice (vec2 2 1))
      (fun i => onDevice (pair (vec2 1 0) (vec2 0 1) i)) (fun _ => onDevice (vec2 0 0)) 2
      (by norm_num) rfl rfl linearIndependent_standard
  have hop := operator_eq_run (exactBlas ℂ V2) (matOp 2 1 1 2) (onDevice (vec2 0 0))
    (onDevice (vec2 2 1)) (fun i => onDevice (pair (vec2 1 0) (vec2 0 1) i))
    (fun _ => onDevice (vec2 0 0)) 2 rfl rfl (by norm_num)
  have hfin : s.nonFinite = false := by
    rw [Except.ok.inj (hs.symm.trans hop)]
    exact toy_run_2112_nonFinite _ _ _ _ (Or.inl ⟨rfl, rfl⟩)
  exact ⟨s, hs, hfin, (h hfin).1,
    (h hfin).2 (vec2 1 0) (by rw [matOp_vec2]; norm_num [onDevice]) (vec2 0 1)
      (mem_spanBelow (K := ℂ) (fun i => (onDevice (pair (vec2 1 0) (vec2 0 1) i)).data)
        (by norm_num : 1 < 2))⟩

/-- C5, evaluated where it fails: the self-adjoint operator `diag(1, 2)` on `ℂ²`, the standard
basis as trial vectors, `b = (1, 2)` and the permutation that swaps the two pairs.  The
reduced system `diag(1, 2) alpha = (1, 2)` is non-singular and its solution gives the guess
`(1, 1)` in either order.  The call on the swapped order divides by no zero and returns
`x = (1, 1)`; the call on the original order divides by zero, because the row swap of
step `0` leaves `G[1][0] = 0` in the pivot position: the two calls do not return the same
guess. -/
theorem C5_reordering_changes_the_outcome :
    (matOp 1 0 0 2).IsSymmetric ∧
    LinearIndependent ℂ (fun a : Fin 2 => pair (vec2 1 0) (vec2 0 1) a) ∧
    ∃ s1 s2,
      MinResExt.operator (exactBlas ℂ V2) (matOp 1 0 0 2) (onDevice (vec2 0 0))
        (onDevice (vec2 1 2)) (fun i => onDevice (pair (vec2 1 0) (vec2 0 1) i))
        (fun _ => onDevice (vec2 0 0)) 2 = Except.ok s1 ∧
      MinResExt.operator (exactBlas ℂ V2) (matOp 1 0 0 2) (onDevice (vec2 0 0))
        (onDevice (vec2 1 2))
        (reorder 2 (Equiv.swap 0 1) (fun i => onDevice (pair (vec2 1 0) (vec2 0 1) i)))
        (reorder 2 (Equiv.swap 0 1) (fun _ => onDevice (vec2 0 0))) 2 = Except.ok s2 ∧
      s1.nonFinite = true ∧ s2.nonFinite = false ∧ s2.x = vec2 1 1 ∧ s1.x ≠ s2.x := by
  obtain ⟨_, f1, _, x1⟩ := toy_run_1002 (vec2 0 0) (vec2 1 2) (fun _ => vec2 0 0)
  have hd : (fun i => (reorder 2 (Equiv.swap 0 1)
      (fun i => onDevice (pair (vec2 1 0) (vec2 0 1) i)) i).data) =
      reorder 2 (Equiv.swap 0 1) (pair (vec2 1 0) (vec2 0 1)) :=
    reorder_data 2 (Equiv.swap 0 1) (fun i => onDevice (pair (vec2 1 0) (vec2 0 1) i))
  obtain ⟨f2, x2⟩ := toy_run_1002_swapped (vec2 0 0)
    (fun i => (reorder 2 (Equiv.swap 0 1) (fun _ => onDevice (vec2 0 0)) i).data)
  have hop2 := operator_eq_run (exactBlas ℂ V2) (matOp 1 0 0 2) (onDevice (vec2 0 0))
    (onDevice (vec2 1 2))
    (reorder 2 (Equiv.swap 0 1) (fun i => onDevice (pair (vec2 1 0) (vec2 0 1) i)))
    (reorder 2 (Equiv.swap 0 1) (fun _ => onDevice (vec2 0 0))) 2 rfl rfl (by norm_num)
  rw [hd] at hop2
  refine ⟨matOp_1002_isSymmetric, linearIndependent_standard,
    MinResExt.run (exactBlas ℂ V2) (matOp 1 0 0 2) (vec2 0 0) (vec2 1 2)
      (pair (vec2 1 0) (vec2 0 1)) (fun _ => vec2 0 0) 2, _,
    operator_eq_run (exactBlas ℂ V2) (matOp 1 0 0 2) _ _ _ _ 2 rfl rfl (by norm_num),
    hop2, f1, f2, x2, ?_⟩
  · rw [x1]
    intro h
    have h' : (0 : V2) = vec2 1 1 := h.trans x2
    rw [← vec2_zero_zero, vec2_eq_iff] at h'
    exact zero_ne_one h'.1

section

variable {K V : Type} [RCLike K] [NormedAddCommGroup V] [InnerProductSpace K V]
  [DecidableEq K]

/-- C6: a call with `N = 0` whose `x` and `b` are accelerator-resident returns, with `x` the
zero vector, `b`, every trial vector and every image vector unchanged, and the operator
applied zero times. -/
theorem C6_degenerate_case (mat : V → V) (x b : ColorSpinorField V)
    (p q : ℕ → ColorSpinorField V)
    (hx : x.location = QudaFieldLocation.QUDA_CUDA_FIELD_LOCATION)
    (hb : b.location = QudaFieldLocation.QUDA_CUDA_FIELD_LOCATION) :
    ∃ s, MinResExt.operator (exactBlas K V) mat x b p q 0 = Except.ok s ∧
      s.x = 0 ∧ s.b = b.data ∧ (∀ i, s.p i = (p i).data) ∧ (∀ i, s.q i = (q i).data) ∧
      s.matCalls = 0 :=
  ⟨_, operator_zero (exactBlas K V) mat x b p q hx hb, rfl, rfl, fun _ => rfl,
    fun _ => rfl, rfl⟩

end

/-- Witness of C6: a call with `N = 0` on fields of `ℂ²`. -/
theorem C6_degenerate_case_witness :
    ∃ s, MinResExt.operator (exactBlas ℂ V2) (matOp 1 1 1 2) (onDevice (vec2 5 6))
        (onDevice (vec2 3 4)) (fun _ => onDevice (vec2 1 0)) (fun _ => onDevice (vec2 7 7)) 0
        = Except.ok s ∧
      s.x = 0 ∧ s.b = vec2 3 4 ∧ (∀ i, s.p i = vec2 1 0) ∧ (∀ i, s.q i = vec2 7 7) ∧
      s.matCalls = 0 :=
  C6_degenerate_case (matOp 1 1 1 2) (onDevice (vec2 5 6)) (onDevice (vec2 3 4))
    (fun _ => onDevice (vec2 1 0)) (fun _ => onDevice (vec2 7 7)) rfl rfl

section

variable {K V : Type} [RCLike K] [NormedAddCommGroup V] [InnerProductSpace K V]
  [DecidableEq K]

/-- C7: the call with `N = 1` on a trial vector `p0` of non-zero norm, with
`P = p0 / ‖p0‖`, ends with `alpha = ⟨P, b⟩ / Re⟨A P, P⟩`, `x = alpha P`,
`b_after = b - alpha (A P)`, the trial vector replaced by `P` and the image vector by
`A P`, for every operator `A`; its only division by zero, if any, is the one by
`Re⟨A P, P⟩`. -/
theorem C7_single_vector_closed_form (mat : V → V) (x b : ColorSpinorField V)
    (p q : ℕ → ColorSpinorField V)
    (hx : x.location = QudaFieldLocation.QUDA_CUDA_FIELD_LOCATION)
    (hb : b.location = QudaFieldLocation.QUDA_CUDA_FIELD_LOCATION)
    (hp : ‖(p 0).data‖ ≠ 0) (P : V) (hP : P = (((1 / ‖(p 0).data‖ : ℝ)) : K) • (p 0).data) :
    ∃ s, MinResExt.operator (exactBlas K V) mat x b p q 1 = Except.ok s ∧
      s.alpha 0 = (inner P b.data : K) / ((RCLike.re (inner (mat P) P : K) : ℝ) : K) ∧
      s.x = s.alpha 0 • P ∧
      s.b = b.data - s.alpha 0 • mat P ∧
      s.p 0 = P ∧ s.q 0 = mat P ∧
      (s.nonFinite = true ↔ RCLike.re (inner (mat P) P : K) = 0) := by
  refine ⟨_, operator_eq_run (exactBlas K V) mat x b p q 1 hx hb one_ne_zero, ?_⟩
  obtain ⟨h1, h2, h3, h4⟩ := exact_run_one (K := K) mat x.data b.data (fun i => (p i).data)
    (fun i => (q i).data)
  obtain ⟨g1, g2, _⟩ := exact_run_xb (K := K) mat x.data b.data (fun i => (p i).data)
    (fun i => (q i).data) 1
  rw [← hP] at h1 h2 h3 h4
  refine ⟨h3, ?_, ?_, h1, h2, ?_⟩
  · rw [g1, Finset.sum_range_one, h1]
  · rw [g2, Finset.sum_range_one, h2]
  · rw [h4]
    simp [hp]

end

/-- Witness of C7: the operator `[[1, 1], [1, 2]]` on `ℂ²`, the trial vector `(2, 0)` and
`b = (1, -1)` give `P = (1, 0)`, `alpha = 1`, `x = (1, 0)` and `b_after = (0, -2)`. -/
theorem C7_single_vector_closed_form_witness :
    ∃ s, MinResExt.operator (exactBlas ℂ V2) (matOp 1 1 1 2) (onDevice (vec2 9 9))
        (onDevice (vec2 1 (-1))) (fun _ => onDevice (vec2 2 0)) (fun _ => onDevice (vec2 8 8)) 1
        = Except.ok s ∧
      s.alpha 0 = 1 ∧ s.x = vec2 1 0 ∧ s.b = vec2 0 (-2) ∧ s.p 0 = vec2 1 0 ∧
      s.q 0 = vec2 1 1 ∧ s.nonFinite = false := by
  have hP : vec2 1 0 =
      (((1 / ‖(onDevice (vec2 2 0)).data‖ : ℝ)) : ℂ) • (onDevice (vec2 2 0)).data := by
    simp [onDevice, norm_vec2_two_zero, vec2_smul]
  obtain ⟨s, h0, h1, h2, h3, h4, h5, h6⟩ :=
    C7_single_vector_closed_form (K := ℂ) (matOp 1 1 1 2) (onDevice (vec2 9 9))
      (onDevice (vec2 1 (-1))) (fun _ => onDevice (vec2 2 0)) (fun _ => onDevice (vec2 8 8))
      rfl rfl (by simp [onDevice, norm_vec2_two_zero]) (vec2 1 0) hP
  have hα : s.alpha 0 = 1 := by
    rw [h1]
    simp [onDevice, matOp_vec2, vec2_inner]
  refine ⟨s, h0, hα, ?_, ?_, h4, ?_, ?_⟩
  · rw [h2, hα, one_smul]
  · rw [h3, hα]
    norm_num [onDevice, matOp_vec2, vec2_sub]
  · rw [h5]
    simp [matOp_vec2]
  · cases hs : s.nonFinite
    · rfl
    · have := h6.mp hs
      simp [matOp_vec2, vec2_inner] at this

section

variable {K V : Type} [RCLike K] [NormedAddCommGroup V] [InnerProductSpace K V]
  [DecidableEq K]

/-- C8: for the identity operator and an orthonormal trial basis the call leaves the `p_i`
unchanged, builds `G = identity` and `beta_i = ⟨p_i, b⟩`, swaps no rows, and returns
`alpha = beta`, `x = Σ_i ⟨p_i, b⟩ p_i` and `b_after = b - x`, without dividing by
zero. -/
theorem C8_identity_operator (x b : ColorSpinorField V) (p q : ℕ → ColorSpinorField V)
    (N : ℕ)
    (hx : x.location = QudaFieldLocation.QUDA_CUDA_FIELD_LOCATION)
    (hb : b.location = QudaFieldLocation.QUDA_CUDA_FIELD_LOCATION)
    (h1 : ∀ i, i < N → ‖(p i).data‖ = 1)
    (h2 : ∀ i j, i < N → j < N → i ≠ j → (inner (p i).data (p j).data : K) = 0) :
    ∃ s, MinResExt.operator (exactBlas K V) id x b p q N = Except.ok s ∧
      (∀ i, s.p i = (p i).data) ∧
      (∀ i j, i < N → j < N →
        (MinResExt.built (exactBlas K V) id x.data b.data (fun i => (p i).data)
          (fun i => (q i).data) N).G i j = if i = j then 1 else 0) ∧
      (∀ i, i < N →
        (MinResExt.built (exactBlas K V) id x.data b.data (fun i => (p i).data)
          (fun i => (q i).data) N).beta i = inner (p i).data b.data) ∧
      s.swaps = 0 ∧
      (∀ i, i < N → s.alpha i = inner (p i).data b.data) ∧
      s.x = ∑ i in Finset.range N, (inner (p i).data b.data : K) • (p i).data ∧
      s.b = b.data - s.x ∧
      s.nonFinite = false := by
  by_cases hN : N = 0
  · subst hN
    refine ⟨_, operator_zero (exactBlas K V) id x b p q hx hb, fun _ => rfl, ?_, ?_, rfl, ?_,
      ?_, ?_, rfl⟩
    · intro i j hi
      omega
    · intro i hi
      omega
    · intro i hi
      omega
    · simp
    · simp [MinResExt.entry]
  · refine ⟨_, operator_eq_run (exactBlas K V) id x b p q N hx hb hN, ?_⟩
    have ho : orthonormalise (exactBlas K V) N
        (MinResExt.entry (R := ℝ) (K := K) x.data b.data (fun i => (p i).data)
          (fun i => (q i).data)) =
        MinResExt.entry x.data b.data (fun i => (p i).data) (fun i => (q i).data) :=
      exact_orthonormalise_of_orthonormal N _ h1 (fun a c ha hc hac => h2 a c ha hc hac)
    obtain ⟨c1, c2, c3, c4, c5, c6, c7, c8, c9, c10⟩ :=
      built_spec (exactBlas K V) id x.data b.data (fun i => (p i).data)
        (fun i => (q i).data) N
    rw [ho] at c1 c2 c3 c4 c10
    have hG : ∀ i j, i < N → j < N →
        (MinResExt.built (exactBlas K V) id x.data b.data (fun i => (p i).data)
          (fun i => (q i).data) N).G i j = if i = j then 1 else 0 := by
      intro i j hi hj
      rw [c4]
      rcases Nat.lt_trichotomy i j with h | h | h
      · rw [if_pos ⟨h, hj⟩, if_neg (by omega)]
        exact h2 i j hi hj (by omega)
      · subst h
        rw [if_neg (by omega), if_neg (by omega), if_pos ⟨rfl, hi⟩, if_pos rfl]
        simp only [exactBlas_ofReal, exactBlas_reDotProduct, MinResExt.entry, id]
        rw [inner_self_eq_norm_sq_to_K, h1 i hi]
        simp
      · rw [if_neg (by omega), if_pos ⟨h, hi⟩, if_neg (by omega)]
        simp only [exactBlas_conj, exactBlas_cDotProduct, MinResExt.entry, id]
        rw [h2 j i hj hi (by omega), map_zero]
    have hβ : ∀ i, i < N →
        (MinResExt.built (exactBlas K V) id x.data b.data (fun i => (p i).data)
          (fun i => (q i).data) N).beta i = inner (p i).data b.data := by
      intro i hi
      rw [c3, if_pos hi]
      rfl
    have he := eliminate_identity (exactBlas K V) N _ hG
    obtain ⟨r1, r2, r3, r4, r5, r6, r7, r8, r9⟩ :=
      run_fields (exactBlas K V) id x.data b.data (fun i => (p i).data)
        (fun i => (q i).data) N
    rw [he] at r3 r4 r5 r6 r7 r8
    obtain ⟨k1, k2⟩ := backSubstitute_identity (exactBlas K V) N _ hG
    obtain ⟨g1, g2, g3⟩ := exact_run_xb (K := K) id x.data b.data (fun i => (p i).data)
      (fun i => (q i).data) N
    have hp : ∀ i, (MinResExt.run (exactBlas K V) id x.data b.data (fun i => (p i).data)
        (fun i => (q i).data) N).p i = (p i).data := by
      intro i
      rw [r1, ho]
      rfl
    have hα : ∀ i, i < N → (MinResExt.run (exactBlas K V) id x.data b.data
        (fun i => (p i).data) (fun i => (q i).data) N).alpha i = inner (p i).data b.data := by
      intro i hi
      rw [r5, k1 i hi, hβ i hi]
    have hxs : (MinResExt.run (exactBlas K V) id x.data b.data (fun i => (p i).data)
        (fun i => (q i).data) N).x =
        ∑ i in Finset.range N, (inner (p i).data b.data : K) • (p i).data := by
      rw [g1]
      apply Finset.sum_congr rfl
      intro i hi
      rw [hα i (Finset.mem_range.mp hi), hp]
    refine ⟨hp, hG, hβ, ?_, hα, hxs, ?_, ?_⟩
    · have hs := (backSubstitute_spec (exactBlas K V) N
        (MinResExt.built (exactBlas K V) id x.data b.data (fun i => (p i).data)
          (fun i => (q i).data) N)).2.2.2.2.2.1
      have e : (MinResExt.run (exactBlas K V) id x.data b.data (fun i => (p i).data)
          (fun i => (q i).data) N).swaps =
          (backSubstitute (exactBlas K V) N (eliminate (exactBlas K V) N
            (MinResExt.built (exactBlas K V) id x.data b.data (fun i => (p i).data)
              (fun i => (q i).data) N))).swaps := rfl
      rw [e, he, hs, c9]
    · rw [g2, hxs]
      congr 1
      apply Finset.sum_congr rfl
      intro i hi
      rw [hα i (Finset.mem_range.mp hi), g3 i (Finset.mem_range.mp hi), hp]
      rfl
    · rw [r8, k2, c10]
      rfl

end

/-- Witness of C8, the scenario `N = 2`, `p0 = (1, 0)`, `p1 = (0, 1)`, `b = (3, 4)`: `G = diag(1, 1)`,
`beta = alpha = (3, 4)`, `x = (3, 4)` and `b` becomes `(0, 0)`. -/
theorem C8_identity_operator_witness :
    ∃ s, MinResExt.operator (exactBlas ℂ V2) id (onDevice (vec2 9 9)) (onDevice (vec2 3 4))
        (fun i => onDevice (pair (vec2 1 0) (vec2 0 1) i)) (fun _ => onDevice (vec2 8 8)) 2
        = Except.ok s ∧
      s.p 0 = vec2 1 0 ∧ s.p 1 = vec2 0 1 ∧
      (∀ i j, i < 2 → j < 2 →
        (MinResExt.built (exactBlas ℂ V2) id (vec2 9 9) (vec2 3 4)
          (fun i => pair (vec2 1 0) (vec2 0 1) i) (fun _ => vec2 8 8) 2).G i j =
          if i = j then 1 else 0) ∧
      (MinResExt.built (exactBlas ℂ V2) id (vec2 9 9) (vec2 3 4)
        (fun i => pair (vec2 1 0) (vec2 0 1) i) (fun _ => vec2 8 8) 2).beta 0 = 3 ∧
      (MinResExt.built (exactBlas ℂ V2) id (vec2 9 9) (vec2 3 4)
        (fun i => pair (vec2 1 0) (vec2 0 1) i) (fun _ => vec2 8 8) 2).beta 1 = 4 ∧
      s.alpha 0 = 3 ∧ s.alpha 1 = 4 ∧
      s.swaps = 0 ∧ s.x = vec2 3 4 ∧ s.b = 0 ∧ s.nonFinite = false := by
  obtain ⟨s, h0, h1, h2, h3, h4, h5, h6, h7, h8⟩ :=
    C8_identity_operator (K := ℂ) (onDevice (vec2 9 9)) (onDevice (vec2 3 4))
      (fun i => onDevice (pair (vec2 1 0) (vec2 0 1) i)) (fun _ => onDevice (vec2 8 8)) 2
      rfl rfl
      (by
        intro i hi
        interval_cases i
        · exact norm_vec2_one_zero
        · exact norm_vec2_zero_one)
      (by
        intro i j hi hj hij
        interval_cases i <;> interval_cases j <;>
          simp [onDevice, pair, vec2_inner] at hij ⊢)
  have hx : s.x = vec2 3 4 := by
    rw [h6]
    simp [Finset.sum_range_succ, onDevice, pair, vec2_inner, vec2_smul, vec2_add]
  refine ⟨s, h0, h1 0, h1 1, h2, ?_, ?_, ?_, ?_, h4, hx, ?_, h8⟩
  · refine (h3 0 (by norm_num)).trans ?_
    simp [onDevice, pair, vec2_inner]
  · refine (h3 1 (by norm_num)).trans ?_
    simp [onDevice, pair, vec2_inner]
  · rw [h5 0 (by norm_num)]
    simp [onDevice, pair, vec2_inner]
  · rw [h5 1 (by norm_num)]
    simp [onDevice, pair, vec2_inner]
  · rw [h7, hx]
    norm_num [onDevice, vec2_sub]

section

variable {K V : Type} [RCLike K] [NormedAddCommGroup V] [InnerProductSpace K V]
  [DecidableEq K]

/-- C9: on a linearly independent family of trial vectors the orthonormalisation loop (one
pass of modified Gram-Schmidt) ends with `‖p_i‖ = 1` for all `i` and `⟨p_i, p_j⟩ = 0`
for all `i ≠ j`, and it never divides by zero. -/
theorem C9_orthonormalisation (N : ℕ) (s : MREState ℝ K V)
    (hli : LinearIndependent K (fun a : Fin N => s.p a)) :
    (∀ i, i < N → ‖(orthonormalise (exactBlas K V) N s).p i‖ = 1) ∧
    (∀ i j, i < N → j < N → i ≠ j →
      (inner ((orthonormalise (exactBlas K V) N s).p i)
        ((orthonormalise (exactBlas K V) N s).p j) : K) = 0) ∧
    (orthonormalise (exactBlas K V) N s).nonFinite = s.nonFinite := by
  obtain ⟨hF, hA, hB, _⟩ := exact_orthonormalise_spec N s
    (not_mem_spanBelow_of_linearIndependent N s.p hli)
  exact ⟨hA, fun i j hi hj hij => hB i j hi hj (Ne.symm hij), hF⟩

end

/-- Witness of C9: the linearly independent pair `(1, 0)`, `(1, 1)` of `ℂ²`. -/
theorem C9_orthonormalisation_witness :
    (∀ i, i < 2 → ‖(orthonormalise (exactBlas ℂ V2) 2
      (MinResExt.entry 0 0 (pair (vec2 1 0) (vec2 1 1)) (pair 0 0))).p i‖ = 1) ∧
    (∀ i j, i < 2 → j < 2 → i ≠ j →
      (inner ((orthonormalise (exactBlas ℂ V2) 2
          (MinResExt.entry 0 0 (pair (vec2 1 0) (vec2 1 1)) (pair 0 0))).p i)
        ((orthonormalise (exactBlas ℂ V2) 2
          (MinResExt.entry 0 0 (pair (vec2 1 0) (vec2 1 1)) (pair 0 0))).p j) : ℂ) = 0) ∧
    (orthonormalise (exactBlas ℂ V2) 2
      (MinResExt.entry 0 0 (pair (vec2 1 0) (vec2 1 1)) (pair 0 0))).nonFinite = false :=
  C9_orthonormalisation 2 (MinResExt.entry 0 0 (pair (vec2 1 0) (vec2 1 1)) (pair 0 0))
    linearIndependent_pair_vec2

section

variable {K V : Type} [RCLike K] [NormedAddCommGroup V] [InnerProductSpace K V]
  [DecidableEq K]

/-- C10: for a linear operator `A` and every `N ≥ 0`, after the call `x = Σ_i alpha_i p_i` over
the orthonormalised trial vectors, and the overwritten right-hand side is
`b_before - A x = b_before - Σ_i alpha_i q_i` with `q_i = A p_i`, whatever the values of
`alpha`. -/
theorem C10_residual_deflation (A : V →ₗ[K] V) (x b : ColorSpinorField V)
    (p q : ℕ → ColorSpinorField V) (N : ℕ)
    (hx : x.location = QudaFieldLocation.QUDA_CUDA_FIELD_LOCATION)
    (hb : b.location = QudaFieldLocation.QUDA_CUDA_FIELD_LOCATION) :
    ∃ s, MinResExt.operator (exactBlas K V) A x b p q N = Except.ok s ∧
      s.p = (orthonormalise (exactBlas K V) N
        (MinResExt.entry x.data b.data (fun i => (p i).data) (fun i => (q i).data))).p ∧
      (∀ i, i < N → s.q i = A (s.p i)) ∧
      s.x = ∑ i in Finset.range N, s.alpha i • s.p i ∧
      s.b = b.data - A s.x ∧
      s.b = b.data - ∑ i in Finset.range N, s.alpha i • s.q i := by
  by_cases hN : N = 0
  · subst hN
    refine ⟨_, operator_zero (exactBlas K V) A x b p q hx hb, rfl, ?_, ?_, ?_, ?_⟩
    · intro i hi
      omega
    · simp
    · simp [MinResExt.entry]
    · simp [MinResExt.entry]
  · refine ⟨_, operator_eq_run (exactBlas K V) A x b p q N hx hb hN, ?_, ?_, ?_, ?_, ?_⟩
    · exact (run_fields (exactBlas K V) A x.data b.data _ _ N).1
    · exact (exact_run_xb A x.data b.data _ _ N).2.2
    · exact (exact_run_xb A x.data b.data _ _ N).1
    · obtain ⟨h1, h2, h3⟩ := exact_run_xb (K := K) A x.data b.data (fun i => (p i).data)
        (fun i => (q i).data) N
      rw [h2]
      congr 1
      rw [h1, map_sum]
      apply Finset.sum_congr rfl
      intro r hr
      rw [map_smul, h3 r (Finset.mem_range.mp hr)]
    · exact (exact_run_xb A x.data b.data _ _ N).2.1

end

/-- Witness of C10: the operator `[[1, 1], [1, 2]]` on `ℂ²`, the trial vectors `(1, 0)`, `(1, 1)`
and `b = (3, 4)`. -/
theorem C10_residual_deflation_witness :
    ∃ s, MinResExt.operator (exactBlas ℂ V2) (matOp 1 1 1 2) (onDevice (vec2 9 9))
        (onDevice (vec2 3 4)) (fun i => onDevice (pair (vec2 1 0) (vec2 1 1) i))
        (fun _ => onDevice (vec2 8 8)) 2 = Except.ok s ∧
      s.p = (orthonormalise (exactBlas ℂ V2) 2
        (MinResExt.entry (vec2 9 9) (vec2 3 4) (fun i => pair (vec2 1 0) (vec2 1 1) i)
          (fun _ => vec2 8 8))).p ∧
      (∀ i, i < 2 → s.q i = matOp 1 1 1 2 (s.p i)) ∧
      s.x = ∑ i in Finset.range 2, s.alpha i • s.p i ∧
      s.b = vec2 3 4 - matOp 1 1 1 2 s.x ∧
      s.b = vec2 3 4 - ∑ i in Finset.range 2, s.alpha i • s.q i :=
  C10_residual_deflation (matOp 1 1 1 2) (onDevice (vec2 9 9)) (onDevice (vec2 3 4))
    (fun i => onDevice (pair (vec2 1 0) (vec2 1 1) i)) (fun _ => onDevice (vec2 8 8)) 2
    rfl rfl

section

variable {K V : Type} [RCLike K] [NormedAddCommGroup V] [InnerProductSpace K V]
  [DecidableEq K]

/-- Claim C11: for every operator `mat`, self-adjoint or not, the state at the start of the
elimination holds the orthonormalised trial vectors, the original `b`, the images
`q_i = mat p_i`, the right-hand side `beta_i = <p_i, b>` and the matrix with
`G[i][i] = Re <q_i, p_i>`, `G[i][j] = <p_i, q_j>` and `G[j][i] = conj G[i][j]` for `i < j`;
the matrix is Hermitian for every operator, and when the operator is self-adjoint
`G[i][j] = <p_i, mat p_j>` for all `i`, `j` below `N`. -/
theorem C11_reduced_system_construction (mat : V → V) (x b : V) (p q : ℕ → V) (N : ℕ) :
    (MinResExt.built (exactBlas K V) mat x b p q N).p =
        (orthonormalise (exactBlas K V) N (MinResExt.entry x b p q)).p ∧
      (MinResExt.built (exactBlas K V) mat x b p q N).b = b ∧
      (∀ i, i < N → (MinResExt.built (exactBlas K V) mat x b p q N).q i =
        mat ((MinResExt.built (exactBlas K V) mat x b p q N).p i)) ∧
      (∀ i, i < N → (MinResExt.built (exactBlas K V) mat x b p q N).beta i =
        inner ((MinResExt.built (exactBlas K V) mat x b p q N).p i) b) ∧
      (∀ i, i < N → (MinResExt.built (exactBlas K V) mat x b p q N).G i i =
        ((RCLike.re (inner ((MinResExt.built (exactBlas K V) mat x b p q N).q i)
          ((MinResExt.built (exactBlas K V) mat x b p q N).p i) : K) : ℝ) : K)) ∧
      (∀ i j, i < j → j < N →
        (MinResExt.built (exactBlas K V) mat x b p q N).G i j =
            inner ((MinResExt.built (exactBlas K V) mat x b p q N).p i)
              ((MinResExt.built (exactBlas K V) mat x b p q N).q j) ∧
          (MinResExt.built (exactBlas K V) mat x b p q N).G j i =
            (starRingEnd K) ((MinResExt.built (exactBlas K V) mat x b p q N).G i j)) ∧
      (∀ i j, i < N → j < N →
        (MinResExt.built (exactBlas K V) mat x b p q N).G j i =
          (starRingEnd K) ((MinResExt.built (exactBlas K V) mat x b p q N).G i j)) ∧
      ((∀ u v : V, (inner (mat u) v : K) = inner u (mat v)) →
        ∀ i j, i < N → j < N →
          (MinResExt.built (exactBlas K V) mat x b p q N).G i j =
            inner ((MinResExt.built (exactBlas K V) mat x b p q N).p i)
              (mat ((MinResExt.built (exactBlas K V) mat x b p q N).p j))) := by
  obtain ⟨c1, c2, c3, c4, _, c6, _⟩ := built_spec (exactBlas K V) mat x b p q N
  have hq : ∀ i, i < N → (MinResExt.built (exactBlas K V) mat x b p q N).q i =
      mat ((MinResExt.built (exactBlas K V) mat x b p q N).p i) := by
    intro i hi
    rw [c2, if_pos hi, c1]
  have hup : ∀ i j, i < j → j < N →
      (MinResExt.built (exactBlas K V) mat x b p q N).G i j =
          inner ((MinResExt.built (exactBlas K V) mat x b p q N).p i)
            ((MinResExt.built (exactBlas K V) mat x b p q N).q j) ∧
        (MinResExt.built (exactBlas K V) mat x b p q N).G j i =
          (starRingEnd K) ((MinResExt.built (exactBlas K V) mat x b p q N).G i j) := by
    intro i j hij hj
    rw [hq j hj, c4 i j, c4 j i, if_pos ⟨hij, hj⟩, if_neg (by omega), if_pos ⟨hij, hj⟩, c1]
    exact ⟨rfl, rfl⟩
  have hdiag : ∀ i, i < N → (MinResExt.built (exactBlas K V) mat x b p q N).G i i =
      ((RCLike.re (inner ((MinResExt.built (exactBlas K V) mat x b p q N).q i)
        ((MinResExt.built (exactBlas K V) mat x b p q N).p i) : K) : ℝ) : K) := by
    intro i hi
    rw [hq i hi, c4 i i, if_neg (by omega), if_neg (by omega), if_pos ⟨rfl, hi⟩, c1]
    rfl
  refine ⟨c1, c6, hq, ?_, hdiag, hup, ?_, ?_⟩
  · intro i hi
    rw [c3, if_pos hi, c1]
    rfl
  · intro i j hi hj
    rcases Nat.lt_trichotomy i j with h | h | h
    · exact (hup i j h hj).2
    · subst h
      rw [hdiag i hi, RCLike.conj_ofReal]
    · rw [(hup j i h hi).2, RingHomCompTriple.comp_apply, RingHom.id_apply]
  · intro hsym i j hi hj
    rcases Nat.lt_trichotomy i j with h | h | h
    · rw [(hup i j h hj).1, hq j hj]
    · subst h
      rw [hdiag i hi, hq i hi, hsym]
      apply RCLike.conj_eq_iff_re.mp
      rw [inner_conj_symm]
      exact hsym _ _
    · rw [(hup j i h hi).2, (hup j i h hi).1, hq i hi, inner_conj_symm]
      exact hsym _ _

end

/-- Witness of C11: for the self-adjoint operator `[[2, 1], [1, 2]]` on `ℂ²` and the standard
basis every entry of the matrix built is `<p_i, A p_j>`. -/
theorem C11_reduced_system_construction_witness :
    ∀ i j, i < 2 → j < 2 →
      (toyBuilt (matOp 2 1 1 2) (vec2 3 3)).G i j =
        inner ((toyBuilt (matOp 2 1 1 2) (vec2 3 3)).p i)
          (matOp 2 1 1 2 ((toyBuilt (matOp 2 1 1 2) (vec2 3 3)).p j)) :=
  (C11_reduced_system_construction (K := ℂ) (matOp 2 1 1 2) (vec2 0 0) (vec2 3 3)
    (pair (vec2 1 0) (vec2 0 1)) (fun _ => vec2 0 0) 2).2.2.2.2.2.2.2 matOp_2112_isSymmetric

section

variable {R K V : Type} [LinearOrderedField R] [Field K] [DecidableEq K]

/-- Claim C12, amended: the call ends with the fatal error, at entry and whatever `N` is,
exactly when `x` or `b` is not resident in accelerator memory; the error is "Not supported" and
no operand has been modified (the error result carries no state). The locations of the trial
vectors and of the image vectors are not examined. -/
theorem C12_memory_domain_validation (E : Blas R K V) (mat : V → V) (x b : ColorSpinorField V)
    (p q : ℕ → ColorSpinorField V) (N : ℕ) :
    ((∃ e, MinResExt.operator E mat x b p q N = Except.error e) ↔
        ¬ (x.location = QudaFieldLocation.QUDA_CUDA_FIELD_LOCATION ∧
          b.location = QudaFieldLocation.QUDA_CUDA_FIELD_LOCATION)) ∧
      (∀ e, MinResExt.operator E mat x b p q N = Except.error e → e = "Not supported") ∧
      (∀ (p2 q2 : ℕ → ColorSpinorField V) (M : ℕ),
        (∃ e, MinResExt.operator E mat x b p2 q2 M = Except.error e) ↔
          ∃ e, MinResExt.operator E mat x b p q N = Except.error e) := by
  refine ⟨?_, ?_, ?_⟩
  · rw [operator_error_iff, Ne, Location_eq_cuda_iff]
  · intro e h
    unfold MinResExt.operator at h
    split_ifs at h
    exact (Except.error.inj h).symm
  · intro p2 q2 M
    rw [operator_error_iff, operator_error_iff]

end

/-- Counterexample to C12 as stated: `x`, `b` and the image vector reside in accelerator memory,
the single trial vector resides in host memory, `N = 1`; the call passes the entry check and
runs to completion, so "error if and only if some operand is not accelerator-resident" fails. -/
theorem C12_trial_vector_location_is_not_checked :
    ¬ ((∃ e, MinResExt.operator (exactBlas ℂ V2) (matOp 1 0 0 1) (onDevice (vec2 0 0))
          (onDevice (vec2 1 0))
          (fun _ => ⟨QudaFieldLocation.QUDA_CPU_FIELD_LOCATION, vec2 1 0⟩)
          (fun _ => onDevice (vec2 0 0)) 1 = Except.error e) ↔
        ((onDevice (vec2 0 0) : ColorSpinorField V2).location ≠
            QudaFieldLocation.QUDA_CUDA_FIELD_LOCATION ∨
          (onDevice (vec2 1 0) : ColorSpinorField V2).location ≠
            QudaFieldLocation.QUDA_CUDA_FIELD_LOCATION ∨
          ∃ i, i < 1 ∧
            (((fun _ => ⟨QudaFieldLocation.QUDA_CPU_FIELD_LOCATION, vec2 1 0⟩ :
                ℕ → ColorSpinorField V2) i).location ≠
                QudaFieldLocation.QUDA_CUDA_FIELD_LOCATION ∨
              ((fun _ => onDevice (vec2 0 0) : ℕ → ColorSpinorField V2) i).location ≠
                QudaFieldLocation.QUDA_CUDA_FIELD_LOCATION))) := by
  intro h
  obtain ⟨e, he⟩ := h.mpr (Or.inr (Or.inr ⟨0, Nat.zero_lt_one, Or.inl (by decide)⟩))
  rw [operator_eq_run _ _ _ _ _ _ 1 rfl rfl one_ne_zero] at he
  exact Except.noConfusion he

section

variable {K V : Type} [RCLike K] [NormedAddCommGroup V] [InnerProductSpace K V]
  [DecidableEq K]

/-- Claim C13: the initial contents of `x` and of the image vectors are never read. Two calls
that agree on `b`, the trial vectors, the operator and `N` and differ in the initial `x` and
image vectors both return, with identical `x`, `b`, trial vectors, image vectors below `N`,
coefficients, matrix, right-hand side, diagnostic and division-by-zero flag; each final image
vector below `N` is the operator applied to the orthonormalised trial vector. -/
theorem C13_output_by_mutation (mat : V → V) (x x' b : ColorSpinorField V)
    (p q q' : ℕ → ColorSpinorField V) (N : ℕ)
    (hx : x.location = QudaFieldLocation.QUDA_CUDA_FIELD_LOCATION)
    (hx' : x'.location = QudaFieldLocation.QUDA_CUDA_FIELD_LOCATION)
    (hb : b.location = QudaFieldLocation.QUDA_CUDA_FIELD_LOCATION) :
    ∃ s s', MinResExt.operator (exactBlas K V) mat x b p q N = Except.ok s ∧
      MinResExt.operator (exactBlas K V) mat x' b p q' N = Except.ok s' ∧
      s.x = s'.x ∧ s.b = s'.b ∧ s.p = s'.p ∧
      (∀ i, i < N → s.q i = s'.q i ∧ s.q i = mat (s.p i)) ∧
      s.alpha = s'.alpha ∧ s.G = s'.G ∧ s.beta = s'.beta ∧ s.rsd = s'.rsd ∧
      s.nonFinite = s'.nonFinite := by
  by_cases hN : N = 0
  · subst hN
    refine ⟨_, _, operator_zero (exactBlas K V) mat x b p q hx hb,
      operator_zero (exactBlas K V) mat x' b p q' hx' hb, rfl, rfl, rfl, ?_, rfl, rfl, rfl,
      rfl, rfl⟩
    intro i hi
    omega
  · obtain ⟨g, hg1, hg2⟩ := run_patch (exactBlas K V) mat x.data x'.data b.data
      (fun i => (p i).data) (fun i => (q i).data) (fun i => (q' i).data) N rfl
    refine ⟨_, _, operator_eq_run (exactBlas K V) mat x b p q N hx hb hN,
      operator_eq_run (exactBlas K V) mat x' b p q' N hx' hb hN, ?_, ?_, ?_, ?_, ?_, ?_, ?_,
      ?_, ?_⟩
    · rw [hg1]
    · rw [hg1]
    · rw [hg1]
    · intro i hi
      refine ⟨?_, (exact_run_xb (K := K) mat x.data b.data (fun i => (p i).data)
        (fun i => (q i).data) N).2.2 i hi⟩
      rw [hg1]
      exact (hg2 i hi).symm
    · rw [hg1]
    · rw [hg1]
    · rw [hg1]
    · rw [hg1]
    · rw [hg1]

end

/-- Witness of C13: the operator `[[2, 1], [1, 2]]` on `ℂ²`, the standard basis as trial vectors
and `b = (3, 3)`; one call starts from zero-filled `x` and image vectors, the other from
`x = (5, 7)` and image vectors `(1, 2)`. -/
theorem C13_output_by_mutation_witness :
    ∃ s s', MinResExt.operator (exactBlas ℂ V2) (matOp 2 1 1 2) (onDevice (vec2 0 0))
        (onDevice (vec2 3 3)) (fun i => onDevice (pair (vec2 1 0) (vec2 0 1) i))
        (fun _ => onDevice (vec2 0 0)) 2 = Except.ok s ∧
      MinResExt.operator (exactBlas ℂ V2) (matOp 2 1 1 2) (onDevice (vec2 5 7))
        (onDevice (vec2 3 3)) (fun i => onDevice (pair (vec2 1 0) (vec2 0 1) i))
        (fun _ => onDevice (vec2 1 2)) 2 = Except.ok s' ∧
      s.x = s'.x ∧ s.b = s'.b ∧ s.p = s'.p ∧
      (∀ i, i < 2 → s.q i = s'.q i ∧ s.q i = matOp 2 1 1 2 (s.p i)) := by
  obtain ⟨s, s', h1, h2, h3, h4, h5, h6, _⟩ :=
    C13_output_by_mutation (K := ℂ) (matOp 2 1 1 2) (onDevice (vec2 0 0)) (onDevice (vec2 5 7))
      (onDevice (vec2 3 3)) (fun i => onDevice (pair (vec2 1 0) (vec2 0 1) i))
      (fun _ => onDevice (vec2 0 0)) (fun _ => onDevice (vec2 1 2)) 2 rfl rfl rfl
  exact ⟨s, s', h1, h2, h3, h4, h5, h6⟩

section

variable {K V : Type} [RCLike K] [NormedAddCommGroup V] [InnerProductSpace K V]
  [DecidableEq K]

/-- Claim C14: for every `N`, matrix `G` and vector `beta` held by a state entering the
elimination, if at every elimination step `i` the entry `(i, i)` after the row swap is
non-zero, then the matrix left by the elimination loop is upper triangular with non-zero
diagonal, and the coefficients computed by the back-substitution solve `G alpha = beta` for the
original `G` and `beta`, with the columns in their original order: `alpha_i` is the coefficient
of the `i`-th trial vector in `x`; no other coefficients solve the system. -/
theorem C14_conditional_solver_correctness (N : ℕ) (s : MREState ℝ K V)
    (hp : PivotsNonzero (exactBlas K V) N s) :
    UpperTriangular N (eliminate (exactBlas K V) N s).G ∧
      (∀ r, r < N → (eliminate (exactBlas K V) N s).G r r ≠ 0) ∧
      Solves N s.G s.beta
        (backSubstitute (exactBlas K V) N (eliminate (exactBlas K V) N s)).alpha ∧
      (∀ γ, Solves N s.G s.beta γ → ∀ r, r < N →
        γ r = (backSubstitute (exactBlas K V) N (eliminate (exactBlas K V) N s)).alpha r) ∧
      (backSubstitute (exactBlas K V) N (eliminate (exactBlas K V) N s)).x =
        ∑ r in Finset.range N,
          (backSubstitute (exactBlas K V) N (eliminate (exactBlas K V) N s)).alpha r •
            s.p r := by
  obtain ⟨h1, h2, h3, h4⟩ := solves_of_pivots (exactBlas K V) N s hp
  refine ⟨h1, h2, h3, h4, ?_⟩
  rw [(exact_backSubstitute_xb N (eliminate (exactBlas K V) N s)).1,
    (eliminate_frame (exactBlas K V) N s).2.2.1]

end

/-- Witness of C14: the reduced system `[[2, 1], [1, 2]] alpha = (3, 3)` built from the
standard basis of `ℂ²`. -/
theorem C14_conditional_solver_correctness_witness :
    UpperTriangular 2 (eliminate (exactBlas ℂ V2) 2 (toyBuilt (matOp 2 1 1 2) (vec2 3 3))).G ∧
      Solves 2 (toyBuilt (matOp 2 1 1 2) (vec2 3 3)).G (toyBuilt (matOp 2 1 1 2) (vec2 3 3)).beta
        (backSubstitute (exactBlas ℂ V2) 2
          (eliminate (exactBlas ℂ V2) 2 (toyBuilt (matOp 2 1 1 2) (vec2 3 3)))).alpha := by
  obtain ⟨h1, _, h3, _⟩ := C14_conditional_solver_correctness 2
    (toyBuilt (matOp 2 1 1 2) (vec2 3 3)) (toy_2112_pivots _ _ _)
  exact ⟨h1, h3⟩

section

variable {K V : Type} [RCLike K] [NormedAddCommGroup V] [InnerProductSpace K V]
  [DecidableEq K]

/-- Claim C15, amended: for every `N`, every operator and every input accepted at entry the
call returns. If the orthonormalisation loop divided by no zero, then for each `k < N` the span
of the first `k + 1` orthonormalised trial vectors is contained in the span of the first
`k + 1` original ones. If the whole call divided by no zero (then the loop did not either), the
guess `x` lies in the linear span of the original trial vectors `p_0 .. p_(N-1)`. -/
theorem C15_span_of_guess (mat : V → V) (x b : ColorSpinorField V)
    (p q : ℕ → ColorSpinorField V) (N : ℕ)
    (hx : x.location = QudaFieldLocation.QUDA_CUDA_FIELD_LOCATION)
    (hb : b.location = QudaFieldLocation.QUDA_CUDA_FIELD_LOCATION) :
    ∃ s, MinResExt.operator (exactBlas K V) mat x b p q N = Except.ok s ∧
      ((orthonormalise (exactBlas K V) N
          (MinResExt.entry x.data b.data (fun i => (p i).data)
            (fun i => (q i).data))).nonFinite = false →
        ∀ k, k < N →
          spanBelow K s.p (k + 1) ≤ spanBelow K (fun i => (p i).data) (k + 1)) ∧
      (s.nonFinite = false → s.x ∈ spanBelow K (fun i => (p i).data) N) ∧
      (s.nonFinite = false →
        (orthonormalise (exactBlas K V) N
          (MinResExt.entry x.data b.data (fun i => (p i).data)
            (fun i => (q i).data))).nonFinite = false) := by
  by_cases hN : N = 0
  · subst hN
    refine ⟨_, operator_zero (exactBlas K V) mat x b p q hx hb, ?_, ?_, ?_⟩
    · intro _ k hk
      omega
    · intro _
      exact Submodule.zero_mem _
    · intro _
      rfl
  · refine ⟨_, operator_eq_run (exactBlas K V) mat x b p q N hx hb hN, ?_, ?_, ?_⟩
    · intro _ k hk
      apply spanBelow_le
      intro a ha
      rw [(run_fields (exactBlas K V) mat x.data b.data (fun i => (p i).data)
        (fun i => (q i).data) N).1]
      exact spanBelow_mono _ (by omega : a + 1 ≤ k + 1)
        (exact_orthonormalise_mem N (MinResExt.entry x.data b.data (fun i => (p i).data)
          (fun i => (q i).data)) a (by omega))
    · intro _
      have h1 := exact_run_x_mem (K := K) mat x.data b.data (fun i => (p i).data)
        (fun i => (q i).data) N
      refine spanBelow_le _ N _ ?_ h1
      intro a ha
      rw [(run_fields (exactBlas K V) mat x.data b.data (fun i => (p i).data)
        (fun i => (q i).data) N).1]
      exact spanBelow_mono _ (by omega : a + 1 ≤ N)
        (exact_orthonormalise_mem N (MinResExt.entry x.data b.data (fun i => (p i).data)
          (fun i => (q i).data)) a ha)
    · intro hfin
      exact (run_solves (exactBlas K V) mat x.data b.data (fun i => (p i).data)
        (fun i => (q i).data) N hfin).2.2

end

/-- Claim C15 refuted as stated: `N = 1`, the identity on `ℂ²`, `b = (1, 0)` and the zero vector
as the only trial vector. The squared norm `p2` of line 48 is zero and line 49 divides by its
square root: the call returns with the division-by-zero flag raised, so it leaves no guess
that is a member of the span. -/
theorem C15_zero_trial_vector_leaves_no_guess :
    (exactBlas ℂ V2).sqrt ((exactBlas ℂ V2).norm2 (vec2 0 0)) = 0 ∧
      (∃ s, MinResExt.operator (exactBlas ℂ V2) (matOp 1 0 0 1) (onDevice (vec2 0 0))
          (onDevice (vec2 1 0)) (fun _ => onDevice (vec2 0 0))
          (fun _ => onDevice (vec2 0 0)) 1 = Except.ok s ∧ s.nonFinite = true) ∧
      ¬ ∃ s, MinResExt.operator (exactBlas ℂ V2) (matOp 1 0 0 1) (onDevice (vec2 0 0))
          (onDevice (vec2 1 0)) (fun _ => onDevice (vec2 0 0))
          (fun _ => onDevice (vec2 0 0)) 1 = Except.ok s ∧ s.nonFinite = false ∧
        s.x ∈ spanBelow ℂ (fun _ : ℕ => (onDevice (vec2 0 0) : ColorSpinorField V2).data) 1 := by
  have hop := operator_eq_run (exactBlas ℂ V2) (matOp 1 0 0 1) (onDevice (vec2 0 0))
    (onDevice (vec2 1 0)) (fun _ => onDevice (vec2 0 0)) (fun _ => onDevice (vec2 0 0)) 1
    rfl rfl one_ne_zero
  have ho : (orthonormalise (exactBlas ℂ V2) 1
      (MinResExt.entry (vec2 0 0) (vec2 1 0) (fun _ => vec2 0 0)
        (fun _ => vec2 0 0))).nonFinite = true :=
    (exact_ortho_zero_flag 1 (MinResExt.entry (vec2 0 0) (vec2 1 0) (fun _ => vec2 0 0)
      (fun _ => vec2 0 0)) 0 Nat.zero_lt_one vec2_zero_zero).2
  have hrun : (MinResExt.run (exactBlas ℂ V2) (matOp 1 0 0 1) (vec2 0 0) (vec2 1 0)
      (fun _ => vec2 0 0) (fun _ => vec2 0 0) 1).nonFinite = true := by
    rcases hf : (MinResExt.run (exactBlas ℂ V2) (matOp 1 0 0 1) (vec2 0 0) (vec2 1 0)
      (fun _ => vec2 0 0) (fun _ => vec2 0 0) 1).nonFinite with _ | _
    · have h2 := (run_solves (exactBlas ℂ V2) (matOp 1 0 0 1) (vec2 0 0) (vec2 1 0)
        (fun _ => vec2 0 0) (fun _ => vec2 0 0) 1 hf).2.2
      rw [ho] at h2
      exact absurd h2 (by decide)
    · rfl
  refine ⟨?_, ⟨_, hop, hrun⟩, ?_⟩
  · rw [vec2_zero_zero]
    simp
  · rintro ⟨s, hs, hf, _⟩
    have e := Except.ok.inj (hs.symm.trans hop)
    rw [e] at hf
    exact absurd (hrun.symm.trans hf) (by decide)

/-- Witness of C15: the operator `[[2, 1], [1, 2]]` on `ℂ²`, the standard basis as trial vectors
and `b = (3, 3)`; the call divides by no zero. -/
theorem C15_span_of_guess_witness :
    ∃ s, MinResExt.operator (exactBlas ℂ V2) (matOp 2 1 1 2) (onDevice (vec2 0 0))
        (onDevice (vec2 3 3)) (fun i => onDevice (pair (vec2 1 0) (vec2 0 1) i))
        (fun _ => onDevice (vec2 0 0)) 2 = Except.ok s ∧
      s.nonFinite = false ∧
      s.x ∈ spanBelow ℂ (fun i => (onDevice (pair (vec2 1 0) (vec2 0 1) i)).data) 2 ∧
      ∀ k, k < 2 → spanBelow ℂ s.p (k + 1) ≤
        spanBelow ℂ (fun i => (onDevice (pair (vec2 1 0) (vec2 0 1) i)).data) (k + 1) := by
  obtain ⟨s, hs, h1, h2, h3⟩ :=
    C15_span_of_guess (K := ℂ) (matOp 2 1 1 2) (onDevice (vec2 0 0)) (onDevice (vec2 3 3))
      (fun i => onDevice (pair (vec2 1 0) (vec2 0 1) i)) (fun _ => onDevice (vec2 0 0)) 2
      rfl rfl
  have hop := operator_eq_run (exactBlas ℂ V2) (matOp 2 1 1 2) (onDevice (vec2 0 0))
    (onDevice (vec2 3 3)) (fun i => onDevice (pair (vec2 1 0) (vec2 0 1) i))
    (fun _ => onDevice (vec2 0 0)) 2 rfl rfl (by norm_num)
  have hfin : s.nonFinite = false := by
    rw [Except.ok.inj (hs.symm.trans hop)]
    exact toy_run_2112_nonFinite _ _ _ _ (Or.inl ⟨rfl, rfl⟩)
  exact ⟨s, hs, hfin, h2 hfin, h1 (h3 hfin)⟩

section

variable {K V : Type} [RCLike K] [NormedAddCommGroup V] [InnerProductSpace K V]
  [DecidableEq K]

/-- Claim C16: for a self-adjoint operator, linearly independent trial vectors and any `b`, if
no pivot used by the elimination and the back-substitution is zero, the call returns, has
divided by no zero, and the residual it leaves in `b` is orthogonal to every orthonormalised
trial vector and to every original trial vector. -/
theorem C16_galerkin_orthogonality (A : V →ₗ[K] V) (hsym : A.IsSymmetric)
    (x b : ColorSpinorField V) (p q : ℕ → ColorSpinorField V) (N : ℕ)
    (hx : x.location = QudaFieldLocation.QUDA_CUDA_FIELD_LOCATION)
    (hb : b.location = QudaFieldLocation.QUDA_CUDA_FIELD_LOCATION)
    (hli : LinearIndependent K (fun a : Fin N => (p a).data))
    (hpiv : PivotsNonzero (exactBlas K V) N
      (MinResExt.built (exactBlas K V) A x.data b.data (fun i => (p i).data)
        (fun i => (q i).data) N)) :
    ∃ s, MinResExt.operator (exactBlas K V) A x b p q N = Except.ok s ∧
      s.nonFinite = false ∧
      (∀ i, i < N → (inner (s.p i) s.b : K) = 0) ∧
      (∀ i, i < N → (inner (p i).data s.b : K) = 0) := by
  by_cases hN : N = 0
  · subst hN
    refine ⟨_, operator_zero (exactBlas K V) A x b p q hx hb, rfl, ?_, ?_⟩
    · intro i hi
      omega
    · intro i hi
      omega
  · have hfin := exact_run_nonFinite_of_pivots (K := K) A x.data b.data
      (fun i => (p i).data) (fun i => (q i).data) N hli hpiv
    have hind := not_mem_spanBelow_of_linearIndependent N (fun i => (p i).data) hli
    have horth := exact_galerkin A hsym x.data b.data (fun i => (p i).data)
      (fun i => (q i).data) N hfin
    refine ⟨_, operator_eq_run (exactBlas K V) A x b p q N hx hb hN, hfin, horth, ?_⟩
    intro i hi
    apply inner_eq_zero_of_mem_spanBelow _ N _ horth
    rw [exact_run_span (K := K) A x.data b.data (fun i => (p i).data)
      (fun i => (q i).data) N hind]
    exact mem_spanBelow (fun i => (p i).data) hi

end

/-- Witness of C16: the operator `[[2, 1], [1, 2]]` on `ℂ²`, the standard basis as trial vectors
and `b = (3, 3)`. -/
theorem C16_galerkin_orthogonality_witness :
    ∃ s, MinResExt.operator (exactBlas ℂ V2) (matOp 2 1 1 2) (onDevice (vec2 0 0))
        (onDevice (vec2 3 3)) (fun i => onDevice (pair (vec2 1 0) (vec2 0 1) i))
        (fun _ => onDevice (vec2 0 0)) 2 = Except.ok s ∧
      s.nonFinite = false ∧
      (∀ i, i < 2 → (inner (s.p i) s.b : ℂ) = 0) ∧
      (∀ i, i < 2 → (inner (onDevice (pair (vec2 1 0) (vec2 0 1) i)).data s.b : ℂ) = 0) :=
  C16_galerkin_orthogonality (matOp 2 1 1 2) matOp_2112_isSymmetric (onDevice (vec2 0 0))
    (onDevice (vec2 3 3)) (fun i => onDevice (pair (vec2 1 0) (vec2 0 1) i))
    (fun _ => onDevice (vec2 0 0)) 2 rfl rfl linearIndependent_standard
    (toy_2112_pivots _ _ _)

section

variable {K V : Type} [RCLike K] [NormedAddCommGroup V] [InnerProductSpace K V]
  [DecidableEq K]

/-- Claim C17: in the orthonormalisation loop on a linearly independent family the squared
norm `p2` taken at each step `i < N` is strictly positive, so its square root, the divisor, is
not zero and the loop raises no division-by-zero flag; conversely, when the trial vector is
zero at step `i` (in particular when the original `p_i` is zero), `p2` and the divisor are zero
and the division is performed all the same: the step and the loop end with the flag raised. -/
theorem C17_orthonormaliser_division (N : ℕ) (s : MREState ℝ K V) :
    (LinearIndependent K (fun a : Fin N => s.p a) →
        (∀ i, i < N →
          0 < (exactBlas K V).norm2 ((forRange 0 i (orthoStep (exactBlas K V) N) s).p i) ∧
          (exactBlas K V).sqrt ((exactBlas K V).norm2
            ((forRange 0 i (orthoStep (exactBlas K V) N) s).p i)) ≠ 0) ∧
        (orthonormalise (exactBlas K V) N s).nonFinite = s.nonFinite) ∧
      (∀ i, i < N →
        (s.p i = 0 ∨ (forRange 0 i (orthoStep (exactBlas K V) N) s).p i = 0) →
          (exactBlas K V).norm2 ((forRange 0 i (orthoStep (exactBlas K V) N) s).p i) = 0 ∧
          (exactBlas K V).sqrt ((exactBlas K V).norm2
            ((forRange 0 i (orthoStep (exactBlas K V) N) s).p i)) = 0 ∧
          (orthoStep (exactBlas K V) N i
            (forRange 0 i (orthoStep (exactBlas K V) N) s)).nonFinite = true ∧
          (orthonormalise (exactBlas K V) N s).nonFinite = true) := by
  constructor
  · intro hli
    have hind := not_mem_spanBelow_of_linearIndependent N s.p hli
    refine ⟨?_, (exact_orthonormalise_spec N s hind).1⟩
    intro i hi
    have hne := exact_ortho_step_ne_zero N s hind i hi
    have hpos : 0 < ‖(forRange 0 i (orthoStep (exactBlas K V) N) s).p i‖ :=
      norm_pos_iff.mpr hne
    constructor
    · rw [exactBlas_norm2]
      positivity
    · rw [exactBlas_norm2, exactBlas_sqrt, Real.sqrt_sq (le_of_lt hpos)]
      exact ne_of_gt hpos
  · intro i hi h
    have h0 : (forRange 0 i (orthoStep (exactBlas K V) N) s).p i = 0 := by
      rcases h with h | h
      · exact (exact_ortho_upto N i (le_of_lt hi) s).2.2 i h le_rfl
      · exact h
    obtain ⟨f1, f2⟩ := exact_ortho_zero_flag N s i hi h0
    refine ⟨?_, ?_, f1, f2⟩
    · rw [h0]
      simp
    · rw [h0]
      simp

end

/-- Witness of C17: the standard basis of `ℂ²` is linearly independent, so both squared norms
are positive; with the zero vector in first place the loop ends with the flag raised. -/
theorem C17_orthonormaliser_division_witness :
    (∀ i, i < 2 →
        0 < (exactBlas ℂ V2).norm2 ((forRange 0 i (orthoStep (exactBlas ℂ V2) 2)
          (MinResExt.entry (vec2 0 0) (vec2 3 3) (pair (vec2 1 0) (vec2 0 1))
            (fun _ => vec2 0 0))).p i)) ∧
      (orthonormalise (exactBlas ℂ V2) 2
        (MinResExt.entry (vec2 0 0) (vec2 3 3) (pair (vec2 0 0) (vec2 0 1))
          (fun _ => vec2 0 0))).nonFinite = true :=
  ⟨fun i hi => (((C17_orthonormaliser_division 2
      (MinResExt.entry (vec2 0 0) (vec2 3 3) (pair (vec2 1 0) (vec2 0 1))
        (fun _ => vec2 0 0))).1 linearIndependent_standard).1 i hi).1,
    ((C17_orthonormaliser_division 2
      (MinResExt.entry (vec2 0 0) (vec2 3 3) (pair (vec2 0 0) (vec2 0 1))
        (fun _ => vec2 0 0))).2 0 (by norm_num) (Or.inl vec2_zero_zero)).2.2.2⟩

section

variable {K V : Type} [RCLike K] [NormedAddCommGroup V] [InnerProductSpace K V]
  [DecidableEq K]

/-- Claim C18: for every operator, every input accepted at entry and every real `c > 0`,
multiplying one trial vector `p_j`, `j < N`, by `c` before the call changes nothing of what the
call leaves: both calls return the same state (orthonormalised trial vectors, image vectors,
eliminated matrix and right-hand side, coefficients, `x`, final `b`, diagnostic, flag), and the
reduced system built before the elimination is the same. -/
theorem C18_scale_invariance (mat : V → V) (x b : ColorSpinorField V)
    (p q : ℕ → ColorSpinorField V) (N j : ℕ) (c : ℝ)
    (hx : x.location = QudaFieldLocation.QUDA_CUDA_FIELD_LOCATION)
    (hb : b.location = QudaFieldLocation.QUDA_CUDA_FIELD_LOCATION)
    (hj : j < N) (hc : 0 < c) :
    ∃ s, MinResExt.operator (exactBlas K V) mat x b p q N = Except.ok s ∧
      MinResExt.operator (exactBlas K V) mat x b
        (Function.update p j ⟨(p j).location, ((c : ℝ) : K) • (p j).data⟩) q N = Except.ok s ∧
      MinResExt.built (exactBlas K V) mat x.data b.data
          (fun i => (Function.update p j
            ⟨(p j).location, ((c : ℝ) : K) • (p j).data⟩ i).data)
          (fun i => (q i).data) N =
        MinResExt.built (exactBlas K V) mat x.data b.data (fun i => (p i).data)
          (fun i => (q i).data) N := by
  have hN : N ≠ 0 := by omega
  obtain ⟨h1, h2⟩ := run_scaled (K := K) mat x.data b.data (fun i => (p i).data)
    (fun i => (q i).data) N j hj c hc
  refine ⟨_, operator_eq_run (exactBlas K V) mat x b p q N hx hb hN, ?_, ?_⟩
  · rw [operator_eq_run (exactBlas K V) mat x b _ q N hx hb hN, scaled_data, h2]
  · rw [scaled_data, h1]

end

/-- Witness of C18: the operator `[[2, 1], [1, 2]]` on `ℂ²`, the standard basis as trial vectors,
`b = (3, 3)`, and the first trial vector multiplied by `2`. -/
theorem C18_scale_invariance_witness :
    ∃ s, MinResExt.operator (exactBlas ℂ V2) (matOp 2 1 1 2) (onDevice (vec2 0 0))
        (onDevice (vec2 3 3)) (fun i => onDevice (pair (vec2 1 0) (vec2 0 1) i))
        (fun _ => onDevice (vec2 0 0)) 2 = Except.ok s ∧
      MinResExt.operator (exactBlas ℂ V2) (matOp 2 1 1 2) (onDevice (vec2 0 0))
        (onDevice (vec2 3 3))
        (Function.update (fun i => onDevice (pair (vec2 1 0) (vec2 0 1) i)) 0
          ⟨(onDevice (pair (vec2 1 0) (vec2 0 1) 0)).location,
            ((2 : ℝ) : ℂ) • (onDevice (pair (vec2 1 0) (vec2 0 1) 0)).data⟩)
        (fun _ => onDevice (vec2 0 0)) 2 = Except.ok s := by
  obtain ⟨s, h1, h2, _⟩ :=
    C18_scale_invariance (K := ℂ) (matOp 2 1 1 2) (onDevice (vec2 0 0)) (onDevice (vec2 3 3))
      (fun i => onDevice (pair (vec2 1 0) (vec2 0 1) i)) (fun _ => onDevice (vec2 0 0)) 2 0 2
      rfl rfl (by norm_num) (by norm_num)
  exact ⟨s, h1, h2⟩

/-- Claim C19: in a build with `MULTI_GPU` defined, for non-negative lattice extents whose
products stay within `int`, `setGaugeParam` sets `ga_pad` to the maximum of the four half-face
sizes `X1*X2*X3/2`, `X0*X2*X3/2`, `X0*X1*X3/2`, `X0*X1*X2/2` (integer division); the padding is
one of the four, is at least each of them, in particular at least `X0*X1*X2/2`; in a build
without `MULTI_GPU` it sets `ga_pad` to `0`. -/
theorem C19_gauge_padding (X0 X1 X2 X3 : Int) (g : QudaGaugeParam)
    (h0 : 0 ≤ X0) (h1 : 0 ≤ X1) (h2 : 0 ≤ X2) (h3 : 0 ≤ X3)
    (h01 : X0 * X1 < 2 ^ 31) (h02 : X0 * X2 < 2 ^ 31) (h12 : X1 * X2 < 2 ^ 31)
    (h123 : X1 * X2 * X3 < 2 ^ 31) (h023 : X0 * X2 * X3 < 2 ^ 31)
    (h013 : X0 * X1 * X3 < 2 ^ 31) (h012 : X0 * X1 * X2 < 2 ^ 31) :
    (setGaugeParam true X0 X1 X2 X3 g).ga_pad =
        max (max (max (X1 * X2 * X3 / 2) (X0 * X2 * X3 / 2)) (X0 * X1 * X3 / 2))
          (X0 * X1 * X2 / 2) ∧
      ((setGaugeParam true X0 X1 X2 X3 g).ga_pad = X1 * X2 * X3 / 2 ∨
        (setGaugeParam true X0 X1 X2 X3 g).ga_pad = X0 * X2 * X3 / 2 ∨
        (setGaugeParam true X0 X1 X2 X3 g).ga_pad = X0 * X1 * X3 / 2 ∨
        (setGaugeParam true X0 X1 X2 X3 g).ga_pad = X0 * X1 * X2 / 2) ∧
      X1 * X2 * X3 / 2 ≤ (setGaugeParam true X0 X1 X2 X3 g).ga_pad ∧
      X0 * X2 * X3 / 2 ≤ (setGaugeParam true X0 X1 X2 X3 g).ga_pad ∧
      X0 * X1 * X3 / 2 ≤ (setGaugeParam true X0 X1 X2 X3 g).ga_pad ∧
      X0 * X1 * X2 / 2 ≤ (setGaugeParam true X0 X1 X2 X3 g).ga_pad ∧
      (setGaugeParam true X0 X1 X2 X3 g).X = ![X0, X1, X2, X3] ∧
      (setGaugeParam false X0 X1 X2 X3 g).ga_pad = 0 := by
  have h := setGaugeParam_multi X0 X1 X2 X3 g h0 h1 h2 h3 h01 h02 h12 h123 h023 h013 h012
  refine ⟨h, ?_, ?_, ?_, ?_, ?_, rfl, rfl⟩
  · rw [h]
    rcases max_cases (max (max (X1 * X2 * X3 / 2) (X0 * X2 * X3 / 2)) (X0 * X1 * X3 / 2))
      (X0 * X1 * X2 / 2) with ⟨e, _⟩ | ⟨e, _⟩
    · rw [e]
      rcases max_cases (max (X1 * X2 * X3 / 2) (X0 * X2 * X3 / 2)) (X0 * X1 * X3 / 2)
        with ⟨e2, _⟩ | ⟨e2, _⟩
      · rw [e2]
        rcases max_cases (X1 * X2 * X3 / 2) (X0 * X2 * X3 / 2) with ⟨e3, _⟩ | ⟨e3, _⟩
        · exact Or.inl e3
        · exact Or.inr (Or.inl e3)
      · exact Or.inr (Or.inr (Or.inl e2))
    · exact Or.inr (Or.inr (Or.inr e))
  · rw [h]
    exact le_max_of_le_left (le_max_of_le_left (le_max_left _ _))
  · rw [h]
    exact le_max_of_le_left (le_max_of_le_left (le_max_right _ _))
  · rw [h]
    exact le_max_of_le_left (le_max_right _ _)
  · rw [h]
    exact le_max_right _ _

/-- Witness of C19: the lattice `4 × 6 × 8 × 16`; the padding is `8*6*16/2 = 384`. -/
theorem C19_gauge_padding_witness :
    (setGaugeParam true 4 6 8 16 ⟨fun _ => 0, 7⟩).ga_pad = 384 ∧
      (setGaugeParam true 4 6 8 16 ⟨fun _ => 0, 7⟩).ga_pad = 6 * 8 * 16 / 2 ∧
      (4 : Int) * 6 * 8 / 2 ≤ (setGaugeParam true 4 6 8 16 ⟨fun _ => 0, 7⟩).ga_pad ∧
      (setGaugeParam false 4 6 8 16 ⟨fun _ => 0, 7⟩).ga_pad = 0 := by
  obtain ⟨h, _, _, _, _, h6, _, h8⟩ :=
    C19_gauge_padding 4 6 8 16 ⟨fun _ => 0, 7⟩ (by norm_num) (by norm_num) (by norm_num)
      (by norm_num) (by norm_num) (by norm_num) (by norm_num) (by norm_num) (by norm_num)
      (by norm_num) (by norm_num)
  refine ⟨by rw [h]; norm_num, by rw [h]; norm_num, h6, h8⟩

end quda
